import Mathlib

/-!
# Scroll checkpoint recorder and player (`src/js/scroll-assistant.js`)

A shallow embedding of the keyboard-driven scroll assistant: its module state
(`mode`, `checkpoints`, `playbackIndex`, `isScrolling`), the `init` routine, the
`keydown` listener, `smoothScrollTo` with its per-frame `step`, and the parts of
the browser the script talks to (`localStorage`, `window.scrollY`,
`window.innerHeight`, `requestAnimationFrame`, `JSON.parse`, `JSON.stringify`).

Conventions of the embedding

* JavaScript numbers are `JSNum`: an exact rational, `+Infinity`, `-Infinity` or
  `NaN`.  Finite doubles are idealised as rationals (no rounding, no signed
  zero); a zero divisor counts as `+0`.
* Where rounding matters (where an animation lands), `smoothScrollTo` and `step`
  are given a second time with every operation rounded by an arithmetic `Arith`
  (`smoothScrollToWith`, `stepWith`); `binary64` is round to nearest, ties to even,
  written out (`binary64_sound`), and `with_exactArith` shows that without rounding
  the two embeddings agree.
* JSON values are `JVal`.  The variable `checkpoints` holds a `JVal`, because
  `init` assigns whatever `JSON.parse` returned before looking at its shape.
* `JSON.parse` is written out in full (`JSON_parse`, with a fuel shown to be enough
  in `JSON_parse_fuel`); `JSON.stringify` is written out for what the recorder
  passes to it, arrays of integers.
* An operation of the listener on a `checkpoints` value that is not an array
  (`push`, `.length`, indexing on a non-array) is outside the embedding: the
  listener then has no result (`none`).  `keydown_total_of_wellFormed` and
  `Reachable.wellFormed` show this never happens in a reachable state.
* `ToNumber` on strings, arrays and objects is a parameter of the host
  (`Host.coerce`); every statement holds for every such host.
* Log lines are kept by the data they are built from (`LogMsg`), not as text.
-/

namespace ScrollAssist

/-! ## JavaScript numbers -/

/-- A JavaScript number: a finite value (idealised as a rational), an infinity or NaN. -/
inductive JSNum where
  | fin (q : ℚ)
  | posInf
  | negInf
  | nan
deriving DecidableEq

namespace JSNum

/-- Unary minus. -/
def neg : JSNum → JSNum
  | fin q => fin (-q)
  | posInf => negInf
  | negInf => posInf
  | nan => nan

/-- The operator `+` on numbers. -/
def add : JSNum → JSNum → JSNum
  | nan, _ => nan
  | _, nan => nan
  | fin a, fin b => fin (a + b)
  | posInf, negInf => nan
  | negInf, posInf => nan
  | posInf, _ => posInf
  | _, posInf => posInf
  | negInf, _ => negInf
  | _, negInf => negInf

/-- The operator `-` on numbers. -/
def sub (a b : JSNum) : JSNum := add a (neg b)

/-- An infinity of the sign of `q`, NaN when `q` is zero (`Infinity * q`). -/
def infTimes (q : ℚ) : JSNum :=
  if q = 0 then nan else if 0 < q then posInf else negInf

/-- The operator `*` on numbers. -/
def mul : JSNum → JSNum → JSNum
  | nan, _ => nan
  | _, nan => nan
  | fin a, fin b => fin (a * b)
  | fin a, posInf => infTimes a
  | fin a, negInf => infTimes (-a)
  | posInf, fin b => infTimes b
  | negInf, fin b => infTimes (-b)
  | posInf, posInf => posInf
  | negInf, negInf => posInf
  | posInf, negInf => negInf
  | negInf, posInf => negInf

/-- The operator `/` on numbers; a zero divisor is `+0`. -/
def div : JSNum → JSNum → JSNum
  | nan, _ => nan
  | _, nan => nan
  | fin a, fin b => if b = 0 then infTimes a else fin (a / b)
  | fin _, posInf => fin 0
  | fin _, negInf => fin 0
  | posInf, fin b => if 0 ≤ b then posInf else negInf
  | negInf, fin b => if 0 ≤ b then negInf else posInf
  | posInf, posInf => nan
  | posInf, negInf => nan
  | negInf, posInf => nan
  | negInf, negInf => nan

/-- `Math.abs`. -/
def abs : JSNum → JSNum
  | fin q => fin |q|
  | posInf => posInf
  | negInf => posInf
  | nan => nan

/-- The operator `<` on numbers (false as soon as one side is NaN). -/
def lt : JSNum → JSNum → Bool
  | nan, _ => false
  | _, nan => false
  | fin a, fin b => decide (a < b)
  | fin _, posInf => true
  | fin _, negInf => false
  | posInf, _ => false
  | negInf, negInf => false
  | negInf, _ => true

/-- `Math.min` of two numbers (NaN as soon as one argument is NaN). -/
def min : JSNum → JSNum → JSNum
  | nan, _ => nan
  | _, nan => nan
  | a, b => if lt b a then b else a

/-- `Math.max` of two numbers (NaN as soon as one argument is NaN). -/
def max : JSNum → JSNum → JSNum
  | nan, _ => nan
  | _, nan => nan
  | a, b => if lt a b then b else a

/-- `Math.pow(x, n)` for a natural exponent `n`. -/
def pow : JSNum → Nat → JSNum
  | _, 0 => fin 1
  | fin q, n + 1 => fin (q ^ (n + 1))
  | posInf, _ + 1 => posInf
  | negInf, n + 1 => if (n + 1) % 2 = 1 then negInf else posInf
  | nan, _ + 1 => nan

/-- The comparison `x === 0`. -/
def isZero : JSNum → Bool
  | fin q => decide (q = 0)
  | _ => false

end JSNum

/-- `Math.round` on a finite number: the nearest integer, halves rounded up. -/
def Math_round (x : ℚ) : ℚ := ((⌊x + 1 / 2⌋ : ℤ) : ℚ)

/-! ## JSON values, `JSON.parse` and `JSON.stringify` -/

/-- A value as `JSON.parse` produces it.  A string keeps the text of its literal
(escape sequences undecoded): the script never looks inside a string. -/
inductive JVal where
  | null
  | bool (b : Bool)
  | num (q : ℚ)
  | str (raw : String)
  | arr (items : List JVal)
  | obj (members : List (String × JVal))

/-- `Array.isArray`. -/
def JVal.isArray : JVal → Bool
  | .arr _ => true
  | _ => false

/-- JSON white space: space, tab, line feed, carriage return. -/
def isWs (c : Char) : Bool :=
  c = Char.ofNat 32 || c = Char.ofNat 9 || c = Char.ofNat 10 || c = Char.ofNat 13

/-- Drop leading white space. -/
def skipWs : List Char → List Char
  | [] => []
  | c :: cs => if isWs c then skipWs cs else c :: cs

/-- A decimal digit. -/
def isDigit (c : Char) : Bool := decide (48 ≤ c.toNat) && decide (c.toNat ≤ 57)

/-- A hexadecimal digit. -/
def isHex (c : Char) : Bool :=
  isDigit c || (decide (97 ≤ c.toNat) && decide (c.toNat ≤ 102))
    || (decide (65 ≤ c.toNat) && decide (c.toNat ≤ 70))

/-- The value of a run of decimal digits. -/
def digitsVal (ds : List Char) : Nat :=
  ds.foldl (fun a c => 10 * a + (c.toNat - 48)) 0

/-- The integer part of a JSON number: `0`, or a non-zero digit and more digits. -/
def parseIntPart : List Char → Option (Nat × List Char)
  | [] => none
  | c :: cs =>
    if c = Char.ofNat 48 then some (0, cs)
    else if isDigit c then
      some (digitsVal ((c :: cs).takeWhile isDigit), (c :: cs).dropWhile isDigit)
    else none

/-- The optional fraction of a JSON number: `.` and at least one digit. -/
def parseFrac : List Char → Option (ℚ × List Char)
  | [] => some (0, [])
  | c :: cs =>
    if c = Char.ofNat 46 then
      if cs.takeWhile isDigit = [] then none
      else some ((digitsVal (cs.takeWhile isDigit) : ℚ) / 10 ^ (cs.takeWhile isDigit).length,
        cs.dropWhile isDigit)
    else some (0, c :: cs)

/-- The digits of an exponent, at least one. -/
def parseExpDigits (cs : List Char) : Option (Nat × List Char) :=
  if cs.takeWhile isDigit = [] then none
  else some (digitsVal (cs.takeWhile isDigit), cs.dropWhile isDigit)

/-- The optional exponent of a JSON number: `e` or `E`, an optional sign, digits. -/
def parseExp : List Char → Option (ℤ × List Char)
  | [] => some (0, [])
  | c :: cs =>
    if c = Char.ofNat 101 ∨ c = Char.ofNat 69 then
      match cs with
      | [] => none
      | d :: ds =>
        if d = Char.ofNat 45 then (parseExpDigits ds).map (fun r => (-(r.1 : ℤ), r.2))
        else if d = Char.ofNat 43 then (parseExpDigits ds).map (fun r => ((r.1 : ℤ), r.2))
        else (parseExpDigits (d :: ds)).map (fun r => ((r.1 : ℤ), r.2))
    else some (0, c :: cs)

/-- A JSON number without its sign. -/
def parseUnsigned (cs : List Char) : Option (ℚ × List Char) :=
  match parseIntPart cs with
  | none => none
  | some (i, r1) =>
    match parseFrac r1 with
    | none => none
    | some (f, r2) =>
      match parseExp r2 with
      | none => none
      | some (e, r3) => some (((i : ℚ) + f) * (10 : ℚ) ^ e, r3)

/-- A JSON number: an optional minus sign and an unsigned number. -/
def parseNumber : List Char → Option (ℚ × List Char)
  | [] => none
  | c :: cs =>
    if c = Char.ofNat 45 then (parseUnsigned cs).map (fun r => (-r.1, r.2))
    else parseUnsigned (c :: cs)

/-- The characters that may follow a backslash in a JSON string (besides `u`):
the quote, the backslash, `/`, `b`, `f`, `n`, `r`, `t`. -/
def isEscape (c : Char) : Bool :=
  c = Char.ofNat 34 || c = Char.ofNat 92 || c = Char.ofNat 47 || c = Char.ofNat 98
    || c = Char.ofNat 102 || c = Char.ofNat 110 || c = Char.ofNat 114 || c = Char.ofNat 116

/-- The length of the escape sequence that follows a backslash: 1 for a simple
escape, 5 for `u` and four hexadecimal digits. -/
def escapeLength : List Char → Option Nat
  | [] => none
  | e :: r =>
    if isEscape e then some 1
    else if e = Char.ofNat 117 ∧ 4 ≤ r.length ∧ (r.take 4).all isHex then some 5
    else none

/-- The rest of a JSON string after its opening quote: the text up to the closing
quote (kept as written, in reverse in `acc`) and what follows it.  Control
characters must be escaped. -/
def parseStringBody : Nat → List Char → List Char → Option (List Char × List Char)
  | 0, _, _ => none
  | _ + 1, [], _ => none
  | n + 1, c :: cs, acc =>
    if c = Char.ofNat 34 then some (acc.reverse, cs)
    else if c = Char.ofNat 92 then
      (escapeLength cs).bind (fun k =>
        parseStringBody n (cs.drop k) ((cs.take k).reverse ++ c :: acc))
    else if c.toNat < 32 then none
    else parseStringBody n cs (c :: acc)

/-- A JSON string literal. -/
def parseString : List Char → Option (String × List Char)
  | [] => none
  | c :: cs =>
    if c = Char.ofNat 34 then
      (parseStringBody (cs.length + 1) cs []).map (fun r => (String.mk r.1, r.2))
    else none

/-- A value that is neither an array, an object nor a string: `true`, `false`,
`null` or a number. -/
def parseAtom (cs : List Char) : Option (JVal × List Char) :=
  if cs.take 4 = [Char.ofNat 116, Char.ofNat 114, Char.ofNat 117, Char.ofNat 101] then
    some (JVal.bool true, cs.drop 4)
  else if cs.take 5
      = [Char.ofNat 102, Char.ofNat 97, Char.ofNat 108, Char.ofNat 115, Char.ofNat 101] then
    some (JVal.bool false, cs.drop 5)
  else if cs.take 4 = [Char.ofNat 110, Char.ofNat 117, Char.ofNat 108, Char.ofNat 108] then
    some (JVal.null, cs.drop 4)
  else (parseNumber cs).map (fun p => (JVal.num p.1, p.2))

mutual

/-- A JSON value at the head of the input; the recursion is on a fuel that bounds
the number of nested or consecutive values still to be read. -/
def parseValue : Nat → List Char → Option (JVal × List Char)
  | 0, _ => none
  | n + 1, cs =>
    if cs.head? = some (Char.ofNat 91) then
      if (skipWs cs.tail).head? = some (Char.ofNat 93) then
        some (JVal.arr [], (skipWs cs.tail).tail)
      else (parseElems n (skipWs cs.tail)).map (fun p => (JVal.arr p.1, p.2))
    else if cs.head? = some (Char.ofNat 123) then
      if (skipWs cs.tail).head? = some (Char.ofNat 125) then
        some (JVal.obj [], (skipWs cs.tail).tail)
      else (parseMembers n (skipWs cs.tail)).map (fun p => (JVal.obj p.1, p.2))
    else if cs.head? = some (Char.ofNat 34) then
      (parseString cs).map (fun p => (JVal.str p.1, p.2))
    else parseAtom cs

/-- The elements of a non-empty array, from the first element to the closing bracket. -/
def parseElems : Nat → List Char → Option (List JVal × List Char)
  | 0, _ => none
  | n + 1, cs =>
    (parseValue n cs).bind (fun v =>
      if (skipWs v.2).head? = some (Char.ofNat 44) then
        (parseElems n (skipWs (skipWs v.2).tail)).map (fun p => (v.1 :: p.1, p.2))
      else if (skipWs v.2).head? = some (Char.ofNat 93) then some ([v.1], (skipWs v.2).tail)
      else none)

/-- The members of a non-empty object, from the first key to the closing brace. -/
def parseMembers : Nat → List Char → Option (List (String × JVal) × List Char)
  | 0, _ => none
  | n + 1, cs =>
    (parseString cs).bind (fun k =>
      if (skipWs k.2).head? = some (Char.ofNat 58) then
        (parseValue n (skipWs (skipWs k.2).tail)).bind (fun v =>
          if (skipWs v.2).head? = some (Char.ofNat 44) then
            (parseMembers n (skipWs (skipWs v.2).tail)).map (fun p => ((k.1, v.1) :: p.1, p.2))
          else if (skipWs v.2).head? = some (Char.ofNat 125) then
            some ([(k.1, v.1)], (skipWs v.2).tail)
          else none)
      else none)

end

/-- `JSON.parse`: the value a text denotes, `none` where `JSON.parse` throws a
`SyntaxError`.  The fuel is the length of the text plus one, which is always enough
(`JSON_parse_fuel`: every value read consumes a character). -/
def JSON_parse (s : String) : Option JVal :=
  match parseValue (s.length + 1) (skipWs s.toList) with
  | none => none
  | some (v, r) => if skipWs r = [] then some v else none

/-- The character of a decimal digit. -/
def digitChar (d : Nat) : Char := Char.ofNat (48 + d)

/-- The decimal digits of `n` in front of `acc`, most significant first. -/
def decimalAux : Nat → Nat → List Char → List Char
  | 0, _, acc => acc
  | f + 1, n, acc =>
    if n < 10 then digitChar n :: acc
    else decimalAux f (n / 10) (digitChar (n % 10) :: acc)

/-- The decimal numeral of a natural number, without leading zeros. -/
def decimal (n : Nat) : List Char := decimalAux (n + 1) n []

/-- `Number::toString` on an integer: plain decimal digits, a minus sign in front
of a negative one.  (From `10 ^ 21` on JavaScript switches to exponent form; scroll
offsets are far below that and the plain form is used throughout.) -/
def Number_toString : ℤ → List Char
  | Int.ofNat n => decimal n
  | Int.negSucc n => Char.ofNat 45 :: decimal (n + 1)

/-- The integer a JSON value is, if it is an integer-valued number. -/
def integerOf : JVal → Option ℤ
  | .num q => if q.den = 1 then some q.num else none
  | _ => none

/-- The integers of a list of integer-valued numbers. -/
def integersOf : List JVal → Option (List ℤ)
  | [] => some []
  | v :: vs =>
    match integerOf v, integersOf vs with
    | some i, some is => some (i :: is)
    | _, _ => none

/-- Numerals separated by commas. -/
def joinElems : List ℤ → List Char
  | [] => []
  | [i] => Number_toString i
  | i :: j :: r => Number_toString i ++ Char.ofNat 44 :: joinElems (j :: r)

/-- `JSON.stringify` on what the recorder passes to it: an array of integer-valued
numbers (the rounded offsets pushed by S), rendered `[y1,...,yn]` without white
space.  On any other value the embedding gives no result. -/
def JSON_stringify : JVal → Option String
  | .arr xs =>
    (integersOf xs).map (fun is => String.mk (Char.ofNat 91 :: (joinElems is ++ [Char.ofNat 93])))
  | _ => none

/-! ## The page: module state and browser state -/

/-- The variable `mode`: `idle | recording | playback`. -/
inductive Mode where
  | idle
  | recording
  | playback
deriving DecidableEq

/-- The status lines the script writes with `log`, by the data they are built from. -/
inductive LogMsg where
  /-- Text `Loaded n checkpoint(s) from storage. Press Space to play.` -/
  | loaded (n : Nat)
  /-- Text `Scroll Assistant ready. ...` -/
  | ready
  /-- Text `Recording started ...` -/
  | recordingStarted
  /-- Text `Checkpoint n saved at y px` -/
  | checkpointSaved (n : Nat) (y : ℚ)
  /-- Text `No checkpoints saved ...` -/
  | noCheckpoints
  /-- Text `Recording ended. n checkpoint(s) saved. Press Space to play.` -/
  | recordingEnded (n : Nat)
  /-- Text `Looped back to top. Press Space to start again.` -/
  | loopedBack
  /-- Text `Checkpoint idx/len -> target px`, `len` being the length of `cps`. -/
  | arrived (idx : Nat) (cps : JVal) (target : JVal)

/-- The closure of one `smoothScrollTo` call waiting for its next animation frame:
`startY`, `distance`, `duration`, `startTime` (`none` is `null`), and what the
caller's `then` callback captured (`idx`, `target`). -/
structure Anim where
  startY : ℚ
  distance : JSNum
  duration : JSNum
  startTime : Option ℚ
  idx : Nat
  target : JVal

/-- The contents of `localStorage`: keys with their values. -/
abbrev Storage := List (String × String)

/-- `localStorage.getItem`. -/
def getItem (st : Storage) (k : String) : Option String := st.lookup k

/-- `localStorage.setItem`: the value under `k` is replaced, other keys are kept. -/
def setItem (st : Storage) (k v : String) : Storage :=
  (k, v) :: st.filter (fun p => p.1 ≠ k)

/-- The four module variables, and the browser state the script reads and writes:
the store, `window.scrollY`, `window.innerHeight` and the callbacks registered with
`requestAnimationFrame` for the next frame. -/
structure World where
  mode : Mode
  checkpoints : JVal
  playbackIndex : Nat
  isScrolling : Bool
  store : Storage
  scrollY : ℚ
  innerHeight : ℚ
  frames : List Anim

/-- What the page is loaded with: `location.pathname`, and `ToNumber` on strings,
arrays and objects (`none` where the conversion throws). -/
structure Host where
  pathname : String
  coerce : JVal → Option JSNum

/-- The constant `STORAGE_KEY`. -/
def STORAGE_KEY (h : Host) : String := "scroll-assist:" ++ h.pathname

/-- The constant `MS_PER_VIEWPORT`. -/
def MS_PER_VIEWPORT : ℚ := 100

/-- `ToNumber` on the value handed to `smoothScrollTo`. -/
def ToNumber (h : Host) : JVal → Option JSNum
  | .null => some (JSNum.fin 0)
  | .bool b => some (JSNum.fin (if b then 1 else 0))
  | .num q => some (JSNum.fin q)
  | v => h.coerce v

/-- What handling one event did besides changing the page: whether
`preventDefault` was called, the lines logged, and the argument of the
`smoothScrollTo` call if one was made. -/
structure Effects where
  defaultPrevented : Bool
  logs : List LogMsg
  scrollTarget : Option JVal

/-- No effect at all. -/
def Effects.nothing : Effects := ⟨false, [], none⟩

/-- The function `ease`: `1 - Math.pow(1 - t, 5)`. -/
def ease (t : JSNum) : JSNum :=
  JSNum.sub (JSNum.fin 1) (JSNum.pow (JSNum.sub (JSNum.fin 1) t) 5)

/-- `window.scrollTo(0, y)` and `window.scrollTo({ top: y })`: the page adopts the
requested offset; a non-finite request counts as 0.  (The page is taken to be
tall enough: clamping to the scrollable range is the browser's business.) -/
def window_scrollTo (w : World) (y : JSNum) : World :=
  { w with scrollY := match y with
                      | JSNum.fin q => q
                      | _ => 0 }

/-- The duration `smoothScrollTo` computes from `distance`:
`Math.max(200, Math.min(Math.abs(distance) / window.innerHeight * MS_PER_VIEWPORT, 4000))`. -/
def scrollDuration (distance : JSNum) (innerHeight : ℚ) : JSNum :=
  JSNum.max (JSNum.fin 200)
    (JSNum.min
      (JSNum.mul (JSNum.div (JSNum.abs distance) (JSNum.fin innerHeight)) (JSNum.fin MS_PER_VIEWPORT))
      (JSNum.fin 4000))

/-- The function `smoothScrollTo`, called with `targetY`; `idx` is what the caller's
`then` callback captured.  The result is the page after the call and the lines the
`then` callback logs when the promise is already resolved on return.
If `ToNumber` throws, the promise is rejected and nothing else happens. -/
def smoothScrollTo (h : Host) (w : World) (targetY : JVal) (idx : Nat) : World × List LogMsg :=
  match ToNumber h targetY with
  | none => (w, [])
  | some t =>
    let startY := w.scrollY
    let distance := JSNum.sub t (JSNum.fin startY)
    if distance.isZero then (w, [LogMsg.arrived idx w.checkpoints targetY])
    else
      let duration := scrollDuration distance w.innerHeight
      ({ w with
          isScrolling := true
          frames := w.frames ++ [⟨startY, distance, duration, none, idx, targetY⟩] }, [])

/-- The position `step` writes at `progress`: `startY + distance * ease(progress)`. -/
def framePosition (a : Anim) (progress : JSNum) : JSNum :=
  JSNum.add (JSNum.fin a.startY) (JSNum.mul a.distance (ease progress))

/-- The start time `step` works with: `if (!startTime) startTime = timestamp`
(`null` and `0` are both falsy). -/
def frameStart (a : Anim) (timestamp : ℚ) : ℚ :=
  match a.startTime with
  | none => timestamp
  | some s => if s = 0 then timestamp else s

/-- The progress `step` computes: `Math.min(elapsed / duration, 1)`. -/
def frameProgress (a : Anim) (timestamp : ℚ) : JSNum :=
  JSNum.min (JSNum.div (JSNum.fin (timestamp - frameStart a timestamp)) a.duration) (JSNum.fin 1)

/-- The callback `step` of the animation `a`, run at `timestamp`. -/
def step (a : Anim) (timestamp : ℚ) (w : World) : World × List LogMsg :=
  let progress := frameProgress a timestamp
  let w1 := window_scrollTo w (framePosition a progress)
  if JSNum.lt progress (JSNum.fin 1) then
    ({ w1 with frames := w1.frames ++ [{ a with startTime := some (frameStart a timestamp) }] }, [])
  else
    ({ w1 with isScrolling := false }, [LogMsg.arrived a.idx w1.checkpoints a.target])

/-- One animation frame at `timestamp`: the browser runs the callbacks registered
for it, in order; what they register is for the next frame. -/
def animationFrame (w : World) (timestamp : ℚ) : World × List LogMsg :=
  w.frames.foldl
    (fun acc a => ((step a timestamp acc.1).1, acc.2 ++ (step a timestamp acc.1).2))
    ({ w with frames := [] }, [])

/-- A `keydown` event: `e.key`, `e.target.tagName` (`none` when the target has
none) and whether `e.target.isContentEditable` is truthy. -/
structure KeyEvent where
  key : String
  tagName : Option String
  isContentEditable : Bool

/-- The method `toLowerCase` as far as the comparison with `input` and `textarea`
can tell: the letters A to Z are lowered.  (No other character lowers to a
letter of these two words.) -/
def toLowerCase (s : String) : String := String.mk (s.toList.map Char.toLower)

/-- The function `shouldIgnoreKey`. -/
def shouldIgnoreKey (e : KeyEvent) : Bool :=
  let tag := toLowerCase (e.tagName.getD "")
  tag = "input" || tag = "textarea" || e.isContentEditable

/-- The function `init`, run once when the page loads with the given store,
scroll offset and viewport height. -/
def init (h : Host) (store : Storage) (scrollY innerHeight : ℚ) : World × List LogMsg :=
  let w0 : World := ⟨Mode.idle, JVal.arr [], 0, false, store, scrollY, innerHeight, []⟩
  match getItem store (STORAGE_KEY h) with
  | none => (w0, [LogMsg.ready])
  | some saved =>
    if saved = "" then (w0, [LogMsg.ready])
    else
      match JSON_parse saved with
      | none => (w0, [LogMsg.ready])
      | some v =>
        match v with
        | JVal.arr xs =>
          if xs.length ≠ 0 then
            ({ w0 with checkpoints := v, mode := Mode.playback, playbackIndex := 0 },
              [LogMsg.loaded xs.length, LogMsg.ready])
          else ({ w0 with checkpoints := v }, [LogMsg.ready])
        | _ => ({ w0 with checkpoints := v }, [LogMsg.ready])

/-- The `keydown` listener.  `none`: the listener would operate on a `checkpoints`
value that is not an array, or serialise one that is not an array of integers. -/
def keydown (h : Host) (w : World) (e : KeyEvent) : Option (World × Effects) :=
  if shouldIgnoreKey e then some (w, Effects.nothing)
  else if e.key = "r" ∨ e.key = "R" then
    some (window_scrollTo { w with mode := Mode.recording, checkpoints := JVal.arr [], playbackIndex := 0 }
        (JSNum.fin 0),
      ⟨false, [LogMsg.recordingStarted], none⟩)
  else if (e.key = "s" ∨ e.key = "S") ∧ w.mode = Mode.recording then
    match w.checkpoints with
    | JVal.arr xs =>
      some ({ w with checkpoints := JVal.arr (xs ++ [JVal.num (Math_round w.scrollY)]) },
        ⟨true, [LogMsg.checkpointSaved (xs.length + 1) (Math_round w.scrollY)], none⟩)
    | _ => none
  else if (e.key = "e" ∨ e.key = "E") ∧ w.mode = Mode.recording then
    match w.checkpoints with
    | JVal.arr xs =>
      if xs.length = 0 then some (w, ⟨false, [LogMsg.noCheckpoints], none⟩)
      else
        match JSON_stringify (JVal.arr xs) with
        | none => none
        | some text =>
          some (window_scrollTo
              { w with
                  store := setItem w.store (STORAGE_KEY h) text
                  mode := Mode.playback
                  playbackIndex := 0 }
              (JSNum.fin 0),
            ⟨false, [LogMsg.recordingEnded xs.length], none⟩)
    | _ => none
  else if e.key = " " ∧ w.mode = Mode.playback then
    if w.isScrolling then some (w, ⟨true, [], none⟩)
    else
      match w.checkpoints with
      | JVal.arr xs =>
        if h1 : xs.length ≤ w.playbackIndex then
          some (window_scrollTo { w with playbackIndex := 0 } (JSNum.fin 0),
            ⟨true, [LogMsg.loopedBack], none⟩)
        else
          let target := xs.get ⟨w.playbackIndex, Nat.lt_of_not_le h1⟩
          let r := smoothScrollTo h { w with playbackIndex := w.playbackIndex + 1 } target
            (w.playbackIndex + 1)
          some (r.1, ⟨true, r.2, some target⟩)
      | _ => none
  else some (w, Effects.nothing)

/-- What can happen to the page: a key press, an animation frame at a timestamp,
the user scrolling to an offset, the window being resized to a height. -/
inductive Event where
  | key (e : KeyEvent)
  | frame (timestamp : ℚ)
  | scroll (y : ℚ)
  | resize (height : ℚ)

/-- The page after one event. -/
def next (h : Host) (w : World) : Event → Option World
  | Event.key e => (keydown h w e).map (fun r => r.1)
  | Event.frame t => some (animationFrame w t).1
  | Event.scroll y => some { w with scrollY := y }
  | Event.resize height => some { w with innerHeight := height }

/-- The page after a sequence of events. -/
def run (h : Host) (w : World) : List Event → Option World
  | [] => some w
  | ev :: evs =>
    match next h w ev with
    | none => none
    | some w1 => run h w1 evs

/-- The pages that a load with some store, offset and height, followed by any
sequence of events, can produce. -/
inductive Reachable (h : Host) : World → Prop where
  | load (store : Storage) (scrollY innerHeight : ℚ) :
      Reachable h (init h store scrollY innerHeight).1
  | next (w w1 : World) (ev : Event) :
      Reachable h w → next h w ev = some w1 → Reachable h w1

/-! ## Vocabulary of the statements -/

/-- A character that ends a numeral inside an array: a comma or a closing bracket. -/
def isDelim (c : Char) : Bool := c = Char.ofNat 44 || c = Char.ofNat 93

/-- A numeral starts with a digit or the minus sign. -/
def isNumStart (c : Char) : Bool := isDigit c || c = Char.ofNat 45

/-- The array of the integers `is`. -/
def intArray (is : List ℤ) : JVal := JVal.arr (is.map (fun (i : ℤ) => JVal.num (i : ℚ)))

/-- A key press that `shouldIgnoreKey` lets through, with one of two spellings of the key. -/
def Pressed (e : KeyEvent) (lower upper : String) : Prop :=
  shouldIgnoreKey e = false ∧ (e.key = lower ∨ e.key = upper)

/-- One recording session: R, then for each offset the user scrolls there and
presses S, then E. -/
def recordingSession (eR eS eE : KeyEvent) (ys : List ℚ) : List Event :=
  Event.key eR :: (ys.flatMap (fun y => [Event.scroll y, Event.key eS]) ++ [Event.key eE])

/-- An E press that the listener accepts: let through by `shouldIgnoreKey`, in
recording mode, with at least one checkpoint saved. -/
def acceptsEnd (w : World) : Event → Prop
  | Event.key e =>
    Pressed e "e" "E" ∧ w.mode = Mode.recording ∧ ∃ x xs, w.checkpoints = JVal.arr (x :: xs)
  | _ => False

/-- The pages reached from `w` by events none of which is an accepted E press. -/
inductive ReachedBeforeEnd (h : Host) (w : World) : World → Prop where
  | start : ReachedBeforeEnd h w w
  | next (w1 w2 : World) (ev : Event) :
      ReachedBeforeEnd h w w1 → ¬ acceptsEnd w1 ev → next h w1 ev = some w2 →
      ReachedBeforeEnd h w w2

/-- The shape of `checkpoints` outside idle mode: an array of integers while
recording, a non-empty array during playback. -/
def WellFormed (w : World) : Prop :=
  (w.mode = Mode.recording → ∃ is : List ℤ, w.checkpoints = intArray is)
    ∧ (w.mode = Mode.playback → ∃ x xs, w.checkpoints = JVal.arr (x :: xs))

/-- A press of the space bar outside any form field. -/
def spaceKey : KeyEvent := ⟨" ", none, false⟩

/-- The page of the scenario: playback of the checkpoints 400, 1200, 3000 from the
top of the page, in a viewport 800 pixels high. -/
def scenarioPage : World :=
  ⟨Mode.playback, JVal.arr [JVal.num 400, JVal.num 1200, JVal.num 3000], 0, false, [], 0, 800, []⟩

/-- The start offset, distance and duration of the animations waiting for a frame. -/
def pendingAnimations (w : World) : List (ℚ × JSNum × JSNum) :=
  w.frames.map (fun a => (a.startY, a.distance, a.duration))

/-- A JSON number. -/
def JVal.isNumber : JVal → Bool
  | .num _ => true
  | _ => false

/-- An array all of whose entries are numbers. -/
def JVal.isNumberArray : JVal → Bool
  | .arr xs => xs.all JVal.isNumber
  | _ => false

/-- The invariant of the data model: `checkpoints` is a sequence and
`0 ≤ playbackIndex ≤ checkpoints.length`. -/
def IndexInRange (w : World) : Prop :=
  ∃ xs, w.checkpoints = JVal.arr xs ∧ w.playbackIndex ≤ xs.length

/-- A page served at the path `/`, in a browser whose conversion of strings,
arrays and objects to a number yields NaN. -/
def sampleHost : Host := ⟨"/", fun _ => some JSNum.nan⟩

/-- A press of the key `k` outside any form field. -/
def plainKey (k : String) : KeyEvent := ⟨k, none, false⟩

/-- A page that is recording and has no checkpoint yet. -/
def emptyRecording : World := ⟨Mode.recording, JVal.arr [], 0, false, [], 0, 800, []⟩

/-- The page of the scenario once its three checkpoints have been played. -/
def playedPage : World :=
  ⟨Mode.playback, JVal.arr [JVal.num 400, JVal.num 1200, JVal.num 3000], 3, false, [], 3000, 800, []⟩

/-- The page of the scenario after its first Space press. -/
def firstStepPage : World :=
  ⟨Mode.playback, JVal.arr [JVal.num 400, JVal.num 1200, JVal.num 3000], 1, true, [], 0, 800,
    [⟨0, JSNum.fin 400, JSNum.fin 200, none, 1, JVal.num 400⟩]⟩

/-- What it means for a reader with fuel to be adequate at fuel `n`: a result read
with fuel `n` leaves less input than it was given, and is read again with any fuel
above the number of characters it consumed. -/
def Adequate {α : Type} (parse : Nat → List Char → Option (α × List Char)) (n : Nat) : Prop :=
  ∀ cs v r, parse n cs = some (v, r) →
    r.length < cs.length ∧ ∀ m, cs.length - r.length < m → parse m cs = some (v, r)

/-- At most one animation is in flight, and the busy flag says whether one is:
either no callback is registered and `isScrolling` is clear, or exactly one is
registered and `isScrolling` is set. -/
def AtMostOneAnimation (w : World) : Prop :=
  (w.frames = [] ∧ w.isScrolling = false) ∨ (∃ a, w.frames = [a] ∧ w.isScrolling = true)

/-- A page that has just been loaded with an empty store. -/
def idlePage : World := ⟨Mode.idle, JVal.arr [], 0, false, [], 0, 800, []⟩

/-- A page in playback, at rest one viewport height above its only checkpoint. -/
def oneViewportPage : World :=
  ⟨Mode.playback, JVal.arr [JVal.num 800], 0, false, [], 0, 800, []⟩

/-- An animation as `smoothScrollTo` starts it, at its start or after some frames:
its distance is the difference between the number the target converts to and the
start offset, is not zero, and its duration is what `smoothScrollTo` computes from
that distance for some viewport height. -/
def StartedBy (h : Host) (a : Anim) : Prop :=
  ∃ t vh, ToNumber h a.target = some t
    ∧ a.distance = JSNum.sub t (JSNum.fin a.startY)
    ∧ a.distance.isZero = false
    ∧ a.duration = scrollDuration a.distance vh

/-- The page loaded with the single checkpoint 400 in its store. -/
def loadedPage : World :=
  ⟨Mode.playback, JVal.arr [JVal.num 400], 0, false, [("scroll-assist:/", "[400]")], 0, 800, []⟩

/-- The loaded page after its first Space press. -/
def loadedFirstStep : World :=
  ⟨Mode.playback, JVal.arr [JVal.num 400], 1, true, [("scroll-assist:/", "[400]")], 0, 800,
    [⟨0, JSNum.fin 400, JSNum.fin 200, none, 1, JVal.num 400⟩]⟩

/-- `Plays h w ts w1`: the page `w1` is reached from `w` by Space presses that are
let through, each made when no animation is running (busy flag clear), with any
number of animation frames before and after each press.  `ts` lists, press by
press, the target handed to `smoothScrollTo` (`none` for a press that makes no
call). -/
inductive Plays (h : Host) (w : World) : List (Option JVal) → World → Prop where
  | start : Plays h w [] w
  | frame (ts : List (Option JVal)) (w1 : World) (t : ℚ) :
      Plays h w ts w1 → Plays h w ts (animationFrame w1 t).1
  | press (ts : List (Option JVal)) (w1 w2 : World) (e : KeyEvent) (eff : Effects) :
      Plays h w ts w1 → w1.isScrolling = false → Pressed e " " " " →
      keydown h w1 e = some (w2, eff) → Plays h w (ts ++ [eff.scrollTarget]) w2

/-- The page `oneViewportPage` once its only checkpoint has been played. -/
def oneViewportPlayed : World :=
  ⟨Mode.playback, JVal.arr [JVal.num 800], 1, false, [], 800, 800, []⟩

/-- A page that records, holds the checkpoints 10 and 10, and rests at the
offset 5/2. -/
def halfwayRecording : World :=
  ⟨Mode.recording, JVal.arr [JVal.num 10, JVal.num 10], 0, false, [], 5 / 2, 800, []⟩

/-! ## Double arithmetic -/

/-- The arithmetic of the engine on finite numbers: `rnd x` is the number an
operation returns when its exact result is `x` (a double, or an infinity on
overflow), and `pow5 x` is what `Math.pow(x, 5)` returns. -/
structure Arith where
  rnd : ℚ → JSNum
  pow5 : ℚ → JSNum

/-- The result of an operation whose exact result is `x`: a finite result is
rounded, an infinity or NaN is returned as it is. -/
def JSNum.rounded (ar : Arith) : JSNum → JSNum
  | JSNum.fin q => ar.rnd q
  | x => x

/-- What the statements need of an arithmetic: rounding never yields NaN, is
monotone, returns 0 and 1 and every number it has returned unchanged; and
`Math.pow(x, 5)` is 0 at 0, 1 at 1 and between 0 and 1 in between. -/
structure Arith.Sound (ar : Arith) : Prop where
  never_nan : ∀ x, ar.rnd x ≠ JSNum.nan
  mono : ∀ x y, x ≤ y → JSNum.lt (ar.rnd y) (ar.rnd x) = false
  zero : ar.rnd 0 = JSNum.fin 0
  one : ar.rnd 1 = JSNum.fin 1
  idem : ∀ x y, ar.rnd x = JSNum.fin y → ar.rnd y = JSNum.fin y
  pow_zero : ar.pow5 0 = JSNum.fin 0
  pow_one : ar.pow5 1 = JSNum.fin 1
  pow_range : ∀ u, 0 ≤ u → u ≤ 1 → ∃ v, ar.pow5 u = JSNum.fin v ∧ 0 ≤ v ∧ v ≤ 1

/-- Arithmetic without rounding. -/
def exactArith : Arith := ⟨JSNum.fin, fun x => JSNum.fin (x ^ 5)⟩

/-- The nearest integer, a tie going to the even one. -/
def roundHalfEven (x : ℚ) : ℤ :=
  if x - ⌊x⌋ < 1 / 2 then ⌊x⌋
  else if 1 / 2 < x - ⌊x⌋ then ⌊x⌋ + 1
  else if ⌊x⌋ % 2 = 0 then ⌊x⌋ else ⌊x⌋ + 1

/-- The spacing of the doubles at the magnitude `x`: `2 ^ (e - 52)`, where `e` is
the binary exponent of `x`, and -1022 for the magnitudes below `2 ^ (-1022)`. -/
def ulp (x : ℚ) : ℚ := (2 : ℚ) ^ (max (Int.log 2 x) (-1022) - 52)

/-- The multiple of the spacing nearest to the magnitude `x`, ties to even. -/
def roundMagnitude (x : ℚ) : ℚ := (roundHalfEven (x / ulp x) : ℚ) * ulp x

/-- Rounding to 53 significant bits, the sign apart. -/
def roundFinite (x : ℚ) : ℚ := if 0 ≤ x then roundMagnitude x else -roundMagnitude (-x)

/-- Round to nearest in binary64: the rounded value, or an infinity when it
reaches `2 ^ 1024`. -/
def roundDouble (x : ℚ) : JSNum :=
  if 2 ^ 1024 ≤ roundFinite x then JSNum.posInf
  else if roundFinite x ≤ -(2 ^ 1024) then JSNum.negInf
  else JSNum.fin (roundFinite x)

/-- The arithmetic of IEEE 754 binary64 with round to nearest, ties to even, and a
correctly rounded `Math.pow`. -/
def binary64 : Arith := ⟨roundDouble, fun x => roundDouble (x ^ 5)⟩

/-! ## The animation in double arithmetic -/

/-- `Math.pow(x, 5)` in the arithmetic `ar`. -/
def powWith (ar : Arith) : JSNum → JSNum
  | JSNum.fin q => ar.pow5 q
  | x => JSNum.pow x 5

/-- The function `ease` in the arithmetic `ar`: `1 - Math.pow(1 - t, 5)`, each
operation rounded. -/
def easeWith (ar : Arith) (t : JSNum) : JSNum :=
  (JSNum.sub (JSNum.fin 1) (powWith ar ((JSNum.sub (JSNum.fin 1) t).rounded ar))).rounded ar

/-- The duration `smoothScrollTo` computes from `distance` in the arithmetic `ar`:
`Math.max(200, Math.min(Math.abs(distance) / window.innerHeight * MS_PER_VIEWPORT, 4000))`. -/
def scrollDurationWith (ar : Arith) (distance : JSNum) (innerHeight : ℚ) : JSNum :=
  JSNum.max (JSNum.fin 200)
    (JSNum.min
      ((JSNum.mul ((JSNum.div (JSNum.abs distance) (JSNum.fin innerHeight)).rounded ar)
        (JSNum.fin MS_PER_VIEWPORT)).rounded ar)
      (JSNum.fin 4000))

/-- The function `smoothScrollTo` in the arithmetic `ar`. -/
def smoothScrollToWith (ar : Arith) (h : Host) (w : World) (targetY : JVal) (idx : Nat) :
    World × List LogMsg :=
  match ToNumber h targetY with
  | none => (w, [])
  | some t =>
    let startY := w.scrollY
    let distance := (JSNum.sub t (JSNum.fin startY)).rounded ar
    if distance.isZero then (w, [LogMsg.arrived idx w.checkpoints targetY])
    else
      let duration := scrollDurationWith ar distance w.innerHeight
      ({ w with
          isScrolling := true
          frames := w.frames ++ [⟨startY, distance, duration, none, idx, targetY⟩] }, [])

/-- The position `step` writes at `progress` in the arithmetic `ar`:
`startY + distance * ease(progress)`. -/
def framePositionWith (ar : Arith) (a : Anim) (progress : JSNum) : JSNum :=
  (JSNum.add (JSNum.fin a.startY)
    ((JSNum.mul a.distance (easeWith ar progress)).rounded ar)).rounded ar

/-- The progress `step` computes in the arithmetic `ar`: with
`elapsed = timestamp - startTime`, `Math.min(elapsed / duration, 1)`. -/
def frameProgressWith (ar : Arith) (a : Anim) (timestamp : ℚ) : JSNum :=
  JSNum.min
    ((JSNum.div (ar.rnd (timestamp - frameStart a timestamp)) a.duration).rounded ar)
    (JSNum.fin 1)

/-- The callback `step` of the animation `a`, run at `timestamp`, in the arithmetic `ar`. -/
def stepWith (ar : Arith) (a : Anim) (timestamp : ℚ) (w : World) : World × List LogMsg :=
  let progress := frameProgressWith ar a timestamp
  let w1 := window_scrollTo w (framePositionWith ar a progress)
  if JSNum.lt progress (JSNum.fin 1) then
    ({ w1 with frames := w1.frames ++ [{ a with startTime := some (frameStart a timestamp) }] }, [])
  else
    ({ w1 with isScrolling := false }, [LogMsg.arrived a.idx w1.checkpoints a.target])

/-- The page loaded with the stored text `["a"]`. -/
def stringPage : World :=
  ⟨Mode.playback, JVal.arr [JVal.str "a"], 0, false, [("scroll-assist:/", "[\"a\"]")], 0, 800, []⟩

/-- The page loaded with the stored text `["a"]`, after its first Space press. -/
def stringFirstStep : World :=
  ⟨Mode.playback, JVal.arr [JVal.str "a"], 1, true, [("scroll-assist:/", "[\"a\"]")], 0, 800,
    [⟨0, JSNum.nan, JSNum.nan, none, 1, JVal.str "a"⟩]⟩

/-- The double nearest to 56.35. -/
def offset5635 : ℚ := 7930557468822733 / 140737488355328

/-- A page in playback of the single checkpoint -200, at rest at the offset 56.35
(the double nearest to it), in a viewport 800 pixels high. -/
def fractionalPage : World :=
  ⟨Mode.playback, JVal.arr [JVal.num (-200)], 0, false, [], offset5635, 800, []⟩

/-! ## The JSON reader: what it consumes, and that its fuel is enough -/

theorem skipWs_length_le (cs : List Char) : (skipWs cs).length ≤ cs.length := by
  induction cs with
  | nil => simp [skipWs]
  | cons c cs ih =>
    unfold skipWs
    split
    · exact Nat.le_succ_of_le ih
    · exact Nat.le_refl _

theorem dropWhile_length_le (p : Char → Bool) (cs : List Char) :
    (cs.dropWhile p).length ≤ cs.length := by
  induction cs with
  | nil => simp
  | cons c cs ih =>
    rw [List.dropWhile_cons]
    split
    · exact Nat.le_succ_of_le ih
    · exact Nat.le_refl _

theorem parseIntPart_shorter (cs : List Char) (i : Nat) (r : List Char)
    (h : parseIntPart cs = some (i, r)) : r.length < cs.length := by
  cases cs with
  | nil => simp [parseIntPart] at h
  | cons c cs =>
    simp only [parseIntPart] at h
    by_cases h0 : c = Char.ofNat 48
    · rw [if_pos h0] at h
      simp only [Option.some.injEq, Prod.mk.injEq] at h
      rw [← h.2]
      exact Nat.lt_succ_self _
    · rw [if_neg h0] at h
      by_cases hd : isDigit c = true
      · rw [if_pos hd] at h
        simp only [Option.some.injEq, Prod.mk.injEq] at h
        rw [← h.2, List.dropWhile_cons, if_pos hd]
        exact Nat.lt_succ_of_le (dropWhile_length_le _ _)
      · rw [if_neg hd] at h
        cases h

theorem parseFrac_le (cs : List Char) (f : ℚ) (r : List Char)
    (h : parseFrac cs = some (f, r)) : r.length ≤ cs.length := by
  cases cs with
  | nil =>
    simp only [parseFrac, Option.some.injEq, Prod.mk.injEq] at h
    rw [← h.2]
  | cons c cs =>
    simp only [parseFrac] at h
    by_cases h0 : c = Char.ofNat 46
    · rw [if_pos h0] at h
      by_cases h1 : List.takeWhile isDigit cs = []
      · rw [if_pos h1] at h
        cases h
      · rw [if_neg h1] at h
        simp only [Option.some.injEq, Prod.mk.injEq] at h
        rw [← h.2]
        exact Nat.le_succ_of_le (dropWhile_length_le _ _)
    · rw [if_neg h0] at h
      simp only [Option.some.injEq, Prod.mk.injEq] at h
      rw [← h.2]

theorem parseExpDigits_le (cs : List Char) (e : Nat) (r : List Char)
    (h : parseExpDigits cs = some (e, r)) : r.length ≤ cs.length := by
  unfold parseExpDigits at h
  by_cases h1 : List.takeWhile isDigit cs = []
  · rw [if_pos h1] at h
    cases h
  · rw [if_neg h1] at h
    simp only [Option.some.injEq, Prod.mk.injEq] at h
    rw [← h.2]
    exact dropWhile_length_le _ _

theorem parseExpDigits_map_le (cs : List Char) (g : Nat → ℤ) (e : ℤ) (r : List Char)
    (h : (parseExpDigits cs).map (fun p => (g p.1, p.2)) = some (e, r)) :
    r.length ≤ cs.length := by
  simp only [Option.map_eq_some', Prod.mk.injEq] at h
  obtain ⟨⟨e1, r1⟩, h1, _, h3⟩ := h
  have := parseExpDigits_le cs e1 r1 h1
  dsimp only at h3
  rw [← h3]
  exact this

theorem parseExp_le (cs : List Char) (e : ℤ) (r : List Char)
    (h : parseExp cs = some (e, r)) : r.length ≤ cs.length := by
  cases cs with
  | nil =>
    simp only [parseExp, Option.some.injEq, Prod.mk.injEq] at h
    rw [← h.2]
  | cons c cs =>
    simp only [parseExp] at h
    by_cases h0 : c = Char.ofNat 101 ∨ c = Char.ofNat 69
    · rw [if_pos h0] at h
      cases cs with
      | nil => cases h
      | cons d ds =>
        dsimp only at h
        by_cases h1 : d = Char.ofNat 45
        · rw [if_pos h1] at h
          have := parseExpDigits_map_le ds (fun n => -(n : ℤ)) e r h
          simp only [List.length_cons]
          omega
        · rw [if_neg h1] at h
          by_cases h2 : d = Char.ofNat 43
          · rw [if_pos h2] at h
            have := parseExpDigits_map_le ds (fun n => (n : ℤ)) e r h
            simp only [List.length_cons]
            omega
          · rw [if_neg h2] at h
            have := parseExpDigits_map_le (d :: ds) (fun n => (n : ℤ)) e r h
            simp only [List.length_cons] at this ⊢
            omega
    · rw [if_neg h0] at h
      simp only [Option.some.injEq, Prod.mk.injEq] at h
      rw [← h.2]

theorem parseUnsigned_shorter (cs : List Char) (q : ℚ) (r : List Char)
    (h : parseUnsigned cs = some (q, r)) : r.length < cs.length := by
  unfold parseUnsigned at h
  split at h
  · cases h
  · rename_i i r1 h1
    split at h
    · cases h
    · rename_i f r2 h2
      split at h
      · cases h
      · rename_i e r3 h3
        simp only [Option.some.injEq, Prod.mk.injEq] at h
        have a1 := parseIntPart_shorter cs i r1 h1
        have a2 := parseFrac_le r1 f r2 h2
        have a3 := parseExp_le r2 e r3 h3
        rw [← h.2]
        omega

theorem parseNumber_shorter (cs : List Char) (q : ℚ) (r : List Char)
    (h : parseNumber cs = some (q, r)) : r.length < cs.length := by
  cases cs with
  | nil => simp [parseNumber] at h
  | cons c cs =>
    simp only [parseNumber] at h
    by_cases h0 : c = Char.ofNat 45
    · rw [if_pos h0] at h
      simp only [Option.map_eq_some', Prod.mk.injEq] at h
      obtain ⟨⟨q1, r1⟩, h1, _, h3⟩ := h
      have := parseUnsigned_shorter cs q1 r1 h1
      dsimp only at h3
      rw [← h3]
      simp only [List.length_cons]
      omega
    · rw [if_neg h0] at h
      exact parseUnsigned_shorter _ q r h

theorem take_eq_length (cs xs : List Char) (n : Nat) (h : cs.take n = xs) (hn : xs.length = n) :
    n ≤ cs.length := by
  have := congrArg List.length h
  rw [List.length_take, hn] at this
  omega

theorem parseAtom_shorter (cs : List Char) (v : JVal) (r : List Char)
    (h : parseAtom cs = some (v, r)) : r.length < cs.length := by
  unfold parseAtom at h
  split at h
  · rename_i ht
    have := take_eq_length cs _ 4 ht rfl
    simp only [Option.some.injEq, Prod.mk.injEq] at h
    rw [← h.2, List.length_drop]
    omega
  · split at h
    · rename_i ht
      have := take_eq_length cs _ 5 ht rfl
      simp only [Option.some.injEq, Prod.mk.injEq] at h
      rw [← h.2, List.length_drop]
      omega
    · split at h
      · rename_i ht
        have := take_eq_length cs _ 4 ht rfl
        simp only [Option.some.injEq, Prod.mk.injEq] at h
        rw [← h.2, List.length_drop]
        omega
      · simp only [Option.map_eq_some', Prod.mk.injEq] at h
        obtain ⟨⟨q1, r1⟩, h1, _, h3⟩ := h
        have := parseNumber_shorter cs q1 r1 h1
        dsimp only at h3
        rw [← h3]
        exact this

theorem escapeLength_pos (cs : List Char) (k : Nat) (h : escapeLength cs = some k) : 0 < k := by
  cases cs with
  | nil => simp [escapeLength] at h
  | cons e r =>
    simp only [escapeLength] at h
    by_cases h0 : isEscape e = true
    · rw [if_pos h0] at h
      cases h
      decide
    · rw [if_neg h0] at h
      split at h
      · cases h
        decide
      · cases h

/-- A string body that is read leaves less than it was given, and is read the same
way with any fuel above the length of the input. -/
theorem parseStringBody_adequate (n : Nat) : ∀ (cs acc : List Char) (res : List Char × List Char),
    parseStringBody n cs acc = some res →
      res.2.length < cs.length
        ∧ ∀ m, cs.length - res.2.length ≤ m → 0 < m → parseStringBody m cs acc = some res := by
  induction n with
  | zero => intro cs acc res h; simp [parseStringBody] at h
  | succ n ih =>
    intro cs acc res h
    cases cs with
    | nil => simp [parseStringBody] at h
    | cons c cs =>
      unfold parseStringBody at h
      split at h
      · rename_i hq
        cases h
        refine ⟨Nat.lt_succ_self _, ?_⟩
        intro m _ hm
        obtain ⟨m', rfl⟩ := Nat.exists_eq_succ_of_ne_zero (Nat.pos_iff_ne_zero.mp hm)
        unfold parseStringBody
        rw [if_pos hq]
      · rename_i hq
        split at h
        · rename_i hb
          simp only [Option.bind_eq_some] at h
          obtain ⟨k, hk, hrec⟩ := h
          have hk0 := escapeLength_pos cs k hk
          obtain ⟨h1, h2⟩ := ih _ _ res hrec
          have hlen : (cs.drop k).length ≤ cs.length := by
            rw [List.length_drop]; omega
          refine ⟨by simp only [List.length_cons]; omega, ?_⟩
          intro m hm hm0
          obtain ⟨m', rfl⟩ := Nat.exists_eq_succ_of_ne_zero (Nat.pos_iff_ne_zero.mp hm0)
          unfold parseStringBody
          rw [if_neg hq, if_pos hb, hk]
          simp only [Option.some_bind]
          apply h2
          · simp only [List.length_cons] at hm
            rw [List.length_drop] at h1 ⊢
            omega
          · simp only [List.length_cons] at hm
            rw [List.length_drop] at h1
            omega
        · rename_i hb
          split at h
          · cases h
          · rename_i hctl
            obtain ⟨h1, h2⟩ := ih _ _ res h
            refine ⟨by simp only [List.length_cons]; omega, ?_⟩
            intro m hm hm0
            obtain ⟨m', rfl⟩ := Nat.exists_eq_succ_of_ne_zero (Nat.pos_iff_ne_zero.mp hm0)
            unfold parseStringBody
            rw [if_neg hq, if_neg hb, if_neg hctl]
            apply h2
            · simp only [List.length_cons] at hm
              omega
            · simp only [List.length_cons] at hm
              omega

theorem parseString_shorter (cs : List Char) (s : String) (r : List Char)
    (h : parseString cs = some (s, r)) : r.length < cs.length := by
  cases cs with
  | nil => simp [parseString] at h
  | cons c cs =>
    simp only [parseString] at h
    by_cases h0 : c = Char.ofNat 34
    · rw [if_pos h0] at h
      simp only [Option.map_eq_some', Prod.mk.injEq] at h
      obtain ⟨res, h1, _, h3⟩ := h
      have := (parseStringBody_adequate _ cs [] res h1).1
      rw [← h3]
      simp only [List.length_cons]
      omega
    · rw [if_neg h0] at h
      cases h

/-- The fuel `parseString` gives to `parseStringBody` is enough: whatever any fuel
reads, this fuel reads. -/
theorem parseStringBody_fuel (n : Nat) (cs : List Char) (res : List Char × List Char)
    (h : parseStringBody n cs [] = some res) :
    parseStringBody (cs.length + 1) cs [] = some res :=
  (parseStringBody_adequate n cs [] res h).2 (cs.length + 1) (by omega) (by omega)

theorem head?_tail_length (cs : List Char) (c : Char) (h : cs.head? = some c) :
    cs.length = cs.tail.length + 1 := by
  cases cs with
  | nil => cases h
  | cons d ds => rfl

theorem parseValue_adequate_step (n : Nat) (hE : Adequate parseElems n)
    (hM : Adequate parseMembers n) : Adequate parseValue (n + 1) := by
  intro cs v r h
  unfold parseValue at h
  by_cases h1 : cs.head? = some (Char.ofNat 91)
  · rw [if_pos h1] at h
    have hlen := head?_tail_length cs _ h1
    have hws := skipWs_length_le cs.tail
    by_cases h2 : (skipWs cs.tail).head? = some (Char.ofNat 93)
    · rw [if_pos h2] at h
      have hlen2 := head?_tail_length _ _ h2
      simp only [Option.some.injEq, Prod.mk.injEq] at h
      obtain ⟨hv, hr⟩ := h
      subst hv hr
      refine ⟨by omega, ?_⟩
      intro m hm
      obtain ⟨m', rfl⟩ := Nat.exists_eq_succ_of_ne_zero (by omega : m ≠ 0)
      unfold parseValue
      rw [if_pos h1, if_pos h2]
    · rw [if_neg h2] at h
      simp only [Option.map_eq_some', Prod.mk.injEq] at h
      obtain ⟨⟨vs, r1⟩, hp, hv, hr⟩ := h
      dsimp only at hv hr
      subst hv hr
      obtain ⟨a1, a2⟩ := hE _ _ _ hp
      refine ⟨by omega, ?_⟩
      intro m hm
      obtain ⟨m', rfl⟩ := Nat.exists_eq_succ_of_ne_zero (by omega : m ≠ 0)
      unfold parseValue
      rw [if_pos h1, if_neg h2, a2 m' (by omega)]
      rfl
  · rw [if_neg h1] at h
    by_cases h3 : cs.head? = some (Char.ofNat 123)
    · rw [if_pos h3] at h
      have hlen := head?_tail_length cs _ h3
      have hws := skipWs_length_le cs.tail
      by_cases h4 : (skipWs cs.tail).head? = some (Char.ofNat 125)
      · rw [if_pos h4] at h
        have hlen2 := head?_tail_length _ _ h4
        simp only [Option.some.injEq, Prod.mk.injEq] at h
        obtain ⟨hv, hr⟩ := h
        subst hv hr
        refine ⟨by omega, ?_⟩
        intro m hm
        obtain ⟨m', rfl⟩ := Nat.exists_eq_succ_of_ne_zero (by omega : m ≠ 0)
        unfold parseValue
        rw [if_neg h1, if_pos h3, if_pos h4]
      · rw [if_neg h4] at h
        simp only [Option.map_eq_some', Prod.mk.injEq] at h
        obtain ⟨⟨ms, r1⟩, hp, hv, hr⟩ := h
        dsimp only at hv hr
        subst hv hr
        obtain ⟨a1, a2⟩ := hM _ _ _ hp
        refine ⟨by omega, ?_⟩
        intro m hm
        obtain ⟨m', rfl⟩ := Nat.exists_eq_succ_of_ne_zero (by omega : m ≠ 0)
        unfold parseValue
        rw [if_neg h1, if_pos h3, if_neg h4, a2 m' (by omega)]
        rfl
    · rw [if_neg h3] at h
      by_cases h5 : cs.head? = some (Char.ofNat 34)
      · rw [if_pos h5] at h
        have hcopy := h
        simp only [Option.map_eq_some', Prod.mk.injEq] at h
        obtain ⟨⟨s, r1⟩, hp, _, hr⟩ := h
        dsimp only at hr
        subst hr
        have a1 := parseString_shorter cs s _ hp
        refine ⟨a1, ?_⟩
        intro m hm
        obtain ⟨m', rfl⟩ := Nat.exists_eq_succ_of_ne_zero (by omega : m ≠ 0)
        unfold parseValue
        rw [if_neg h1, if_neg h3, if_pos h5]
        exact hcopy
      · rw [if_neg h5] at h
        have a1 := parseAtom_shorter cs v r h
        refine ⟨a1, ?_⟩
        intro m hm
        obtain ⟨m', rfl⟩ := Nat.exists_eq_succ_of_ne_zero (by omega : m ≠ 0)
        unfold parseValue
        rw [if_neg h1, if_neg h3, if_neg h5]
        exact h

theorem parseElems_adequate_step (n : Nat) (hV : Adequate parseValue n)
    (hE : Adequate parseElems n) : Adequate parseElems (n + 1) := by
  intro cs vs r h
  unfold parseElems at h
  simp only [Option.bind_eq_some] at h
  obtain ⟨⟨v, r1⟩, hp, hrest⟩ := h
  dsimp only at hrest
  obtain ⟨a1, a2⟩ := hV _ _ _ hp
  have hws := skipWs_length_le r1
  by_cases h1 : (skipWs r1).head? = some (Char.ofNat 44)
  · rw [if_pos h1] at hrest
    have hlen := head?_tail_length _ _ h1
    have hws2 := skipWs_length_le (skipWs r1).tail
    simp only [Option.map_eq_some', Prod.mk.injEq] at hrest
    obtain ⟨⟨vs1, r2⟩, hp2, hv, hr⟩ := hrest
    dsimp only at hv hr
    subst hv hr
    obtain ⟨b1, b2⟩ := hE _ _ _ hp2
    refine ⟨by omega, ?_⟩
    intro m hm
    obtain ⟨m', rfl⟩ := Nat.exists_eq_succ_of_ne_zero (by omega : m ≠ 0)
    unfold parseElems
    rw [a2 m' (by omega)]
    simp only [Option.some_bind]
    rw [if_pos h1, b2 m' (by omega)]
    rfl
  · rw [if_neg h1] at hrest
    by_cases h2 : (skipWs r1).head? = some (Char.ofNat 93)
    · rw [if_pos h2] at hrest
      have hlen := head?_tail_length _ _ h2
      simp only [Option.some.injEq, Prod.mk.injEq] at hrest
      obtain ⟨hv, hr⟩ := hrest
      subst hv hr
      refine ⟨by omega, ?_⟩
      intro m hm
      obtain ⟨m', rfl⟩ := Nat.exists_eq_succ_of_ne_zero (by omega : m ≠ 0)
      unfold parseElems
      rw [a2 m' (by omega)]
      simp only [Option.some_bind]
      rw [if_neg h1, if_pos h2]
    · rw [if_neg h2] at hrest
      cases hrest

theorem parseMembers_adequate_step (n : Nat) (hV : Adequate parseValue n)
    (hM : Adequate parseMembers n) : Adequate parseMembers (n + 1) := by
  intro cs ms r h
  unfold parseMembers at h
  simp only [Option.bind_eq_some] at h
  obtain ⟨⟨k, r0⟩, hk, hrest⟩ := h
  dsimp only at hrest
  have k1 := parseString_shorter cs k r0 hk
  have hws0 := skipWs_length_le r0
  by_cases h0 : (skipWs r0).head? = some (Char.ofNat 58)
  · rw [if_pos h0] at hrest
    have hlen0 := head?_tail_length _ _ h0
    have hws1 := skipWs_length_le (skipWs r0).tail
    simp only [Option.bind_eq_some] at hrest
    obtain ⟨⟨v, r1⟩, hp, hrest⟩ := hrest
    dsimp only at hrest
    obtain ⟨a1, a2⟩ := hV _ _ _ hp
    have hws := skipWs_length_le r1
    by_cases h1 : (skipWs r1).head? = some (Char.ofNat 44)
    · rw [if_pos h1] at hrest
      have hlen := head?_tail_length _ _ h1
      have hws2 := skipWs_length_le (skipWs r1).tail
      simp only [Option.map_eq_some', Prod.mk.injEq] at hrest
      obtain ⟨⟨ms1, r2⟩, hp2, hv, hr⟩ := hrest
      dsimp only at hv hr
      subst hv hr
      obtain ⟨b1, b2⟩ := hM _ _ _ hp2
      refine ⟨by omega, ?_⟩
      intro m hm
      obtain ⟨m', rfl⟩ := Nat.exists_eq_succ_of_ne_zero (by omega : m ≠ 0)
      unfold parseMembers
      rw [hk]
      simp only [Option.some_bind]
      rw [if_pos h0, a2 m' (by omega)]
      simp only [Option.some_bind]
      rw [if_pos h1, b2 m' (by omega)]
      rfl
    · rw [if_neg h1] at hrest
      by_cases h2 : (skipWs r1).head? = some (Char.ofNat 125)
      · rw [if_pos h2] at hrest
        have hlen := head?_tail_length _ _ h2
        simp only [Option.some.injEq, Prod.mk.injEq] at hrest
        obtain ⟨hv, hr⟩ := hrest
        subst hv hr
        refine ⟨by omega, ?_⟩
        intro m hm
        obtain ⟨m', rfl⟩ := Nat.exists_eq_succ_of_ne_zero (by omega : m ≠ 0)
        unfold parseMembers
        rw [hk]
        simp only [Option.some_bind]
        rw [if_pos h0, a2 m' (by omega)]
        simp only [Option.some_bind]
        rw [if_neg h1, if_pos h2]
      · rw [if_neg h2] at hrest
        cases hrest
  · rw [if_neg h0] at hrest
    cases hrest

theorem parse_adequate (n : Nat) :
    Adequate parseValue n ∧ Adequate parseElems n ∧ Adequate parseMembers n := by
  induction n with
  | zero =>
    refine ⟨?_, ?_, ?_⟩ <;> intro cs v r h
    · simp [parseValue] at h
    · simp [parseElems] at h
    · simp [parseMembers] at h
  | succ n ih =>
    exact ⟨parseValue_adequate_step n ih.2.1 ih.2.2,
      parseElems_adequate_step n ih.1 ih.2.1,
      parseMembers_adequate_step n ih.1 ih.2.2⟩

/-- The fuel of `JSON_parse` is enough: a value that some fuel reads at the head of a
text is read by the fuel `JSON_parse` uses (the length of the text plus one), so
`JSON_parse` fails only where no fuel would succeed. -/
theorem JSON_parse_fuel (s : String) (n : Nat) (v : JVal) (r : List Char)
    (h : parseValue n (skipWs s.toList) = some (v, r)) :
    parseValue (s.length + 1) (skipWs s.toList) = some (v, r) := by
  obtain ⟨a1, a2⟩ := (parse_adequate n).1 _ _ _ h
  have hws := skipWs_length_le s.toList
  have hl : s.length = s.toList.length := rfl
  exact a2 _ (by omega)

/-! ## Numerals, and the round trip through `JSON.stringify` and `JSON.parse` -/

theorem digitChar_toNat (d : Nat) (hd : d < 10) : (digitChar d).toNat = 48 + d := by
  interval_cases d <;> rfl

theorem isDigit_digitChar (d : Nat) (hd : d < 10) : isDigit (digitChar d) = true := by
  interval_cases d <;> rfl

theorem digitChar_ne_zero (d : Nat) (hd : d < 10) (h0 : d ≠ 0) : digitChar d ≠ Char.ofNat 48 := by
  interval_cases d <;> first | contradiction | decide

theorem decimalAux_append (f : Nat) : ∀ (n : Nat) (acc : List Char), n < f →
    decimalAux f n acc = decimalAux f n [] ++ acc := by
  induction f with
  | zero => intro n acc h; omega
  | succ f ih =>
    intro n acc h
    unfold decimalAux
    by_cases h10 : n < 10
    · simp [h10]
    · have hlt : n / 10 < f := by omega
      simp only [h10, if_false]
      rw [ih _ _ hlt, ih _ [digitChar (n % 10)] hlt]
      simp

theorem decimalAux_fuel (f : Nat) : ∀ (g n : Nat), n < f → n < g →
    decimalAux f n [] = decimalAux g n [] := by
  induction f with
  | zero => intro g n h; omega
  | succ f ih =>
    intro g n hf hg
    cases g with
    | zero => omega
    | succ g =>
      unfold decimalAux
      by_cases h10 : n < 10
      · simp [h10]
      · have hlt : n / 10 < f := by omega
        have hlt2 : n / 10 < g := by omega
        simp only [h10, if_false]
        rw [decimalAux_append f _ _ hlt, decimalAux_append g _ _ hlt2, ih g _ hlt hlt2]

theorem decimal_small (n : Nat) (h : n < 10) : decimal n = [digitChar n] := by
  unfold decimal decimalAux
  simp [h]

theorem decimal_large (n : Nat) (h : 10 ≤ n) :
    decimal n = decimal (n / 10) ++ [digitChar (n % 10)] := by
  have h10 : ¬ n < 10 := by omega
  have e : decimal n = decimalAux n (n / 10) [digitChar (n % 10)] := by
    unfold decimal
    rw [decimalAux]
    simp [h10]
  rw [e, decimalAux_append n _ _ (by omega)]
  unfold decimal
  rw [decimalAux_fuel n (n / 10 + 1) (n / 10) (by omega) (by omega)]

theorem decimal_digits (n : Nat) : ∀ c ∈ decimal n, isDigit c = true := by
  induction n using Nat.strong_induction_on with
  | _ n ih =>
    by_cases h : n < 10
    · rw [decimal_small n h]
      intro c hc
      simp at hc
      subst hc
      exact isDigit_digitChar n h
    · rw [decimal_large n (by omega)]
      intro c hc
      rcases List.mem_append.mp hc with hc | hc
      · exact ih (n / 10) (by omega) c hc
      · simp at hc
        subst hc
        exact isDigit_digitChar _ (Nat.mod_lt _ (by decide))

theorem digitsVal_snoc (ds : List Char) (c : Char) :
    digitsVal (ds ++ [c]) = 10 * digitsVal ds + (c.toNat - 48) := by
  simp [digitsVal, List.foldl_append]

theorem digitsVal_decimal (n : Nat) : digitsVal (decimal n) = n := by
  induction n using Nat.strong_induction_on with
  | _ n ih =>
    by_cases h : n < 10
    · rw [decimal_small n h]
      simp [digitsVal, digitChar_toNat n h]
    · rw [decimal_large n (by omega), digitsVal_snoc, ih (n / 10) (by omega),
        digitChar_toNat _ (Nat.mod_lt _ (by decide))]
      omega

/-- The numeral of a positive number starts with a non-zero digit. -/
theorem decimal_head (n : Nat) (hn : 0 < n) :
    ∃ c cs, decimal n = c :: cs ∧ isDigit c = true ∧ c ≠ Char.ofNat 48 := by
  induction n using Nat.strong_induction_on with
  | _ n ih =>
    by_cases h : n < 10
    · exact ⟨digitChar n, [], decimal_small n h, isDigit_digitChar n h,
        digitChar_ne_zero n h (by omega)⟩
    · obtain ⟨c, cs, e, hd, h0⟩ := ih (n / 10) (by omega) (by omega)
      exact ⟨c, cs ++ [digitChar (n % 10)], by rw [decimal_large n (by omega), e]; rfl, hd, h0⟩

theorem isDelim_cases (c : Char) (h : isDelim c = true) : c = Char.ofNat 44 ∨ c = Char.ofNat 93 := by
  simpa [isDelim] using h

theorem takeWhile_digits (ds : List Char) (c : Char) (rest : List Char)
    (hds : ∀ x ∈ ds, isDigit x = true) (hc : isDigit c = false) :
    (ds ++ c :: rest).takeWhile isDigit = ds := by
  induction ds with
  | nil => simp [List.takeWhile, hc]
  | cons d ds ih =>
    have hd : isDigit d = true := hds d (List.mem_cons_self _ _)
    simp [List.takeWhile, hd]
    exact ih (fun x hx => hds x (List.mem_cons_of_mem _ hx))

theorem dropWhile_digits (ds : List Char) (c : Char) (rest : List Char)
    (hds : ∀ x ∈ ds, isDigit x = true) (hc : isDigit c = false) :
    (ds ++ c :: rest).dropWhile isDigit = c :: rest := by
  induction ds with
  | nil => simp [List.dropWhile, hc]
  | cons d ds ih =>
    have hd : isDigit d = true := hds d (List.mem_cons_self _ _)
    simp [List.dropWhile, hd]
    exact ih (fun x hx => hds x (List.mem_cons_of_mem _ hx))

theorem parseIntPart_decimal (n : Nat) (c : Char) (rest : List Char) (hc : isDigit c = false) :
    parseIntPart (decimal n ++ c :: rest) = some (n, c :: rest) := by
  rcases Nat.eq_zero_or_pos n with h0 | hpos
  · subst h0
    rfl
  · obtain ⟨d, ds, e, hd, hz⟩ := decimal_head n hpos
    have hall := decimal_digits n
    have e1 := takeWhile_digits (decimal n) c rest hall hc
    have e2 := dropWhile_digits (decimal n) c rest hall hc
    rw [e] at e1 e2
    rw [e]
    simp only [List.cons_append] at e1 e2 ⊢
    unfold parseIntPart
    simp only [hz, if_false, hd, if_true, e1, e2]
    rw [← e, digitsVal_decimal]

theorem parseUnsigned_decimal (n : Nat) (c : Char) (rest : List Char) (hc : isDelim c = true) :
    parseUnsigned (decimal n ++ c :: rest) = some ((n : ℚ), c :: rest) := by
  have hdig : isDigit c = false := by
    rcases isDelim_cases c hc with h | h <;> subst h <;> rfl
  have hdot : c ≠ Char.ofNat 46 := by
    rcases isDelim_cases c hc with h | h <;> subst h <;> decide
  have he : ¬ (c = Char.ofNat 101 ∨ c = Char.ofNat 69) := by
    rcases isDelim_cases c hc with h | h <;> subst h <;> decide
  unfold parseUnsigned
  rw [parseIntPart_decimal n c rest hdig]
  simp [parseFrac, parseExp, hdot, he]

theorem Number_toString_head (i : ℤ) : ∃ c cs, Number_toString i = c :: cs ∧ isNumStart c = true := by
  cases i with
  | ofNat n =>
    rcases Nat.eq_zero_or_pos n with h0 | hpos
    · subst h0
      exact ⟨Char.ofNat 48, [], rfl, rfl⟩
    · obtain ⟨d, ds, e, hd, _⟩ := decimal_head n hpos
      exact ⟨d, ds, e, by simp [isNumStart, hd]⟩
  | negSucc n => exact ⟨Char.ofNat 45, decimal (n + 1), rfl, rfl⟩

theorem parseNumber_toString (i : ℤ) (c : Char) (rest : List Char) (hc : isDelim c = true) :
    parseNumber (Number_toString i ++ c :: rest) = some ((i : ℚ), c :: rest) := by
  cases i with
  | ofNat n =>
    have hne : decimal n ≠ [] ∧ ∀ d ds, decimal n = d :: ds → d ≠ Char.ofNat 45 := by
      constructor
      · rcases Nat.eq_zero_or_pos n with h0 | hpos
        · subst h0; decide
        · obtain ⟨d, ds, e, _, _⟩ := decimal_head n hpos
          simp [e]
      · intro d ds e h
        have := decimal_digits n d (by simp [e])
        subst h
        exact absurd this (by decide)
    show parseNumber (decimal n ++ c :: rest) = _
    cases e : decimal n with
    | nil => exact absurd e hne.1
    | cons d ds =>
      have hd := hne.2 d ds e
      have := parseUnsigned_decimal n c rest hc
      rw [e] at this
      simp only [List.cons_append] at this ⊢
      unfold parseNumber
      simp only [hd, if_false, this]
      simp
  | negSucc n =>
    show parseNumber (Char.ofNat 45 :: (decimal (n + 1) ++ c :: rest)) = _
    unfold parseNumber
    simp only [if_true, parseUnsigned_decimal (n + 1) c rest hc, Option.map_some']
    simp [Int.negSucc_eq]

theorem parseValue_toString (f : Nat) (i : ℤ) (c : Char) (rest : List Char) (hc : isDelim c = true) :
    parseValue (f + 1) (Number_toString i ++ c :: rest) = some (JVal.num (i : ℚ), c :: rest) := by
  obtain ⟨d, ds, e, hd⟩ := Number_toString_head i
  have key := parseNumber_toString i c rest hc
  rw [e] at key ⊢
  simp only [List.cons_append] at key ⊢
  have h1 : d ≠ Char.ofNat 91 := by
    intro h; subst h; exact absurd hd (by decide)
  have h2 : d ≠ Char.ofNat 123 := by
    intro h; subst h; exact absurd hd (by decide)
  have h3 : d ≠ Char.ofNat 34 := by
    intro h; subst h; exact absurd hd (by decide)
  have h4 : d ≠ Char.ofNat 116 := by
    intro h; subst h; exact absurd hd (by decide)
  have h5 : d ≠ Char.ofNat 102 := by
    intro h; subst h; exact absurd hd (by decide)
  have h6 : d ≠ Char.ofNat 110 := by
    intro h; subst h; exact absurd hd (by decide)
  unfold parseValue
  simp only [List.head?_cons, Option.some.injEq, h1, h2, h3, if_false]
  unfold parseAtom
  simp [h4, h5, h6, key]

theorem skipWs_of_not_ws (c : Char) (cs : List Char) (h : isWs c = false) :
    skipWs (c :: cs) = c :: cs := by
  simp [skipWs, h]

theorem isWs_of_isDelim (c : Char) (h : isDelim c = true) : isWs c = false := by
  rcases isDelim_cases c h with h | h <;> subst h <;> rfl

theorem isWs_of_isNumStart (c : Char) (h : isNumStart c = true) : isWs c = false := by
  cases hw : isWs c with
  | false => rfl
  | true =>
    exfalso
    simp only [isWs, Bool.or_eq_true, decide_eq_true_eq] at hw
    rcases hw with ((hw | hw) | hw) | hw <;> subst hw <;> exact absurd h (by decide)

theorem joinElems_cons (i : ℤ) (is : List ℤ) (his : is ≠ []) :
    joinElems (i :: is) = Number_toString i ++ Char.ofNat 44 :: joinElems is := by
  cases is with
  | nil => exact absurd rfl his
  | cons j r => rfl

theorem joinElems_head (is : List ℤ) (his : is ≠ []) :
    ∃ c cs, joinElems is = c :: cs ∧ isNumStart c = true := by
  cases is with
  | nil => exact absurd rfl his
  | cons i r =>
    obtain ⟨c, cs, e, hc⟩ := Number_toString_head i
    cases r with
    | nil => exact ⟨c, cs, e, hc⟩
    | cons j r =>
      refine ⟨c, cs ++ Char.ofNat 44 :: joinElems (j :: r), ?_, hc⟩
      rw [joinElems_cons i (j :: r) (by simp), e]
      rfl

theorem parseElems_join (is : List ℤ) (his : is ≠ []) :
    ∀ (f : Nat) (rest : List Char), is.length < f →
      parseElems f (joinElems is ++ Char.ofNat 93 :: rest)
        = some (is.map (fun (i : ℤ) => JVal.num (i : ℚ)), rest) := by
  induction is with
  | nil => exact absurd rfl his
  | cons i r ih =>
    intro f rest hf
    cases f with
    | zero => omega
    | succ f =>
      cases f with
      | zero => simp at hf
      | succ f =>
        cases r with
        | nil =>
          show parseElems (f + 1 + 1) (Number_toString i ++ Char.ofNat 93 :: rest) = _
          unfold parseElems
          rw [parseValue_toString f i _ rest (by rfl)]
          simp only [Option.some_bind,
            skipWs_of_not_ws _ rest (isWs_of_isDelim (Char.ofNat 93) (by rfl))]
          simp
        | cons j r =>
          have hne : (j :: r) ≠ [] := by simp
          rw [joinElems_cons i (j :: r) hne, List.append_assoc, List.cons_append]
          unfold parseElems
          rw [parseValue_toString f i _ _ (by rfl)]
          simp only [Option.some_bind,
            skipWs_of_not_ws _ _ (isWs_of_isDelim (Char.ofNat 44) (by rfl))]
          obtain ⟨c, cs, e, hc⟩ := joinElems_head (j :: r) hne
          have hsk : skipWs (joinElems (j :: r) ++ Char.ofNat 93 :: rest)
              = joinElems (j :: r) ++ Char.ofNat 93 :: rest := by
            rw [e]
            exact skipWs_of_not_ws _ _ (isWs_of_isNumStart c hc)
          simp only [List.head?_cons, if_true, List.tail_cons]
          rw [hsk, ih hne (f + 1) rest (by simpa using hf)]
          simp

theorem length_le_joinElems (is : List ℤ) : is.length ≤ (joinElems is).length := by
  induction is with
  | nil => simp [joinElems]
  | cons i r ih =>
    obtain ⟨c, cs, e, _⟩ := Number_toString_head i
    cases r with
    | nil => simp [joinElems, e]
    | cons j r =>
      rw [joinElems_cons i (j :: r) (by simp), e]
      simp only [List.length_cons, List.length_append] at ih ⊢
      omega

/-- Parsing the text `[y1,...,yn]` of a non-empty list of integers gives back the
array of these numbers. -/
theorem JSON_parse_join (is : List ℤ) (his : is ≠ []) :
    JSON_parse (String.mk (Char.ofNat 91 :: (joinElems is ++ [Char.ofNat 93])))
      = some (JVal.arr (is.map (fun (i : ℤ) => JVal.num (i : ℚ)))) := by
  obtain ⟨c, cs, e, hc⟩ := joinElems_head is his
  have hlen := length_le_joinElems is
  have hws : isWs (Char.ofNat 91) = false := by rfl
  have hnb : c ≠ Char.ofNat 93 := by
    intro h; subst h; exact absurd hc (by decide)
  have hp := parseElems_join is his ((joinElems is).length + 2) [] (by omega)
  unfold JSON_parse
  have hsk : skipWs (joinElems is ++ [Char.ofNat 93]) = c :: (cs ++ [Char.ofNat 93]) := by
    rw [e]
    exact skipWs_of_not_ws _ _ (isWs_of_isNumStart c hc)
  have hp2 : parseElems ((joinElems is).length + 2) (c :: (cs ++ [Char.ofNat 93]))
      = some (is.map (fun (i : ℤ) => JVal.num (i : ℚ)), []) := by
    rw [← List.cons_append, ← e]
    exact hp
  have hl : (String.mk (Char.ofNat 91 :: (joinElems is ++ [Char.ofNat 93]))).length
      = (joinElems is).length + 2 := by
    simp [String.length]
  rw [hl]
  show (match parseValue ((joinElems is).length + 2 + 1)
      (skipWs (Char.ofNat 91 :: (joinElems is ++ [Char.ofNat 93]))) with
    | none => none
    | some (v, r) => if skipWs r = [] then some v else none) = _
  rw [skipWs_of_not_ws _ _ hws]
  unfold parseValue
  simp only [List.head?_cons, if_true, List.tail_cons, hsk, Option.some.injEq, hnb, if_false,
    hp2, Option.map_some']
  simp [skipWs]

theorem integersOf_map (is : List ℤ) :
    integersOf (is.map (fun (i : ℤ) => JVal.num (i : ℚ))) = some is := by
  induction is with
  | nil => rfl
  | cons i r ih => simp [integersOf, integerOf, ih]

theorem JSON_stringify_intArray (is : List ℤ) :
    JSON_stringify (intArray is)
      = some (String.mk (Char.ofNat 91 :: (joinElems is ++ [Char.ofNat 93]))) := by
  simp [JSON_stringify, intArray, integersOf_map]

theorem JSON_parse_five : JSON_parse "5" = some (JVal.num 5) := by
  simp [JSON_parse, parseValue, parseAtom, skipWs, isWs, parseNumber, parseUnsigned, parseIntPart,
    parseFrac, parseExp, isDigit, digitsVal]

/-! ## The listener, branch by branch -/

theorem getItem_setItem (st : Storage) (k v : String) : getItem (setItem st k v) k = some v := by
  simp [getItem, setItem, List.lookup]

theorem keydown_R (h : Host) (w : World) (e : KeyEvent) (he : Pressed e "r" "R") :
    keydown h w e = some (window_scrollTo
      { w with mode := Mode.recording, checkpoints := JVal.arr [], playbackIndex := 0 } (JSNum.fin 0),
      ⟨false, [LogMsg.recordingStarted], none⟩) := by
  obtain ⟨hi, hk⟩ := he
  simp [keydown, hi, hk]

theorem keydown_S (h : Host) (w : World) (e : KeyEvent) (he : Pressed e "s" "S")
    (xs : List JVal) (hm : w.mode = Mode.recording) (hc : w.checkpoints = JVal.arr xs) :
    keydown h w e = some
      ({ w with checkpoints := JVal.arr (xs ++ [JVal.num (Math_round w.scrollY)]) },
        ⟨true, [LogMsg.checkpointSaved (xs.length + 1) (Math_round w.scrollY)], none⟩) := by
  obtain ⟨hi, hk⟩ := he
  have hr : ¬ (e.key = "r" ∨ e.key = "R") := by
    rcases hk with hk | hk <;> rw [hk] <;> decide
  simp [keydown, hi, hk, hr, hm, hc]

theorem keydown_E_empty (h : Host) (w : World) (e : KeyEvent) (he : Pressed e "e" "E")
    (hm : w.mode = Mode.recording) (hc : w.checkpoints = JVal.arr []) :
    keydown h w e = some (w, ⟨false, [LogMsg.noCheckpoints], none⟩) := by
  obtain ⟨hi, hk⟩ := he
  have hr : ¬ (e.key = "r" ∨ e.key = "R") := by
    rcases hk with hk | hk <;> rw [hk] <;> decide
  have hs : ¬ (e.key = "s" ∨ e.key = "S") := by
    rcases hk with hk | hk <;> rw [hk] <;> decide
  simp [keydown, hi, hk, hr, hs, hm, hc]

theorem keydown_E (h : Host) (w : World) (e : KeyEvent) (he : Pressed e "e" "E")
    (is : List ℤ) (his : is ≠ []) (hm : w.mode = Mode.recording) (hc : w.checkpoints = intArray is) :
    keydown h w e = some (window_scrollTo
      { w with
          store := setItem w.store (STORAGE_KEY h)
            (String.mk (Char.ofNat 91 :: (joinElems is ++ [Char.ofNat 93])))
          mode := Mode.playback
          playbackIndex := 0 } (JSNum.fin 0),
      ⟨false, [LogMsg.recordingEnded is.length], none⟩) := by
  obtain ⟨hi, hk⟩ := he
  have hr : ¬ (e.key = "r" ∨ e.key = "R") := by
    rcases hk with hk | hk <;> rw [hk] <;> decide
  have hs : ¬ (e.key = "s" ∨ e.key = "S") := by
    rcases hk with hk | hk <;> rw [hk] <;> decide
  have hst := JSON_stringify_intArray is
  rw [intArray] at hst hc
  simp [keydown, hi, hk, hr, hs, hm, hc, hst, his]

theorem keydown_space_busy (h : Host) (w : World) (e : KeyEvent) (he : Pressed e " " " ")
    (hm : w.mode = Mode.playback) (hb : w.isScrolling = true) :
    keydown h w e = some (w, ⟨true, [], none⟩) := by
  obtain ⟨hi, hk⟩ := he
  have hk1 : e.key = " " := by rcases hk with hk | hk <;> exact hk
  simp [keydown, hi, hk1, hm, hb]

theorem keydown_space_loop (h : Host) (w : World) (e : KeyEvent) (he : Pressed e " " " ")
    (hm : w.mode = Mode.playback) (hb : w.isScrolling = false) (xs : List JVal)
    (hc : w.checkpoints = JVal.arr xs) (hi : xs.length ≤ w.playbackIndex) :
    keydown h w e = some (window_scrollTo { w with playbackIndex := 0 } (JSNum.fin 0),
      ⟨true, [LogMsg.loopedBack], none⟩) := by
  obtain ⟨hig, hk⟩ := he
  have hk1 : e.key = " " := by rcases hk with hk | hk <;> exact hk
  simp [keydown, hig, hk1, hm, hb, hc, hi]

theorem keydown_space_advance (h : Host) (w : World) (e : KeyEvent) (he : Pressed e " " " ")
    (hm : w.mode = Mode.playback) (hb : w.isScrolling = false) (xs : List JVal)
    (hc : w.checkpoints = JVal.arr xs) (hi : w.playbackIndex < xs.length) :
    keydown h w e = some
      ((smoothScrollTo h { w with playbackIndex := w.playbackIndex + 1 }
          (xs.get ⟨w.playbackIndex, hi⟩) (w.playbackIndex + 1)).1,
        ⟨true,
          (smoothScrollTo h { w with playbackIndex := w.playbackIndex + 1 }
            (xs.get ⟨w.playbackIndex, hi⟩) (w.playbackIndex + 1)).2,
          some (xs.get ⟨w.playbackIndex, hi⟩)⟩) := by
  obtain ⟨hig, hk⟩ := he
  have hk1 : e.key = " " := by rcases hk with hk | hk <;> exact hk
  have hi2 : ¬ xs.length ≤ w.playbackIndex := by omega
  simp [keydown, hig, hk1, hm, hb, hc, hi2]

/-- The ways a key press can change the page: not at all; R; S; an accepted E;
the loop back to the top; a playback step. -/
theorem keydown_cases (h : Host) (w w1 : World) (e : KeyEvent) (eff : Effects)
    (hk : keydown h w e = some (w1, eff)) :
    w1 = w
    ∨ w1 = window_scrollTo
        { w with mode := Mode.recording, checkpoints := JVal.arr [], playbackIndex := 0 } (JSNum.fin 0)
    ∨ (w.mode = Mode.recording ∧ ∃ xs, w.checkpoints = JVal.arr xs
        ∧ w1 = { w with checkpoints := JVal.arr (xs ++ [JVal.num (Math_round w.scrollY)]) })
    ∨ (w.mode = Mode.recording ∧ ∃ x xs text, w.checkpoints = JVal.arr (x :: xs)
        ∧ JSON_stringify (JVal.arr (x :: xs)) = some text
        ∧ w1 = window_scrollTo
            { w with store := setItem w.store (STORAGE_KEY h) text
                     mode := Mode.playback
                     playbackIndex := 0 } (JSNum.fin 0))
    ∨ (w.mode = Mode.playback ∧ w.isScrolling = false
        ∧ w1 = window_scrollTo { w with playbackIndex := 0 } (JSNum.fin 0))
    ∨ (w.mode = Mode.playback ∧ w.isScrolling = false ∧ ∃ xs, w.checkpoints = JVal.arr xs
        ∧ ∃ hi : w.playbackIndex < xs.length,
          w1 = (smoothScrollTo h { w with playbackIndex := w.playbackIndex + 1 }
            (xs.get ⟨w.playbackIndex, hi⟩) (w.playbackIndex + 1)).1) := by
  unfold keydown at hk
  split at hk
  · cases hk; exact Or.inl rfl
  · split at hk
    · cases hk; exact Or.inr (Or.inl rfl)
    · split at hk
      · rename_i hS
        split at hk
        · rename_i xs hc
          cases hk
          exact Or.inr (Or.inr (Or.inl ⟨hS.2, xs, hc, rfl⟩))
        · cases hk
      · split at hk
        · rename_i hE
          split at hk
          · rename_i xs hc
            split at hk
            · cases hk; exact Or.inl rfl
            · rename_i hlen
              split at hk
              · cases hk
              · rename_i text hst
                cases hk
                cases xs with
                | nil => exact absurd rfl hlen
                | cons x xs =>
                  exact Or.inr (Or.inr (Or.inr (Or.inl ⟨hE.2, x, xs, text, hc, hst, rfl⟩)))
          · cases hk
        · split at hk
          · rename_i hSp
            split at hk
            · cases hk; exact Or.inl rfl
            · rename_i hb
              split at hk
              · rename_i xs hc
                split at hk
                · cases hk
                  exact Or.inr (Or.inr (Or.inr (Or.inr (Or.inl
                    ⟨hSp.2, by simpa using hb, rfl⟩))))
                · rename_i hi
                  cases hk
                  exact Or.inr (Or.inr (Or.inr (Or.inr (Or.inr
                    ⟨hSp.2, by simpa using hb, xs, hc, Nat.lt_of_not_le hi, rfl⟩))))
              · cases hk
          · cases hk; exact Or.inl rfl

theorem run_append (h : Host) (evs1 evs2 : List Event) : ∀ (w : World),
    run h w (evs1 ++ evs2) = (run h w evs1).bind (fun w1 => run h w1 evs2) := by
  induction evs1 with
  | nil => intro w; rfl
  | cons ev evs ih =>
    intro w
    simp only [List.cons_append, run]
    cases next h w ev with
    | none => rfl
    | some w1 => exact ih w1

theorem intArray_snoc (is : List ℤ) (y : ℚ) :
    JVal.arr (is.map (fun (i : ℤ) => JVal.num (i : ℚ)) ++ [JVal.num (Math_round y)])
      = intArray (is ++ [⌊y + 1 / 2⌋]) := by
  simp [intArray, Math_round]

theorem intArray_eq_arr (is : List ℤ) (xs : List JVal) (h : intArray is = JVal.arr xs) :
    xs = is.map (fun (i : ℤ) => JVal.num (i : ℚ)) := by
  simp only [intArray, JVal.arr.injEq] at h
  exact h.symm

theorem run_saves (h : Host) (eS : KeyEvent) (hS : Pressed eS "s" "S") (ys : List ℚ) :
    ∀ (w : World) (is : List ℤ), w.mode = Mode.recording → w.checkpoints = intArray is →
      ∃ w1, run h w (ys.flatMap (fun y => [Event.scroll y, Event.key eS])) = some w1
        ∧ w1.mode = Mode.recording
        ∧ w1.checkpoints = intArray (is ++ ys.map (fun y => ⌊y + 1 / 2⌋))
        ∧ w1.store = w.store := by
  induction ys with
  | nil => intro w is hm hc; exact ⟨w, rfl, hm, by simpa using hc, rfl⟩
  | cons y ys ih =>
    intro w is hm hc
    have hk := keydown_S h { w with scrollY := y } eS hS
      (is.map (fun (i : ℤ) => JVal.num (i : ℚ))) hm hc
    obtain ⟨w1, hrun, hm1, hc1, hs1⟩ := ih
      { w with scrollY := y
               checkpoints := JVal.arr (is.map (fun (i : ℤ) => JVal.num (i : ℚ))
                  ++ [JVal.num (Math_round y)]) }
      (is ++ [⌊y + 1 / 2⌋]) hm (intArray_snoc is y)
    refine ⟨w1, ?_, hm1, by simpa using hc1, hs1⟩
    simp only [List.flatMap_cons, List.cons_append, List.nil_append, run, next, hk,
      Option.map_some']
    exact hrun

theorem pressed_plainKey (k : String) : Pressed (plainKey k) k k := ⟨rfl, Or.inl rfl⟩

/-! ## Animations -/

theorem step_fields (a : Anim) (t : ℚ) (w : World) :
    (step a t w).1.mode = w.mode ∧ (step a t w).1.checkpoints = w.checkpoints
      ∧ (step a t w).1.playbackIndex = w.playbackIndex ∧ (step a t w).1.store = w.store
      ∧ (step a t w).1.innerHeight = w.innerHeight := by
  cases hlt : JSNum.lt (frameProgress a t) (JSNum.fin 1) <;>
    simp [step, hlt, window_scrollTo]

theorem foldl_step_fields (t : ℚ) (l : List Anim) : ∀ (acc : World × List LogMsg),
    let r := l.foldl
      (fun acc a => ((step a t acc.1).1, acc.2 ++ (step a t acc.1).2)) acc
    r.1.mode = acc.1.mode ∧ r.1.checkpoints = acc.1.checkpoints
      ∧ r.1.playbackIndex = acc.1.playbackIndex ∧ r.1.store = acc.1.store
      ∧ r.1.innerHeight = acc.1.innerHeight := by
  induction l with
  | nil => intro acc; exact ⟨rfl, rfl, rfl, rfl, rfl⟩
  | cons a l ih =>
    intro acc
    simp only [List.foldl_cons]
    obtain ⟨h1, h2, h3, h4, h5⟩ := ih ((step a t acc.1).1, acc.2 ++ (step a t acc.1).2)
    obtain ⟨g1, g2, g3, g4, g5⟩ := step_fields a t acc.1
    exact ⟨h1.trans g1, h2.trans g2, h3.trans g3, h4.trans g4, h5.trans g5⟩

/-- An animation frame touches neither the module variables `mode`, `checkpoints`,
`playbackIndex` nor the store. -/
theorem animationFrame_fields (w : World) (t : ℚ) :
    (animationFrame w t).1.mode = w.mode ∧ (animationFrame w t).1.checkpoints = w.checkpoints
      ∧ (animationFrame w t).1.playbackIndex = w.playbackIndex
      ∧ (animationFrame w t).1.store = w.store
      ∧ (animationFrame w t).1.innerHeight = w.innerHeight :=
  foldl_step_fields t w.frames ({ w with frames := [] }, [])

theorem smoothScrollTo_fields (h : Host) (w : World) (target : JVal) (idx : Nat) :
    (smoothScrollTo h w target idx).1.mode = w.mode
      ∧ (smoothScrollTo h w target idx).1.checkpoints = w.checkpoints
      ∧ (smoothScrollTo h w target idx).1.playbackIndex = w.playbackIndex
      ∧ (smoothScrollTo h w target idx).1.store = w.store
      ∧ (smoothScrollTo h w target idx).1.scrollY = w.scrollY := by
  unfold smoothScrollTo
  cases ToNumber h target with
  | none => exact ⟨rfl, rfl, rfl, rfl, rfl⟩
  | some t =>
    cases hz : (JSNum.sub t (JSNum.fin w.scrollY)).isZero <;> simp [hz]

/-- What `smoothScrollTo` does to the busy flag and the registered callbacks: either
nothing, or the flag is set and one callback is registered. -/
theorem smoothScrollTo_frames (h : Host) (w : World) (target : JVal) (idx : Nat) :
    ((smoothScrollTo h w target idx).1 = w)
      ∨ ((smoothScrollTo h w target idx).1.isScrolling = true
          ∧ ∃ a, (smoothScrollTo h w target idx).1.frames = w.frames ++ [a]) := by
  unfold smoothScrollTo
  cases ToNumber h target with
  | none => exact Or.inl rfl
  | some t =>
    cases hz : (JSNum.sub t (JSNum.fin w.scrollY)).isZero with
    | true => left; simp [hz]
    | false => right; simp [hz]

theorem jsMin_fin (a b : ℚ) : JSNum.min (JSNum.fin a) (JSNum.fin b) = JSNum.fin (min a b) := by
  by_cases hab : b < a
  · simp [JSNum.min, JSNum.lt, hab, min_eq_right (le_of_lt hab)]
  · simp [JSNum.min, JSNum.lt, hab, min_eq_left (not_lt.mp hab)]

theorem jsMax_fin (a b : ℚ) : JSNum.max (JSNum.fin a) (JSNum.fin b) = JSNum.fin (max a b) := by
  by_cases hab : a < b
  · simp [JSNum.max, JSNum.lt, hab, max_eq_right (le_of_lt hab)]
  · simp [JSNum.max, JSNum.lt, hab, max_eq_left (not_lt.mp hab)]

theorem scrollDuration_fin (d vh : ℚ) (hvh : vh ≠ 0) :
    scrollDuration (JSNum.fin d) vh
      = JSNum.fin (max 200 (min (|d| / vh * 100) 4000)) := by
  simp [scrollDuration, JSNum.abs, JSNum.div, JSNum.mul, hvh, jsMin_fin, jsMax_fin,
    MS_PER_VIEWPORT]

theorem smoothScrollTo_num (h : Host) (w : World) (target : ℚ) (idx : Nat)
    (hne : target ≠ w.scrollY) (hvh : w.innerHeight ≠ 0) :
    smoothScrollTo h w (JVal.num target) idx
      = ({ w with
            isScrolling := true
            frames := w.frames ++ [⟨w.scrollY, JSNum.fin (target - w.scrollY),
              JSNum.fin (max 200 (min (|target - w.scrollY| / w.innerHeight * 100) 4000)),
              none, idx, JVal.num target⟩] }, []) := by
  have hz : (JSNum.sub (JSNum.fin target) (JSNum.fin w.scrollY)).isZero = false := by
    simp [JSNum.sub, JSNum.add, JSNum.neg, JSNum.isZero, sub_eq_zero, hne, ← sub_eq_add_neg]
  have hsub : JSNum.sub (JSNum.fin target) (JSNum.fin w.scrollY) = JSNum.fin (target - w.scrollY) := by
    simp [JSNum.sub, JSNum.add, JSNum.neg, ← sub_eq_add_neg]
  simp only [smoothScrollTo, ToNumber, hz]
  rw [hsub, scrollDuration_fin _ _ hvh]
  simp

theorem space_advance_num (h : Host) (w : World) (e : KeyEvent) (he : Pressed e " " " ")
    (hm : w.mode = Mode.playback) (hb : w.isScrolling = false) (xs : List JVal)
    (hc : w.checkpoints = JVal.arr xs) (hi : w.playbackIndex < xs.length) (target : ℚ)
    (hx : xs.get ⟨w.playbackIndex, hi⟩ = JVal.num target)
    (hne : target ≠ w.scrollY) (hvh : w.innerHeight ≠ 0) :
    keydown h w e = some
      ({ w with
          playbackIndex := w.playbackIndex + 1
          isScrolling := true
          frames := w.frames ++ [⟨w.scrollY, JSNum.fin (target - w.scrollY),
            JSNum.fin (max 200 (min (|target - w.scrollY| / w.innerHeight * 100) 4000)),
            none, w.playbackIndex + 1, JVal.num target⟩] },
        ⟨true, [], some (JVal.num target)⟩) := by
  rw [keydown_space_advance h w e he hm hb xs hc hi, hx,
    smoothScrollTo_num h { w with playbackIndex := w.playbackIndex + 1 } target
      (w.playbackIndex + 1) hne hvh]

/-- An animation over a finite distance, started at the first of two frames that
are its whole duration apart, ends at the second one on its target. -/
theorem two_frames_finish (h : Host) (w : World) (a : Anim) (d t dur : ℚ)
    (hf : w.frames = [a]) (hd : a.distance = JSNum.fin d) (hdur : a.duration = JSNum.fin dur)
    (hs : a.startTime = none) (hpos : 0 < dur) (ht : t ≠ 0) :
    run h w [Event.frame t, Event.frame (t + dur)]
      = some { w with isScrolling := false, scrollY := a.startY + d, frames := [] } := by
  have hd0 : dur ≠ 0 := ne_of_gt hpos
  simp [run, next, animationFrame, step, frameProgress, frameStart, framePosition, ease,
    window_scrollTo, JSNum.div, JSNum.sub, JSNum.add, JSNum.neg, JSNum.mul, JSNum.pow, jsMin_fin,
    JSNum.lt, hd0, ht, hf, hd, hdur, hs]

theorem scenario_first_press (h : Host) :
    keydown h scenarioPage spaceKey = some (firstStepPage, ⟨true, [], some (JVal.num 400)⟩) := by
  have k1 := space_advance_num h scenarioPage spaceKey ⟨rfl, Or.inl rfl⟩ rfl rfl
    [JVal.num 400, JVal.num 1200, JVal.num 3000] rfl (by decide) 400 rfl
    (by simp [scenarioPage]) (by simp [scenarioPage])
  rw [k1]
  simp only [scenarioPage, firstStepPage]
  norm_num

/-! ## The load -/

theorem init_of_array (h : Host) (store : Storage) (y0 h0 : ℚ) (text : String) (x : JVal)
    (xs : List JVal) (hg : getItem store (STORAGE_KEY h) = some text)
    (hp : JSON_parse text = some (JVal.arr (x :: xs))) :
    init h store y0 h0 =
      (⟨Mode.playback, JVal.arr (x :: xs), 0, false, store, y0, h0, []⟩,
        [LogMsg.loaded (xs.length + 1), LogMsg.ready]) := by
  have hne : text ≠ "" := by
    intro he
    have hnone : JSON_parse "" = none := rfl
    rw [he, hnone] at hp
    cases hp
  simp [init, hg, hne, hp]

/-- The page `init` starts from before it looks at the store. -/
theorem init_shape (h : Host) (store : Storage) (y0 h0 : ℚ) :
    (∃ text x xs, getItem store (STORAGE_KEY h) = some text
        ∧ JSON_parse text = some (JVal.arr (x :: xs))
        ∧ init h store y0 h0
          = (⟨Mode.playback, JVal.arr (x :: xs), 0, false, store, y0, h0, []⟩,
              [LogMsg.loaded (xs.length + 1), LogMsg.ready]))
    ∨ ((¬ ∃ text x xs, getItem store (STORAGE_KEY h) = some text
          ∧ JSON_parse text = some (JVal.arr (x :: xs)))
        ∧ ∃ v, init h store y0 h0 = (⟨Mode.idle, v, 0, false, store, y0, h0, []⟩, [LogMsg.ready])
          ∧ (v = JVal.arr [] ∨ ∃ text, getItem store (STORAGE_KEY h) = some text
              ∧ JSON_parse text = some v)) := by
  cases hg : getItem store (STORAGE_KEY h) with
  | none =>
    right
    refine ⟨by simp, JVal.arr [], by simp [init, hg], Or.inl rfl⟩
  | some saved =>
    cases hp : JSON_parse saved with
    | none =>
      right
      refine ⟨by simp [hp], JVal.arr [], ?_, Or.inl rfl⟩
      by_cases hs : saved = "" <;> simp [init, hg, hs, hp]
    | some v =>
      have hs : saved ≠ "" := by
        intro he
        have hnone : JSON_parse "" = none := rfl
        rw [he, hnone] at hp
        cases hp
      cases v with
      | arr xs =>
        cases xs with
        | nil =>
          right
          exact ⟨by simp [hp], JVal.arr [], by simp [init, hg, hs, hp], Or.inl rfl⟩
        | cons x xs =>
          left
          exact ⟨saved, x, xs, rfl, hp, init_of_array h store y0 h0 saved x xs hg hp⟩
      | null =>
        right
        exact ⟨by simp [hp], JVal.null, by simp [init, hg, hs, hp], Or.inr ⟨saved, rfl, hp⟩⟩
      | bool b =>
        right
        exact ⟨by simp [hp], JVal.bool b, by simp [init, hg, hs, hp], Or.inr ⟨saved, rfl, hp⟩⟩
      | num q =>
        right
        exact ⟨by simp [hp], JVal.num q, by simp [init, hg, hs, hp], Or.inr ⟨saved, rfl, hp⟩⟩
      | str t =>
        right
        exact ⟨by simp [hp], JVal.str t, by simp [init, hg, hs, hp], Or.inr ⟨saved, rfl, hp⟩⟩
      | obj m =>
        right
        exact ⟨by simp [hp], JVal.obj m, by simp [init, hg, hs, hp], Or.inr ⟨saved, rfl, hp⟩⟩

/-! ## Reachable pages -/

theorem wellFormed_of_idle (w : World) (hm : w.mode = Mode.idle) : WellFormed w :=
  ⟨fun h1 => absurd (hm.symm.trans h1) (by decide), fun h1 => absurd (hm.symm.trans h1) (by decide)⟩

theorem init_wellFormed (h : Host) (store : Storage) (y0 h0 : ℚ) :
    WellFormed (init h store y0 h0).1 ∧ (init h store y0 h0).1.playbackIndex = 0 := by
  rcases init_shape h store y0 h0 with ⟨text, x, xs, _, _, hi⟩ | ⟨_, v, hi, _⟩
  · rw [hi]
    exact ⟨⟨fun hm => Mode.noConfusion hm, fun _ => ⟨x, xs, rfl⟩⟩, rfl⟩
  · rw [hi]
    exact ⟨wellFormed_of_idle _ rfl, rfl⟩

theorem keydown_wellFormed (h : Host) (w w1 : World) (e : KeyEvent) (eff : Effects)
    (hw : WellFormed w) (hk : keydown h w e = some (w1, eff)) : WellFormed w1 := by
  rcases keydown_cases h w w1 e eff hk with
    rfl | rfl | ⟨hm, xs, hc, rfl⟩ | ⟨hm, x, xs, text, hc, _, rfl⟩ | ⟨hm, _, rfl⟩
      | ⟨hm, _, xs, hc, hi, rfl⟩
  · exact hw
  · exact ⟨fun _ => ⟨[], rfl⟩, fun hm => Mode.noConfusion hm⟩
  · obtain ⟨is, his⟩ := hw.1 hm
    refine ⟨fun _ => ⟨is ++ [⌊w.scrollY + 1 / 2⌋], ?_⟩, fun hm2 => ?_⟩
    · have hxs := intArray_eq_arr is xs (his.symm.trans hc)
      subst hxs
      exact intArray_snoc is w.scrollY
    · exact absurd (hm.symm.trans hm2) (by decide)
  · exact ⟨fun hm2 => Mode.noConfusion hm2, fun _ => ⟨x, xs, hc⟩⟩
  · exact ⟨fun hm2 => absurd (hm.symm.trans hm2) (by decide), fun _ => hw.2 hm⟩
  · have hf := smoothScrollTo_fields h { w with playbackIndex := w.playbackIndex + 1 }
      (xs.get ⟨w.playbackIndex, hi⟩) (w.playbackIndex + 1)
    refine ⟨fun hm2 => ?_, fun _ => ?_⟩
    · rw [hf.1] at hm2
      exact absurd (hm.symm.trans hm2) (by decide)
    · rw [hf.2.1]
      exact hw.2 hm

theorem next_wellFormed (h : Host) (w w1 : World) (ev : Event)
    (hw : WellFormed w) (hn : next h w ev = some w1) : WellFormed w1 := by
  cases ev with
  | key e =>
    simp only [next, Option.map_eq_some'] at hn
    obtain ⟨⟨w', eff⟩, hk, rfl⟩ := hn
    exact keydown_wellFormed h w w' e eff hw hk
  | frame t =>
    simp only [next, Option.some.injEq] at hn
    subst hn
    obtain ⟨h1, h2, _⟩ := animationFrame_fields w t
    unfold WellFormed
    rw [h1, h2]
    exact hw
  | scroll y =>
    simp only [next, Option.some.injEq] at hn
    subst hn
    exact hw
  | resize height =>
    simp only [next, Option.some.injEq] at hn
    subst hn
    exact hw

/-- In every reachable page `checkpoints` is an array of integers while recording
and a non-empty array during playback. -/
theorem Reachable.wellFormed (h : Host) (w : World) (hr : Reachable h w) : WellFormed w := by
  induction hr with
  | load store y0 h0 => exact (init_wellFormed h store y0 h0).1
  | next w w1 ev _ hn ih => exact next_wellFormed h w w1 ev ih hn

/-- On a well-formed page, hence on every reachable page, the listener has a result
for every key event. -/
theorem keydown_total_of_wellFormed (h : Host) (w : World) (e : KeyEvent) (hw : WellFormed w) :
    ∃ r, keydown h w e = some r := by
  unfold keydown
  split
  · exact ⟨_, rfl⟩
  · split
    · exact ⟨_, rfl⟩
    · split
      · rename_i hS
        obtain ⟨is, his⟩ := hw.1 hS.2
        rw [his, intArray]
        exact ⟨_, rfl⟩
      · split
        · rename_i hE
          obtain ⟨is, his⟩ := hw.1 hE.2
          have hst := JSON_stringify_intArray is
          rw [his]
          rw [intArray] at hst ⊢
          dsimp only
          split
          · exact ⟨_, rfl⟩
          · rw [hst]
            exact ⟨_, rfl⟩
        · split
          · rename_i hSp
            obtain ⟨x, xs, hc⟩ := hw.2 hSp.2
            rw [hc]
            dsimp only
            split
            · exact ⟨_, rfl⟩
            · split <;> exact ⟨_, rfl⟩
          · exact ⟨_, rfl⟩

/-- From a reachable page every event leads to a page. -/
theorem next_total_of_reachable (h : Host) (w : World) (ev : Event) (hr : Reachable h w) :
    ∃ w1, next h w ev = some w1 := by
  cases ev with
  | key e =>
    obtain ⟨r, hk⟩ := keydown_total_of_wellFormed h w e (Reachable.wellFormed h w hr)
    exact ⟨r.1, by simp [next, hk]⟩
  | frame t => exact ⟨_, rfl⟩
  | scroll y => exact ⟨_, rfl⟩
  | resize height => exact ⟨_, rfl⟩

/-- Whenever `checkpoints` is an array in a reachable page, `playbackIndex` is at
most its length. -/
theorem Reachable.index_le (h : Host) (w : World) (hr : Reachable h w) :
    ∀ xs, w.checkpoints = JVal.arr xs → w.playbackIndex ≤ xs.length := by
  induction hr with
  | load store y0 h0 =>
    intro xs _
    rw [(init_wellFormed h store y0 h0).2]
    exact Nat.zero_le _
  | next w w1 ev _ hn ih =>
    intro ys hys
    cases ev with
    | key e =>
      simp only [ScrollAssist.next, Option.map_eq_some'] at hn
      obtain ⟨⟨w', eff⟩, hk, rfl⟩ := hn
      rcases keydown_cases h w w' e eff hk with
        rfl | rfl | ⟨_, xs, hc, rfl⟩ | ⟨_, x, xs, text, _, _, rfl⟩ | ⟨_, _, rfl⟩
          | ⟨_, _, xs, hc, hi, rfl⟩
      · exact ih ys hys
      · exact Nat.zero_le _
      · simp only [JVal.arr.injEq] at hys
        subst hys
        have := ih xs hc
        simp only [List.length_append, List.length_singleton]
        omega
      · exact Nat.zero_le _
      · exact Nat.zero_le _
      · have hf := smoothScrollTo_fields h { w with playbackIndex := w.playbackIndex + 1 }
          (xs.get ⟨w.playbackIndex, hi⟩) (w.playbackIndex + 1)
        rw [hf.2.1] at hys
        have hxy : xs = ys := by
          have := hc.symm.trans hys
          simpa using this
        subst hxy
        rw [hf.2.2.1]
        exact hi
    | frame t =>
      simp only [ScrollAssist.next, Option.some.injEq] at hn
      subst hn
      obtain ⟨_, h2, h3, _⟩ := animationFrame_fields w t
      rw [h2] at hys
      rw [h3]
      exact ih ys hys
    | scroll y =>
      simp only [ScrollAssist.next, Option.some.injEq] at hn
      subst hn
      exact ih ys hys
    | resize height =>
      simp only [ScrollAssist.next, Option.some.injEq] at hn
      subst hn
      exact ih ys hys

/-- Outside idle mode every reachable page satisfies the invariant of the data model. -/
theorem Reachable.indexInRange (h : Host) (w : World) (hr : Reachable h w)
    (hm : w.mode ≠ Mode.idle) : IndexInRange w := by
  have hw := Reachable.wellFormed h w hr
  cases hmode : w.mode with
  | idle => exact absurd hmode hm
  | recording =>
    obtain ⟨is, his⟩ := hw.1 hmode
    exact ⟨_, his, Reachable.index_le h w hr _ his⟩
  | playback =>
    obtain ⟨x, xs, hc⟩ := hw.2 hmode
    exact ⟨_, hc, Reachable.index_le h w hr _ hc⟩

/-- A key press other than an accepted E leaves the store as it is. -/
theorem keydown_store (h : Host) (w w1 : World) (e : KeyEvent) (eff : Effects)
    (hk : keydown h w e = some (w1, eff)) (hne : ¬ acceptsEnd w (Event.key e)) :
    w1.store = w.store := by
  unfold keydown at hk
  split at hk
  · cases hk; rfl
  · rename_i hign
    split at hk
    · cases hk; rfl
    · split at hk
      · split at hk
        · cases hk; rfl
        · cases hk
      · rename_i hnr hns
        split at hk
        · rename_i hE
          split at hk
          · rename_i xs hc
            split at hk
            · cases hk; rfl
            · rename_i hlen
              exfalso
              apply hne
              refine ⟨⟨by simpa using hign, hE.1⟩, hE.2, ?_⟩
              cases xs with
              | nil => exact absurd rfl hlen
              | cons x xs => exact ⟨x, xs, hc⟩
          · cases hk
        · split at hk
          · split at hk
            · cases hk; rfl
            · split at hk
              · split at hk
                · cases hk; rfl
                · cases hk
                  exact (smoothScrollTo_fields h _ _ _).2.2.2.1
              · cases hk
          · cases hk; rfl

theorem next_store (h : Host) (w w1 : World) (ev : Event)
    (hn : next h w ev = some w1) (hne : ¬ acceptsEnd w ev) : w1.store = w.store := by
  cases ev with
  | key e =>
    simp only [next, Option.map_eq_some'] at hn
    obtain ⟨⟨w', eff⟩, hk, rfl⟩ := hn
    exact keydown_store h w w' e eff hk hne
  | frame t =>
    simp only [next, Option.some.injEq] at hn
    rw [← hn]
    exact (animationFrame_fields w t).2.2.2.1
  | scroll y =>
    simp only [next, Option.some.injEq] at hn
    rw [← hn]
  | resize height =>
    simp only [next, Option.some.injEq] at hn
    rw [← hn]

theorem ReachedBeforeEnd.store_eq (h : Host) (w w1 : World) (hr : ReachedBeforeEnd h w w1) :
    w1.store = w.store := by
  induction hr with
  | start => rfl
  | next w1 w2 ev _ hne hn ih => exact (next_store h w1 w2 ev hn hne).trans ih

theorem animationFrame_nil (w : World) (t : ℚ) (hf : w.frames = []) :
    animationFrame w t = (w, []) := by
  cases w
  simp only at hf
  subst hf
  rfl

theorem animationFrame_single (w : World) (t : ℚ) (a : Anim) (hf : w.frames = [a]) :
    animationFrame w t = ((step a t { w with frames := [] }).1, (step a t { w with frames := [] }).2) := by
  simp [animationFrame, hf]

theorem step_frames (a : Anim) (t : ℚ) (w : World) (hf : w.frames = []) :
    ((step a t w).1.frames = [] ∧ (step a t w).1.isScrolling = false)
      ∨ ((step a t w).1.frames = [{ a with startTime := some (frameStart a t) }]
          ∧ (step a t w).1.isScrolling = w.isScrolling) := by
  cases hlt : JSNum.lt (frameProgress a t) (JSNum.fin 1)
  · left
    simp [step, hlt, window_scrollTo, hf]
  · right
    simp [step, hlt, window_scrollTo, hf]

theorem animationFrame_atMostOne (w : World) (t : ℚ) (hw : AtMostOneAnimation w) :
    AtMostOneAnimation (animationFrame w t).1 := by
  rcases hw with ⟨hf, hb⟩ | ⟨a, hf, hb⟩
  · rw [animationFrame_nil w t hf]
    exact Or.inl ⟨hf, hb⟩
  · rw [animationFrame_single w t a hf]
    rcases step_frames a t { w with frames := [] } rfl with ⟨h1, h2⟩ | ⟨h1, h2⟩
    · exact Or.inl ⟨h1, h2⟩
    · exact Or.inr ⟨_, h1, h2.trans hb⟩

/-- A key press registers a callback only when the busy flag is clear, and then
exactly one. -/
theorem keydown_frames (h : Host) (w w1 : World) (e : KeyEvent) (eff : Effects)
    (hk : keydown h w e = some (w1, eff)) :
    (w1.frames = w.frames ∧ w1.isScrolling = w.isScrolling)
      ∨ (w.isScrolling = false ∧ w1.isScrolling = true ∧ ∃ a, w1.frames = w.frames ++ [a]) := by
  rcases keydown_cases h w w1 e eff hk with
    rfl | rfl | ⟨_, xs, _, rfl⟩ | ⟨_, x, xs, text, _, _, rfl⟩ | ⟨_, _, rfl⟩
      | ⟨_, hb, xs, _, hi, rfl⟩
  · exact Or.inl ⟨rfl, rfl⟩
  · exact Or.inl ⟨rfl, rfl⟩
  · exact Or.inl ⟨rfl, rfl⟩
  · exact Or.inl ⟨rfl, rfl⟩
  · exact Or.inl ⟨rfl, rfl⟩
  · rcases smoothScrollTo_frames h { w with playbackIndex := w.playbackIndex + 1 }
      (xs.get ⟨w.playbackIndex, hi⟩) (w.playbackIndex + 1) with hs | ⟨hs1, a, hs2⟩
    · rw [hs]
      exact Or.inl ⟨rfl, rfl⟩
    · exact Or.inr ⟨hb, hs1, a, hs2⟩

theorem keydown_atMostOne (h : Host) (w w1 : World) (e : KeyEvent) (eff : Effects)
    (hw : AtMostOneAnimation w) (hk : keydown h w e = some (w1, eff)) :
    AtMostOneAnimation w1 := by
  rcases keydown_frames h w w1 e eff hk with ⟨hf, hb⟩ | ⟨hb, hb1, a, hf⟩
  · unfold AtMostOneAnimation
    rw [hf, hb]
    exact hw
  · rcases hw with ⟨hf0, _⟩ | ⟨a0, _, hb0⟩
    · rw [hf0] at hf
      exact Or.inr ⟨a, hf, hb1⟩
    · rw [hb] at hb0
      cases hb0

theorem init_atMostOne (h : Host) (store : Storage) (y0 h0 : ℚ) :
    AtMostOneAnimation (init h store y0 h0).1 := by
  rcases init_shape h store y0 h0 with ⟨_, _, _, _, _, hi⟩ | ⟨_, v, hi, _⟩ <;> rw [hi] <;>
    exact Or.inl ⟨rfl, rfl⟩

theorem next_atMostOne (h : Host) (w w1 : World) (ev : Event)
    (hw : AtMostOneAnimation w) (hn : next h w ev = some w1) : AtMostOneAnimation w1 := by
  cases ev with
  | key e =>
    simp only [next, Option.map_eq_some'] at hn
    obtain ⟨⟨w', eff⟩, hk, rfl⟩ := hn
    exact keydown_atMostOne h w w' e eff hw hk
  | frame t =>
    simp only [next, Option.some.injEq] at hn
    subst hn
    exact animationFrame_atMostOne w t hw
  | scroll y =>
    simp only [next, Option.some.injEq] at hn
    subst hn
    exact hw
  | resize height =>
    simp only [next, Option.some.injEq] at hn
    subst hn
    exact hw

theorem Reachable.atMostOne (h : Host) (w : World) (hr : Reachable h w) :
    AtMostOneAnimation w := by
  induction hr with
  | load store y0 h0 => exact init_atMostOne h store y0 h0
  | next w w1 ev _ hn ih => exact next_atMostOne h w w1 ev ih hn

theorem keydown_not_r (k : String) (hk : k = "s" ∨ k = "S" ∨ k = "e" ∨ k = "E" ∨ k = " ") :
    ¬ (k = "r" ∨ k = "R") := by
  rcases hk with hk | hk | hk | hk | hk <;> subst hk <;> decide

theorem smoothScrollTo_at_target (h : Host) (w : World) (target : JVal) (idx : Nat)
    (ht : ToNumber h target = some (JSNum.fin w.scrollY)) :
    smoothScrollTo h w target idx = (w, [LogMsg.arrived idx w.checkpoints target]) := by
  simp [smoothScrollTo, ht, JSNum.sub, JSNum.add, JSNum.neg, JSNum.isZero]

theorem ease_fin (t : ℚ) : ease (JSNum.fin t) = JSNum.fin (1 - (1 - t) ^ 5) := by
  simp [ease, JSNum.sub, JSNum.add, JSNum.neg, JSNum.pow, ← sub_eq_add_neg]

theorem ease_bounds (x y : ℚ) (hx : 0 ≤ x) (hxy : x ≤ y) (hy : y ≤ 1) :
    0 ≤ 1 - (1 - x) ^ 5 ∧ 1 - (1 - x) ^ 5 ≤ 1 - (1 - y) ^ 5 ∧ 1 - (1 - y) ^ 5 ≤ 1 := by
  have h1 : (0 : ℚ) ≤ 1 - y := by linarith
  have h2 : (1 : ℚ) - y ≤ 1 - x := by linarith
  have h3 : (1 : ℚ) - x ≤ 1 := by linarith
  have h4 : (1 - y) ^ 5 ≤ (1 - x) ^ 5 := pow_le_pow_left₀ h1 h2 5
  have h5 : (1 - x) ^ 5 ≤ 1 := pow_le_one₀ (by linarith) h3
  have h6 : (0 : ℚ) ≤ (1 - y) ^ 5 := pow_nonneg h1 5
  exact ⟨by linarith, by linarith, by linarith⟩

/-- The duration computed for a finite distance other than zero is a finite number
between 200 and 4000, whatever the viewport height. -/
theorem scrollDuration_range (d vh : ℚ) (hd : d ≠ 0) :
    ∃ dur, scrollDuration (JSNum.fin d) vh = JSNum.fin dur ∧ 200 ≤ dur ∧ dur ≤ 4000 := by
  by_cases hvh : vh = 0
  · subst hvh
    have habs : (0 : ℚ) < |d| := abs_pos.mpr hd
    refine ⟨4000, ?_, by norm_num, le_refl _⟩
    simp [scrollDuration, JSNum.abs, JSNum.div, JSNum.infTimes, JSNum.mul, JSNum.min, JSNum.max,
      JSNum.lt, MS_PER_VIEWPORT, habs, ne_of_gt habs]
    norm_num
  · exact ⟨_, scrollDuration_fin d vh hvh, le_max_left _ _,
      max_le (by norm_num) (min_le_right _ _)⟩

theorem smoothScrollTo_started (h : Host) (w : World) (target : JVal) (idx : Nat) :
    ∀ a ∈ (smoothScrollTo h w target idx).1.frames, a ∈ w.frames ∨ StartedBy h a := by
  intro a ha
  unfold smoothScrollTo at ha
  cases ht : ToNumber h target with
  | none =>
    rw [ht] at ha
    exact Or.inl ha
  | some t =>
    rw [ht] at ha
    cases hz : (JSNum.sub t (JSNum.fin w.scrollY)).isZero with
    | true =>
      simp only [hz, if_true] at ha
      exact Or.inl ha
    | false =>
      simp only [hz, Bool.false_eq_true, if_false, List.mem_append, List.mem_singleton] at ha
      rcases ha with ha | ha
      · exact Or.inl ha
      · right
        subst ha
        exact ⟨t, w.innerHeight, ht, rfl, hz, rfl⟩

theorem keydown_started (h : Host) (w w1 : World) (e : KeyEvent) (eff : Effects)
    (hk : keydown h w e = some (w1, eff)) :
    ∀ a ∈ w1.frames, a ∈ w.frames ∨ StartedBy h a := by
  rcases keydown_cases h w w1 e eff hk with
    rfl | rfl | ⟨_, xs, _, rfl⟩ | ⟨_, x, xs, text, _, _, rfl⟩ | ⟨_, _, rfl⟩
      | ⟨_, hb, xs, _, hi, rfl⟩
  · exact fun a ha => Or.inl ha
  · exact fun a ha => Or.inl ha
  · exact fun a ha => Or.inl ha
  · exact fun a ha => Or.inl ha
  · exact fun a ha => Or.inl ha
  · exact smoothScrollTo_started h { w with playbackIndex := w.playbackIndex + 1 } _ _

/-- Every animation waiting for a frame in a reachable page was started by
`smoothScrollTo`. -/
theorem Reachable.started (h : Host) (w : World) (hr : Reachable h w) :
    ∀ a ∈ w.frames, StartedBy h a := by
  induction hr with
  | load store y0 h0 =>
    intro a ha
    rcases init_atMostOne h store y0 h0 with ⟨hf, _⟩ | ⟨b, _, hb⟩
    · rw [hf] at ha
      cases ha
    · rcases init_shape h store y0 h0 with ⟨_, _, _, _, _, hi⟩ | ⟨_, v, hi, _⟩ <;>
        rw [hi] at hb <;> cases hb
  | next w w1 ev hr0 hn ih =>
    intro a ha
    cases ev with
    | key e =>
      simp only [ScrollAssist.next, Option.map_eq_some'] at hn
      obtain ⟨⟨w', eff⟩, hk, rfl⟩ := hn
      rcases keydown_started h w w' e eff hk a ha with h1 | h1
      · exact ih a h1
      · exact h1
    | frame t =>
      simp only [ScrollAssist.next, Option.some.injEq] at hn
      subst hn
      rcases Reachable.atMostOne h w hr0 with ⟨hf, _⟩ | ⟨b, hf, _⟩
      · rw [animationFrame_nil w t hf, hf] at ha
        cases ha
      · rw [animationFrame_single w t b hf] at ha
        rcases step_frames b t { w with frames := [] } rfl with ⟨h1, _⟩ | ⟨h1, _⟩
        · rw [h1] at ha
          cases ha
        · rw [h1] at ha
          simp only [List.mem_singleton] at ha
          subst ha
          exact ih b (by rw [hf]; exact List.mem_singleton_self b)
    | scroll y =>
      simp only [ScrollAssist.next, Option.some.injEq] at hn
      subst hn
      exact ih a ha
    | resize height =>
      simp only [ScrollAssist.next, Option.some.injEq] at hn
      subst hn
      exact ih a ha

/-- The progress of an animation with a positive finite duration, at a frame that
is not earlier than its start time, is a number between 0 and 1. -/
theorem frameProgress_fin (a : Anim) (t dur : ℚ) (hdur : a.duration = JSNum.fin dur)
    (hpos : 0 < dur) (hmono : ∀ s, a.startTime = some s → s ≤ t) :
    frameProgress a t = JSNum.fin (min ((t - frameStart a t) / dur) 1)
      ∧ 0 ≤ min ((t - frameStart a t) / dur) 1 ∧ min ((t - frameStart a t) / dur) 1 ≤ 1 := by
  have hel : 0 ≤ t - frameStart a t := by
    unfold frameStart
    cases hs : a.startTime with
    | none => simp
    | some s =>
      dsimp only
      split
      · simp
      · linarith [hmono s hs]
  refine ⟨?_, le_min (div_nonneg hel (le_of_lt hpos)) (by norm_num), min_le_right _ _⟩
  simp [frameProgress, hdur, JSNum.div, ne_of_gt hpos, jsMin_fin]

theorem framePosition_fin (a : Anim) (d p : ℚ) (hd : a.distance = JSNum.fin d) :
    framePosition a (JSNum.fin p) = JSNum.fin (a.startY + d * (1 - (1 - p) ^ 5)) := by
  simp [framePosition, ease_fin, hd, JSNum.mul, JSNum.add]

theorem between_of_fraction (s d e : ℚ) (h0 : 0 ≤ e) (h1 : e ≤ 1) :
    min s (s + d) ≤ s + d * e ∧ s + d * e ≤ max s (s + d) := by
  rcases le_total 0 d with hd | hd
  · have h2 : 0 ≤ d * e := mul_nonneg hd h0
    have h3 : d * e ≤ d := by nlinarith
    exact ⟨le_trans (min_le_left _ _) (by linarith), le_trans (by linarith) (le_max_right _ _)⟩
  · have h2 : d * e ≤ 0 := mul_nonpos_of_nonpos_of_nonneg hd h0
    have h3 : d ≤ d * e := by nlinarith
    exact ⟨le_trans (min_le_right _ _) (by linarith), le_trans (by linarith) (le_max_left _ _)⟩

theorem JSON_parse_400 : JSON_parse "[400]" = some (JVal.arr [JVal.num 400]) := by
  simp [JSON_parse, parseValue, parseElems, parseAtom, skipWs, isWs, parseNumber, parseUnsigned,
    parseIntPart, parseFrac, parseExp, isDigit, digitsVal]

theorem loadedPage_reachable : Reachable sampleHost loadedPage := by
  have hi := init_of_array sampleHost [("scroll-assist:/", "[400]")] 0 800 "[400]"
    (JVal.num 400) [] rfl JSON_parse_400
  have hr : Reachable sampleHost (init sampleHost [("scroll-assist:/", "[400]")] 0 800).1 :=
    Reachable.load _ _ _
  rw [hi] at hr
  exact hr

theorem loadedPage_press (h : Host) :
    keydown h loadedPage spaceKey = some (loadedFirstStep, ⟨true, [], some (JVal.num 400)⟩) := by
  have k1 := space_advance_num h loadedPage spaceKey ⟨rfl, Or.inl rfl⟩ rfl rfl
    [JVal.num 400] rfl (by decide) 400 rfl
    (by simp [loadedPage]) (by simp [loadedPage])
  rw [k1]
  simp only [loadedPage, loadedFirstStep]
  norm_num

theorem loadedFirstStep_reachable : Reachable sampleHost loadedFirstStep :=
  Reachable.next loadedPage loadedFirstStep (Event.key spaceKey) loadedPage_reachable
    (by simp [next, loadedPage_press])

/-- What holds along a playback that starts at index 0 with no animation running:
the shape of the page, and where the index and the targets stand after `ts.length`
presses. -/
theorem Plays.invariant (h : Host) (w : World) (xs : List JVal)
    (hm : w.mode = Mode.playback) (hi : w.playbackIndex = 0)
    (hb : w.isScrolling = false) (hf : w.frames = []) (hc : w.checkpoints = JVal.arr xs)
    (ts : List (Option JVal)) (w1 : World) (hp : Plays h w ts w1) :
    AtMostOneAnimation w1 ∧ w1.mode = Mode.playback ∧ w1.checkpoints = JVal.arr xs
      ∧ w1.store = w.store ∧ w1.innerHeight = w.innerHeight
      ∧ (ts.length ≤ xs.length →
          ts = (xs.take ts.length).map some ∧ w1.playbackIndex = ts.length)
      ∧ (ts.length = xs.length + 1 →
          ts = xs.map some ++ [none] ∧ w1.playbackIndex = 0 ∧ w1.isScrolling = false
            ∧ w1.frames = []) := by
  induction hp with
  | start =>
    refine ⟨Or.inl ⟨hf, hb⟩, hm, hc, rfl, rfl, fun _ => ⟨rfl, hi⟩, fun hl => ?_⟩
    simp at hl
  | frame ts w1 t _ ih =>
    obtain ⟨i1, i2, i3, i4, i5, i6, i7⟩ := ih
    obtain ⟨f1, f2, f3, f4, f5⟩ := animationFrame_fields w1 t
    refine ⟨animationFrame_atMostOne w1 t i1, f1.trans i2, f2.trans i3, f4.trans i4,
      f5.trans i5, fun hl => ⟨(i6 hl).1, f3.trans (i6 hl).2⟩, fun hl => ?_⟩
    obtain ⟨j1, j2, j3, j4⟩ := i7 hl
    rw [animationFrame_nil w1 t j4]
    exact ⟨j1, j2, j3, j4⟩
  | press ts w1 w2 e eff _ hidle he hk ih =>
    obtain ⟨i1, i2, i3, i4, i5, i6, i7⟩ := ih
    have hfr : w1.frames = [] := by
      rcases i1 with ⟨g, _⟩ | ⟨a, _, g⟩
      · exact g
      · rw [hidle] at g
        cases g
    by_cases hlen : xs.length ≤ w1.playbackIndex
    · rw [keydown_space_loop h w1 e he i2 hidle xs i3 hlen] at hk
      simp only [Option.some.injEq, Prod.mk.injEq] at hk
      obtain ⟨hw2, heff⟩ := hk
      subst hw2
      subst heff
      refine ⟨Or.inl ⟨hfr, hidle⟩, i2, i3, i4, i5, fun hl => ?_, fun hl => ?_⟩
      · exfalso
        simp only [List.length_append, List.length_singleton] at hl
        have := (i6 (by omega)).2
        omega
      · simp only [List.length_append, List.length_singleton] at hl
        have hts : ts.length = xs.length := by omega
        obtain ⟨k1, _⟩ := i6 (by omega)
        rw [hts, List.take_length] at k1
        refine ⟨by rw [k1], rfl, hidle, hfr⟩
    · have hlt : w1.playbackIndex < xs.length := Nat.lt_of_not_le hlen
      rw [keydown_space_advance h w1 e he i2 hidle xs i3 hlt] at hk
      simp only [Option.some.injEq, Prod.mk.injEq] at hk
      obtain ⟨hw2, heff⟩ := hk
      have hfields := smoothScrollTo_fields h { w1 with playbackIndex := w1.playbackIndex + 1 }
        (xs.get ⟨w1.playbackIndex, hlt⟩) (w1.playbackIndex + 1)
      have hone : AtMostOneAnimation w2 := by
        rcases smoothScrollTo_frames h { w1 with playbackIndex := w1.playbackIndex + 1 }
          (xs.get ⟨w1.playbackIndex, hlt⟩) (w1.playbackIndex + 1) with hs | ⟨hs1, a, hs2⟩
        · rw [hs] at hw2
          rw [← hw2]
          exact Or.inl ⟨hfr, hidle⟩
        · rw [hw2] at hs1 hs2
          refine Or.inr ⟨a, ?_, hs1⟩
          rw [hs2]
          show w1.frames ++ [a] = [a]
          rw [hfr]
          rfl
      have hinner : w2.innerHeight = w1.innerHeight := by
        rw [← hw2]
        unfold smoothScrollTo
        cases ToNumber h (xs.get ⟨w1.playbackIndex, hlt⟩) with
        | none => rfl
        | some t0 =>
          dsimp only
          split <;> rfl
      rw [hw2] at hfields
      obtain ⟨g1, g2, g3, g4, _⟩ := hfields
      refine ⟨hone, g1.trans i2, g2.trans i3, g4.trans i4, hinner.trans i5,
        fun hl => ?_, fun hl => ?_⟩
      · simp only [List.length_append, List.length_singleton] at hl ⊢
        obtain ⟨k1, k2⟩ := i6 (by omega)
        have hidx : w1.playbackIndex = ts.length := k2
        refine ⟨?_, by rw [g3]; exact congrArg (· + 1) hidx⟩
        rw [← heff]
        have hts : ts.length < xs.length := by omega
        have hget : xs.get ⟨w1.playbackIndex, hlt⟩ = xs[ts.length] := by
          simp only [List.get_eq_getElem, hidx]
        rw [← List.take_concat_get xs ts.length (by omega), List.concat_eq_append,
          List.map_append, ← k1]
        simp only [List.map_cons, List.map_nil, hget]
      · exfalso
        simp only [List.length_append, List.length_singleton] at hl
        have := (i6 (by omega)).2
        omega

theorem oneViewport_press (h : Host) :
    keydown h oneViewportPage spaceKey = some
      (⟨Mode.playback, JVal.arr [JVal.num 800], 1, true, [], 0, 800,
          [⟨0, JSNum.fin 800, JSNum.fin 200, none, 1, JVal.num 800⟩]⟩,
        ⟨true, [], some (JVal.num 800)⟩) := by
  have k1 := space_advance_num h oneViewportPage spaceKey ⟨rfl, Or.inl rfl⟩ rfl rfl
    [JVal.num 800] rfl (by decide) 800 rfl
    (by simp [oneViewportPage]) (by simp [oneViewportPage])
  rw [k1]
  simp only [oneViewportPage]
  norm_num

theorem oneViewport_frames :
    (animationFrame (animationFrame
        ⟨Mode.playback, JVal.arr [JVal.num 800], 1, true, [], 0, 800,
          [⟨0, JSNum.fin 800, JSNum.fin 200, none, 1, JVal.num 800⟩]⟩ 1000).1 1200).1
      = oneViewportPlayed := by
  have f1 := two_frames_finish sampleHost
    ⟨Mode.playback, JVal.arr [JVal.num 800], 1, true, [], 0, 800,
      [⟨0, JSNum.fin 800, JSNum.fin 200, none, 1, JVal.num 800⟩]⟩
    ⟨0, JSNum.fin 800, JSNum.fin 200, none, 1, JVal.num 800⟩ 800 1000 200 rfl rfl rfl rfl
    (by norm_num) (by norm_num)
  have e1 : (1000 : ℚ) + 200 = 1200 := by norm_num
  rw [e1] at f1
  simp only [run, next, Option.some.injEq] at f1
  rw [f1]
  simp only [oneViewportPlayed]
  norm_num

/-- One full cycle on `oneViewportPage`: a press, two frames that complete the
animation, and the press that loops back. -/
theorem oneViewport_cycle :
    Plays sampleHost oneViewportPage [some (JVal.num 800), none]
      (window_scrollTo { oneViewportPlayed with playbackIndex := 0 } (JSNum.fin 0)) := by
  have p1 := Plays.press [] oneViewportPage _ spaceKey _ (Plays.start (h := sampleHost))
    rfl ⟨rfl, Or.inl rfl⟩ (oneViewport_press sampleHost)
  have p2 := Plays.frame _ _ 1200 (Plays.frame _ _ 1000 p1)
  rw [oneViewport_frames] at p2
  exact Plays.press _ oneViewportPlayed _ spaceKey _ p2 rfl ⟨rfl, Or.inl rfl⟩
    (keydown_space_loop sampleHost oneViewportPlayed spaceKey ⟨rfl, Or.inl rfl⟩ rfl rfl
      [JVal.num 800] rfl (by decide))

/-! ## Rounding to a double -/

theorem roundHalfEven_intCast (n : ℤ) : roundHalfEven (n : ℚ) = n := by
  simp [roundHalfEven]

theorem roundHalfEven_bounds (x : ℚ) : ⌊x⌋ ≤ roundHalfEven x ∧ roundHalfEven x ≤ ⌊x⌋ + 1 := by
  unfold roundHalfEven
  split_ifs <;> constructor <;> omega

theorem roundHalfEven_mono (x y : ℚ) (hxy : x ≤ y) : roundHalfEven x ≤ roundHalfEven y := by
  have hf : ⌊x⌋ ≤ ⌊y⌋ := Int.floor_mono hxy
  rcases lt_or_eq_of_le hf with hlt | heq
  · have h1 := (roundHalfEven_bounds x).2
    have h2 := (roundHalfEven_bounds y).1
    omega
  · unfold roundHalfEven
    rw [← heq]
    have hfr : x - ⌊x⌋ ≤ y - ⌊x⌋ := by linarith
    split_ifs <;> first | omega | (exfalso; linarith)

/-- A rational within less than one half of an integer rounds to it. -/
theorem roundHalfEven_near (x : ℚ) (n : ℤ) (h1 : (n : ℚ) - 1 / 2 < x) (h2 : x < n + 1 / 2) :
    roundHalfEven x = n := by
  by_cases hx : (n : ℚ) ≤ x
  · have hfl : ⌊x⌋ = n := by
      rw [Int.floor_eq_iff]
      exact ⟨hx, by linarith⟩
    unfold roundHalfEven
    rw [hfl]
    have : x - (n : ℚ) < 1 / 2 := by linarith
    rw [if_pos this]
  · have hx2 : x < n := not_le.mp hx
    have hfl : ⌊x⌋ = n - 1 := by
      rw [Int.floor_eq_iff]
      push_cast
      exact ⟨by linarith, by linarith⟩
    unfold roundHalfEven
    rw [hfl]
    have h3 : ¬ (x - ((n - 1 : ℤ) : ℚ) < 1 / 2) := by
      push_cast
      intro hc
      linarith
    have h4 : 1 / 2 < x - ((n - 1 : ℤ) : ℚ) := by
      push_cast
      linarith
    rw [if_neg h3, if_pos h4]
    omega

theorem roundMagnitude_zero : roundMagnitude 0 = 0 := by
  simp [roundMagnitude, roundHalfEven]

theorem ulp_pos (x : ℚ) : 0 < ulp x := by
  unfold ulp
  positivity

/-- The binary exponent of a positive rational, from its binade. -/
theorem log_two_eq (x : ℚ) (e : ℤ) (h1 : (2 : ℚ) ^ e ≤ x) (h2 : x < (2 : ℚ) ^ (e + 1)) :
    Int.log 2 x = e := by
  have hx : 0 < x := lt_of_lt_of_le (by positivity) h1
  have ha : e ≤ Int.log 2 x := (Int.zpow_le_iff_le_log (by norm_num) hx).mp (by exact_mod_cast h1)
  have hb : Int.log 2 x < e + 1 := (Int.lt_zpow_iff_log_lt (by norm_num) hx).mp (by exact_mod_cast h2)
  omega

theorem lt_ulp_mul (x : ℚ) : x < 2 ^ 53 * ulp x := by
  have h1 : x < (2 : ℚ) ^ (Int.log 2 x + 1) := by
    have := Int.lt_zpow_succ_log_self (b := 2) (by norm_num) x
    exact_mod_cast this
  have h2 : (2 : ℚ) ^ (Int.log 2 x + 1) ≤ (2 : ℚ) ^ (max (Int.log 2 x) (-1022) + 1) :=
    zpow_le_zpow_right₀ (by norm_num) (by omega)
  have h3 : (2 : ℚ) ^ 53 * ulp x = (2 : ℚ) ^ (max (Int.log 2 x) (-1022) + 1) := by
    unfold ulp
    rw [← zpow_natCast, ← zpow_add₀ (by norm_num)]
    congr 1
    push_cast
    ring
  rw [h3]
  exact lt_of_lt_of_le h1 h2

theorem ulp_mul_le (x : ℚ) (hx : 0 < x) (he : -1022 ≤ Int.log 2 x) : 2 ^ 52 * ulp x ≤ x := by
  have h1 : (2 : ℚ) ^ Int.log 2 x ≤ x := by
    have := Int.zpow_log_le_self (b := 2) (by norm_num) hx
    exact_mod_cast this
  have h3 : (2 : ℚ) ^ 52 * ulp x = (2 : ℚ) ^ Int.log 2 x := by
    unfold ulp
    rw [max_eq_left he, ← zpow_natCast, ← zpow_add₀ (by norm_num)]
    congr 1
    push_cast
    ring
  rw [h3]
  exact h1

theorem roundMagnitude_nonneg (x : ℚ) (hx : 0 ≤ x) : 0 ≤ roundMagnitude x := by
  unfold roundMagnitude
  have h0 : (0 : ℤ) ≤ roundHalfEven (x / ulp x) := by
    have := roundHalfEven_mono 0 (x / ulp x) (div_nonneg hx (le_of_lt (ulp_pos x)))
    have h00 : roundHalfEven 0 = 0 := by
      have := roundHalfEven_intCast 0
      simpa using this
    omega
  have : (0 : ℚ) ≤ (roundHalfEven (x / ulp x) : ℚ) := by exact_mod_cast h0
  exact mul_nonneg this (le_of_lt (ulp_pos x))

theorem roundMagnitude_le (x : ℚ) : roundMagnitude x ≤ 2 ^ 53 * ulp x := by
  unfold roundMagnitude
  have hlt : x / ulp x ≤ ((2 ^ 53 : ℤ) : ℚ) := by
    rw [div_le_iff₀ (ulp_pos x)]
    push_cast
    exact le_of_lt (lt_ulp_mul x)
  have h1 := roundHalfEven_mono _ _ hlt
  rw [roundHalfEven_intCast] at h1
  have h2 : (roundHalfEven (x / ulp x) : ℚ) ≤ 2 ^ 53 := by exact_mod_cast h1
  exact mul_le_mul_of_nonneg_right h2 (le_of_lt (ulp_pos x))

theorem le_roundMagnitude (x : ℚ) (hx : 0 < x) (he : -1022 ≤ Int.log 2 x) :
    2 ^ 52 * ulp x ≤ roundMagnitude x := by
  unfold roundMagnitude
  have hle : ((2 ^ 52 : ℤ) : ℚ) ≤ x / ulp x := by
    rw [le_div_iff₀ (ulp_pos x)]
    push_cast
    exact ulp_mul_le x hx he
  have h1 := roundHalfEven_mono _ _ hle
  rw [roundHalfEven_intCast] at h1
  have h2 : (2 ^ 52 : ℚ) ≤ (roundHalfEven (x / ulp x) : ℚ) := by exact_mod_cast h1
  exact mul_le_mul_of_nonneg_right h2 (le_of_lt (ulp_pos x))

theorem roundMagnitude_mono (x y : ℚ) (hx : 0 ≤ x) (hxy : x ≤ y) :
    roundMagnitude x ≤ roundMagnitude y := by
  rcases eq_or_lt_of_le hx with h0 | hpos
  · subst h0
    have : roundMagnitude 0 = 0 := by simp [roundMagnitude, roundHalfEven]
    rw [this]
    exact roundMagnitude_nonneg y hxy
  · have hy : 0 < y := lt_of_lt_of_le hpos hxy
    have hlog : Int.log 2 x ≤ Int.log 2 y := Int.log_mono_right hpos hxy
    by_cases he : max (Int.log 2 x) (-1022) = max (Int.log 2 y) (-1022)
    · have hu : ulp x = ulp y := by
        unfold ulp
        rw [he]
      unfold roundMagnitude
      rw [hu]
      have hdiv : x / ulp y ≤ y / ulp y := div_le_div_of_nonneg_right hxy (le_of_lt (ulp_pos y))
      have h1 := roundHalfEven_mono _ _ hdiv
      have h2 : (roundHalfEven (x / ulp y) : ℚ) ≤ (roundHalfEven (y / ulp y) : ℚ) := by
        exact_mod_cast h1
      exact mul_le_mul_of_nonneg_right h2 (le_of_lt (ulp_pos y))
    · have hlt : max (Int.log 2 x) (-1022) < max (Int.log 2 y) (-1022) := by
        rcases lt_or_eq_of_le (max_le_max hlog (le_refl (-1022))) with h | h
        · exact h
        · exact absurd h he
      have hey : -1022 ≤ Int.log 2 y := by
        by_contra hc
        have h1 : max (Int.log 2 y) (-1022) = -1022 := max_eq_right (by omega)
        have h2 : -1022 ≤ max (Int.log 2 x) (-1022) := le_max_right _ _
        omega
      have hmy : max (Int.log 2 y) (-1022) = Int.log 2 y := max_eq_left hey
      have h1 := roundMagnitude_le x
      have h2 := le_roundMagnitude y hy hey
      have h3 : (2 : ℚ) ^ 53 * ulp x ≤ 2 ^ 52 * ulp y := by
        unfold ulp
        rw [← zpow_natCast, ← zpow_natCast, ← zpow_add₀ (by norm_num), ← zpow_add₀ (by norm_num)]
        apply zpow_le_zpow_right₀ (by norm_num)
        push_cast
        omega
      linarith

/-- A magnitude `m * 2 ^ k` with `m < 2 ^ 53` and `k ≥ -1074` is a double: rounding
leaves it as it is. -/
theorem roundMagnitude_fixed (m : ℕ) (k : ℤ) (hm : m < 2 ^ 53) (hk : -1074 ≤ k) :
    roundMagnitude ((m : ℚ) * 2 ^ k) = (m : ℚ) * 2 ^ k := by
  rcases Nat.eq_zero_or_pos m with h0 | hpos
  · subst h0
    simp [roundMagnitude, roundHalfEven]
  · have hx : (0 : ℚ) < (m : ℚ) * 2 ^ k := by positivity
    have hlt : (m : ℚ) * 2 ^ k < (2 : ℚ) ^ (k + 53) := by
      rw [zpow_add₀ (by norm_num), mul_comm]
      have h2 : (m : ℚ) < 2 ^ (53 : ℤ) := by
        rw [show (53 : ℤ) = ((53 : ℕ) : ℤ) from rfl, zpow_natCast]
        exact_mod_cast hm
      exact mul_lt_mul_of_pos_left h2 (by positivity)
    have hlog : Int.log 2 ((m : ℚ) * 2 ^ k) < k + 53 :=
      (Int.lt_zpow_iff_log_lt (by norm_num) hx).mp (by exact_mod_cast hlt)
    have he : max (Int.log 2 ((m : ℚ) * 2 ^ k)) (-1022) - 52 ≤ k := by
      rcases le_total (Int.log 2 ((m : ℚ) * 2 ^ k)) (-1022) with h | h
      · rw [max_eq_right h]
        omega
      · rw [max_eq_left h]
        omega
    obtain ⟨j, hj⟩ : ∃ j : ℕ, k = max (Int.log 2 ((m : ℚ) * 2 ^ k)) (-1022) - 52 + j :=
      ⟨(k - (max (Int.log 2 ((m : ℚ) * 2 ^ k)) (-1022) - 52)).toNat, by omega⟩
    have hdiv : (m : ℚ) * 2 ^ k / ulp ((m : ℚ) * 2 ^ k) = ((m * 2 ^ j : ℤ) : ℚ) := by
      rw [div_eq_iff (ne_of_gt (ulp_pos _))]
      unfold ulp
      push_cast
      rw [mul_assoc, ← zpow_natCast, ← zpow_add₀ (by norm_num)]
      congr 2
      omega
    unfold roundMagnitude
    rw [hdiv, roundHalfEven_intCast, ← hdiv]
    exact div_mul_cancel₀ _ (ne_of_gt (ulp_pos _))

theorem roundMagnitude_idem (x : ℚ) (hx : 0 ≤ x) :
    roundMagnitude (roundMagnitude x) = roundMagnitude x := by
  have hn := roundMagnitude_nonneg x hx
  have hle := roundMagnitude_le x
  have hk : -1074 ≤ max (Int.log 2 x) (-1022) - 52 := by
    have := le_max_right (Int.log 2 x) (-1022)
    omega
  have h0 : (0 : ℤ) ≤ roundHalfEven (x / ulp x) := by
    by_contra hc
    have hneg : (roundHalfEven (x / ulp x) : ℚ) < 0 := by exact_mod_cast not_le.mp hc
    have : roundMagnitude x < 0 := by
      unfold roundMagnitude
      exact mul_neg_of_neg_of_pos hneg (ulp_pos x)
    linarith
  obtain ⟨m, hm⟩ := Int.eq_ofNat_of_zero_le h0
  have hval : roundMagnitude x = (m : ℚ) * 2 ^ (max (Int.log 2 x) (-1022) - 52) := by
    unfold roundMagnitude
    rw [hm]
    rfl
  have hm53 : m ≤ 2 ^ 53 := by
    have h1 : (m : ℚ) * ulp x ≤ 2 ^ 53 * ulp x := by
      have : roundMagnitude x = (m : ℚ) * ulp x := by
        unfold roundMagnitude
        rw [hm]
        rfl
      rw [← this]
      exact hle
    have h2 : (m : ℚ) ≤ 2 ^ 53 := le_of_mul_le_mul_right h1 (ulp_pos x)
    exact_mod_cast h2
  rcases lt_or_eq_of_le hm53 with hlt | heq
  · rw [hval]
    exact roundMagnitude_fixed m _ hlt hk
  · have hval2 : roundMagnitude x = ((1 : ℕ) : ℚ) * 2 ^ (max (Int.log 2 x) (-1022) - 52 + 53) := by
      rw [hval, heq, zpow_add₀ (by norm_num)]
      push_cast
      ring
    rw [hval2]
    exact roundMagnitude_fixed 1 _ (by norm_num) (by omega)

theorem roundFinite_mono (x y : ℚ) (hxy : x ≤ y) : roundFinite x ≤ roundFinite y := by
  unfold roundFinite
  by_cases hx : 0 ≤ x
  · have hy : 0 ≤ y := le_trans hx hxy
    simp only [hx, hy, if_true]
    exact roundMagnitude_mono x y hx hxy
  · by_cases hy : 0 ≤ y
    · simp only [hx, hy, if_true, if_false]
      have h1 := roundMagnitude_nonneg (-x) (by linarith)
      have h2 := roundMagnitude_nonneg y hy
      linarith
    · simp only [hx, hy, if_false]
      have := roundMagnitude_mono (-y) (-x) (by linarith) (by linarith)
      linarith

theorem roundFinite_idem (x : ℚ) : roundFinite (roundFinite x) = roundFinite x := by
  unfold roundFinite
  by_cases hx : 0 ≤ x
  · have h1 := roundMagnitude_nonneg x hx
    simp only [hx, h1, if_true]
    exact roundMagnitude_idem x hx
  · have h1 := roundMagnitude_nonneg (-x) (by linarith)
    simp only [hx, if_false]
    by_cases h2 : 0 ≤ -roundMagnitude (-x)
    · have h3 : roundMagnitude (-x) = 0 := by linarith
      rw [h3]
      simp [roundMagnitude_zero]
    · simp only [h2, if_false, neg_neg]
      rw [roundMagnitude_idem (-x) (by linarith)]

/-- A number `m * 2 ^ k` with `|m| < 2 ^ 53`, `k ≥ -1074` and a magnitude below
`2 ^ 1024` is a double: `roundDouble` returns it. -/
theorem roundDouble_fixed (m : ℤ) (k : ℤ) (hm : m.natAbs < 2 ^ 53) (hk : -1074 ≤ k)
    (hr : |(m : ℚ) * 2 ^ k| < 2 ^ 1024) :
    roundDouble ((m : ℚ) * 2 ^ k) = JSNum.fin ((m : ℚ) * 2 ^ k) := by
  have hrf : roundFinite ((m : ℚ) * 2 ^ k) = (m : ℚ) * 2 ^ k := by
    unfold roundFinite
    have hp : (0 : ℚ) < 2 ^ k := by positivity
    by_cases h0 : 0 ≤ m
    · obtain ⟨n, hn⟩ := Int.eq_ofNat_of_zero_le h0
      subst hn
      have hx : (0 : ℚ) ≤ ((n : ℤ) : ℚ) * 2 ^ k :=
        mul_nonneg (Int.cast_nonneg.mpr h0) (le_of_lt hp)
      simp only [hx, if_true]
      have hn : n < 2 ^ 53 := by
        rw [Int.natAbs_ofNat] at hm
        exact hm
      have := roundMagnitude_fixed n k hn hk
      rw [Int.cast_natCast]
      exact this
    · have hneg : m < 0 := not_le.mp h0
      have hx : ¬ (0 : ℚ) ≤ (m : ℚ) * 2 ^ k := by
        have : (m : ℚ) < 0 := by exact_mod_cast hneg
        have := mul_neg_of_neg_of_pos this hp
        linarith
      simp only [hx, if_false]
      have hcast : -((m : ℚ) * 2 ^ k) = ((m.natAbs : ℕ) : ℚ) * 2 ^ k := by
        have : ((m.natAbs : ℕ) : ℤ) = -m := by omega
        have h2 : ((m.natAbs : ℕ) : ℚ) = -(m : ℚ) := by
          rw [← Int.cast_natCast, this, Int.cast_neg]
        rw [h2]
        ring
      rw [hcast, roundMagnitude_fixed m.natAbs k hm hk, ← hcast, neg_neg]
  unfold roundDouble
  rw [hrf]
  have h1 := abs_lt.mp hr
  have h2 : ¬ ((2 : ℚ) ^ 1024 ≤ (m : ℚ) * 2 ^ k) := not_le.mpr h1.2
  have h3 : ¬ ((m : ℚ) * 2 ^ k ≤ -(2 ^ 1024)) := not_le.mpr h1.1
  simp only [h2, h3, if_false]

/-- The multiple of the spacing that `roundMagnitude` picks, from the binade of the
magnitude and an integer within one half of the quotient. -/
theorem roundMagnitude_eval (x : ℚ) (e n : ℤ) (h1 : (2 : ℚ) ^ e ≤ x) (h2 : x < (2 : ℚ) ^ (e + 1))
    (he : -1022 ≤ e) (hlo : (n : ℚ) - 1 / 2 < x / 2 ^ (e - 52))
    (hhi : x / 2 ^ (e - 52) < n + 1 / 2) :
    roundMagnitude x = (n : ℚ) * 2 ^ (e - 52) := by
  have hu : ulp x = 2 ^ (e - 52) := by
    unfold ulp
    rw [log_two_eq x e h1 h2, max_eq_left he]
  unfold roundMagnitude
  rw [hu, roundHalfEven_near _ n hlo hhi]

theorem overflow_mono (r1 r2 : ℚ) (h : r1 ≤ r2) :
    JSNum.lt
      (if 2 ^ 1024 ≤ r2 then JSNum.posInf else if r2 ≤ -(2 ^ 1024) then JSNum.negInf
        else JSNum.fin r2)
      (if 2 ^ 1024 ≤ r1 then JSNum.posInf else if r1 ≤ -(2 ^ 1024) then JSNum.negInf
        else JSNum.fin r1) = false := by
  have hp : (0 : ℚ) < 2 ^ 1024 := by positivity
  split_ifs <;> simp only [JSNum.lt, decide_eq_false_iff_not, not_lt] <;>
    first | rfl | linarith

/-- Round to nearest in binary64 meets what the statements need of an arithmetic. -/
theorem binary64_sound : binary64.Sound := by
  have hzero : roundDouble 0 = JSNum.fin 0 := by
    have := roundDouble_fixed 0 0 (by norm_num) (by norm_num) (by norm_num)
    simpa using this
  have hone : roundDouble 1 = JSNum.fin 1 := by
    have := roundDouble_fixed 1 0 (by norm_num) (by norm_num) (by norm_num)
    simpa using this
  have hmono : ∀ x y : ℚ, x ≤ y → JSNum.lt (roundDouble y) (roundDouble x) = false := by
    intro x y hxy
    exact overflow_mono _ _ (roundFinite_mono x y hxy)
  have hnan : ∀ x : ℚ, roundDouble x ≠ JSNum.nan := by
    intro x
    unfold roundDouble
    split_ifs <;> simp
  refine ⟨hnan, hmono, hzero, hone, ?_, ?_, ?_, ?_⟩
  · intro x y hxy
    show roundDouble y = JSNum.fin y
    change roundDouble x = JSNum.fin y at hxy
    unfold roundDouble at hxy
    split_ifs at hxy with h1 h2
    simp only [JSNum.fin.injEq] at hxy
    unfold roundDouble
    rw [← hxy, roundFinite_idem]
    simp only [h1, h2, if_false]
  · show roundDouble (0 ^ 5) = JSNum.fin 0
    norm_num
    exact hzero
  · show roundDouble (1 ^ 5) = JSNum.fin 1
    norm_num
    exact hone
  · intro u hu0 hu1
    show ∃ v, roundDouble (u ^ 5) = JSNum.fin v ∧ 0 ≤ v ∧ v ≤ 1
    have h5a : (0 : ℚ) ≤ u ^ 5 := pow_nonneg hu0 5
    have h5b : u ^ 5 ≤ 1 := pow_le_one₀ hu0 hu1
    have m1 := hmono 0 (u ^ 5) h5a
    have m2 := hmono (u ^ 5) 1 h5b
    rw [hzero] at m1
    rw [hone] at m2
    cases hr : roundDouble (u ^ 5) with
    | fin v =>
      rw [hr] at m1 m2
      simp only [JSNum.lt, decide_eq_false_iff_not, not_lt] at m1 m2
      exact ⟨v, rfl, m1, m2⟩
    | posInf =>
      rw [hr] at m2
      simp [JSNum.lt] at m2
    | negInf =>
      rw [hr] at m1
      simp [JSNum.lt] at m1
    | nan => exact absurd hr (hnan _)

/-! ## The animation in double arithmetic: what rounding preserves -/

theorem rounded_exact (x : JSNum) : x.rounded exactArith = x := by
  cases x <;> rfl

/-- Without rounding, the animation in the arithmetic `exactArith` is the animation
of the sections above. -/
theorem with_exactArith (h : Host) (w : World) (target : JVal) (idx : Nat) (a : Anim) (t : ℚ) :
    smoothScrollToWith exactArith h w target idx = smoothScrollTo h w target idx
      ∧ (∀ p, framePositionWith exactArith a p = framePosition a p)
      ∧ frameProgressWith exactArith a t = frameProgress a t
      ∧ stepWith exactArith a t w = step a t w := by
  have hpow : ∀ x, powWith exactArith x = JSNum.pow x 5 := by
    intro x
    cases x <;> rfl
  have hease : ∀ p, easeWith exactArith p = ease p := by
    intro p
    simp only [easeWith, ease, rounded_exact, hpow]
  have hpos : ∀ p, framePositionWith exactArith a p = framePosition a p := by
    intro p
    simp only [framePositionWith, framePosition, rounded_exact, hease]
  have hprog : frameProgressWith exactArith a t = frameProgress a t := by
    simp only [frameProgressWith, frameProgress, rounded_exact]
    rfl
  have hdur : ∀ d vh, scrollDurationWith exactArith d vh = scrollDuration d vh := by
    intro d vh
    simp only [scrollDurationWith, scrollDuration, rounded_exact]
  refine ⟨?_, hpos, hprog, ?_⟩
  · unfold smoothScrollToWith smoothScrollTo
    cases ToNumber h target with
    | none => rfl
    | some t0 => simp only [rounded_exact, hdur]
  · simp only [stepWith, step, hpos, hprog]

/-- A result that lies between two numbers the arithmetic returns unchanged is
rounded to a finite number between them. -/
theorem Arith.Sound.between {ar : Arith} (hs : ar.Sound) (a b c : ℚ) (hab : a ≤ b) (hbc : b ≤ c)
    (ha : ar.rnd a = JSNum.fin a) (hc : ar.rnd c = JSNum.fin c) :
    ∃ r, ar.rnd b = JSNum.fin r ∧ a ≤ r ∧ r ≤ c := by
  have m1 := hs.mono a b hab
  have m2 := hs.mono b c hbc
  rw [ha] at m1
  rw [hc] at m2
  cases hr : ar.rnd b with
  | fin v =>
    rw [hr] at m1 m2
    simp only [JSNum.lt, decide_eq_false_iff_not, not_lt] at m1 m2
    exact ⟨v, rfl, m1, m2⟩
  | posInf =>
    rw [hr] at m2
    simp [JSNum.lt] at m2
  | negInf =>
    rw [hr] at m1
    simp [JSNum.lt] at m1
  | nan => exact absurd hr (hs.never_nan _)

/-- A result that is not negative is rounded to a finite number that is not
negative, or overflows to `+Infinity`. -/
theorem Arith.Sound.nonneg {ar : Arith} (hs : ar.Sound) (x : ℚ) (hx : 0 ≤ x) :
    ar.rnd x = JSNum.posInf ∨ ∃ r, ar.rnd x = JSNum.fin r ∧ 0 ≤ r := by
  have m1 := hs.mono 0 x hx
  rw [hs.zero] at m1
  cases hr : ar.rnd x with
  | fin v =>
    rw [hr] at m1
    simp only [JSNum.lt, decide_eq_false_iff_not, not_lt] at m1
    exact Or.inr ⟨v, rfl, m1⟩
  | posInf => exact Or.inl rfl
  | negInf =>
    rw [hr] at m1
    simp [JSNum.lt] at m1
  | nan => exact absurd hr (hs.never_nan _)

/-- In a sound arithmetic `ease` is 0 at 0, 1 at 1, and between 0 and 1 on `[0, 1]`. -/
theorem easeWith_range (ar : Arith) (hs : ar.Sound) :
    easeWith ar (JSNum.fin 0) = JSNum.fin 0 ∧ easeWith ar (JSNum.fin 1) = JSNum.fin 1
      ∧ ∀ x : ℚ, 0 ≤ x → x ≤ 1 → ∃ e, easeWith ar (JSNum.fin x) = JSNum.fin e ∧ 0 ≤ e ∧ e ≤ 1 := by
  have hsub : ∀ x : ℚ, JSNum.sub (JSNum.fin 1) (JSNum.fin x) = JSNum.fin (1 - x) := by
    intro x
    simp [JSNum.sub, JSNum.add, JSNum.neg, ← sub_eq_add_neg]
  refine ⟨?_, ?_, ?_⟩
  · simp only [easeWith, hsub, JSNum.rounded, powWith, sub_zero, hs.one, hs.pow_one, sub_self,
      hs.zero]
  · simp only [easeWith, hsub, JSNum.rounded, powWith, sub_zero, hs.one, hs.pow_zero, sub_self,
      hs.zero]
  · intro x hx0 hx1
    obtain ⟨u, hu, hu0, hu1⟩ := hs.between 0 (1 - x) 1 (by linarith) (by linarith) hs.zero hs.one
    obtain ⟨v, hv, hv0, hv1⟩ := hs.pow_range u hu0 hu1
    obtain ⟨e, he, he0, he1⟩ := hs.between 0 (1 - v) 1 (by linarith) (by linarith) hs.zero hs.one
    exact ⟨e, by simp only [easeWith, hsub, JSNum.rounded, powWith, hu, hv, he], he0, he1⟩

/-- The clamp `Math.max(200, Math.min(x, 4000))` of a number other than NaN is a
finite number between 200 and 4000. -/
theorem clamp_range (x : JSNum) (hx : x ≠ JSNum.nan) :
    ∃ dur, JSNum.max (JSNum.fin 200) (JSNum.min x (JSNum.fin 4000)) = JSNum.fin dur
      ∧ 200 ≤ dur ∧ dur ≤ 4000 := by
  cases x with
  | fin a =>
    refine ⟨max 200 (min a 4000), ?_, le_max_left _ _, max_le (by norm_num) (min_le_right _ _)⟩
    rw [jsMin_fin, jsMax_fin]
  | posInf =>
    refine ⟨4000, ?_, by norm_num, le_refl _⟩
    simp [JSNum.min, JSNum.max, JSNum.lt]
    norm_num
  | negInf =>
    refine ⟨200, ?_, le_refl _, by norm_num⟩
    simp [JSNum.min, JSNum.max, JSNum.lt]
  | nan => exact absurd rfl hx

theorem rounded_ne_nan (ar : Arith) (hs : ar.Sound) (x : JSNum) (hx : x ≠ JSNum.nan) :
    x.rounded ar ≠ JSNum.nan := by
  cases x with
  | fin a => exact hs.never_nan a
  | posInf => simp [JSNum.rounded]
  | negInf => simp [JSNum.rounded]
  | nan => exact absurd rfl hx

/-- In a sound arithmetic the duration computed for a finite distance other than
zero is a finite number between 200 and 4000, whatever the viewport height. -/
theorem scrollDurationWith_range (ar : Arith) (hs : ar.Sound) (d vh : ℚ) (hd : d ≠ 0) :
    ∃ dur, scrollDurationWith ar (JSNum.fin d) vh = JSNum.fin dur ∧ 200 ≤ dur ∧ dur ≤ 4000 := by
  unfold scrollDurationWith
  apply clamp_range
  apply rounded_ne_nan ar hs
  have habs : (0 : ℚ) < |d| := abs_pos.mpr hd
  have h1 : JSNum.div (JSNum.abs (JSNum.fin d)) (JSNum.fin vh) ≠ JSNum.nan := by
    by_cases hvh : vh = 0
    · simp [JSNum.abs, JSNum.div, JSNum.infTimes, hvh, habs, ne_of_gt habs]
    · simp [JSNum.abs, JSNum.div, hvh]
  have h2 := rounded_ne_nan ar hs _ h1
  cases hr : (JSNum.div (JSNum.abs (JSNum.fin d)) (JSNum.fin vh)).rounded ar with
  | fin a => simp [JSNum.mul]
  | posInf => simp [JSNum.mul, JSNum.infTimes, MS_PER_VIEWPORT]
  | negInf =>
    simp only [JSNum.mul, JSNum.infTimes, MS_PER_VIEWPORT]
    norm_num
    exact fun hc => JSNum.noConfusion hc
  | nan => exact absurd hr h2

/-- In a sound arithmetic the progress of an animation with a positive finite
duration, at a frame that is not earlier than its start time, is a number between
0 and 1. -/
theorem frameProgressWith_range (ar : Arith) (hs : ar.Sound) (a : Anim) (t dur : ℚ)
    (hdur : a.duration = JSNum.fin dur) (hpos : 0 < dur)
    (hmono : ∀ s, a.startTime = some s → s ≤ t) :
    ∃ p, frameProgressWith ar a t = JSNum.fin p ∧ 0 ≤ p ∧ p ≤ 1 := by
  have hel : 0 ≤ t - frameStart a t := by
    unfold frameStart
    cases hst : a.startTime with
    | none => simp
    | some s =>
      dsimp only
      split
      · simp
      · linarith [hmono s hst]
  unfold frameProgressWith
  rw [hdur]
  rcases hs.nonneg _ hel with hinf | ⟨x, hx, hx0⟩
  · rw [hinf]
    refine ⟨1, ?_, by norm_num, le_refl _⟩
    simp [JSNum.div, le_of_lt hpos, JSNum.rounded, JSNum.min, JSNum.lt]
  · rw [hx]
    have hq : 0 ≤ x / dur := div_nonneg hx0 (le_of_lt hpos)
    have hdiv : JSNum.div (JSNum.fin x) (JSNum.fin dur) = JSNum.fin (x / dur) := by
      simp [JSNum.div, ne_of_gt hpos]
    rw [hdiv]
    rcases hs.nonneg _ hq with hinf | ⟨p, hp, hp0⟩
    · refine ⟨1, ?_, by norm_num, le_refl _⟩
      simp [JSNum.rounded, hinf, JSNum.min, JSNum.lt]
    · refine ⟨min p 1, ?_, le_min hp0 (by norm_num), min_le_right _ _⟩
      simp only [JSNum.rounded, hp, jsMin_fin]

/-- In a sound arithmetic, for a start offset `s` and a distance `d` that are numbers
of the arithmetic and a finite sum `l` of the two: the position written at a
progress in `[0, 1]` is a finite number between `s` and `l`, and it is `l` at
progress 1. -/
theorem framePositionWith_range (ar : Arith) (hs : ar.Sound) (a : Anim) (d l p : ℚ)
    (hd : a.distance = JSNum.fin d) (hstart : ar.rnd a.startY = JSNum.fin a.startY)
    (hdd : ar.rnd d = JSNum.fin d) (hl : ar.rnd (a.startY + d) = JSNum.fin l)
    (hp0 : 0 ≤ p) (hp1 : p ≤ 1) :
    ∃ y, framePositionWith ar a (JSNum.fin p) = JSNum.fin y
      ∧ min a.startY l ≤ y ∧ y ≤ max a.startY l ∧ (p = 1 → y = l) := by
  obtain ⟨e0, e1, er⟩ := easeWith_range ar hs
  obtain ⟨e, he, he0, he1⟩ := er p hp0 hp1
  have hll : ar.rnd l = JSNum.fin l := hs.idem _ _ hl
  unfold framePositionWith
  rw [hd, he]
  simp only [JSNum.mul, JSNum.rounded]
  rcases le_total 0 d with hd0 | hd0
  · obtain ⟨x, hx, hx0, hx1⟩ := hs.between 0 (d * e) d (mul_nonneg hd0 he0) (by nlinarith)
      hs.zero hdd
    rw [hx]
    simp only [JSNum.add]
    have m1 := hs.mono a.startY (a.startY + x) (by linarith)
    have m2 := hs.mono (a.startY + x) (a.startY + d) (by linarith)
    rw [hstart] at m1
    rw [hl] at m2
    cases hr : ar.rnd (a.startY + x) with
    | fin y =>
      rw [hr] at m1 m2
      simp only [JSNum.lt, decide_eq_false_iff_not, not_lt] at m1 m2
      refine ⟨y, rfl, le_trans (min_le_left _ _) m1, le_trans m2 (le_max_right _ _), ?_⟩
      intro hp
      subst hp
      rw [e1] at he
      simp only [JSNum.fin.injEq] at he
      subst he
      rw [mul_one, hdd] at hx
      simp only [JSNum.fin.injEq] at hx
      subst hx
      rw [hl] at hr
      simp only [JSNum.fin.injEq] at hr
      exact hr.symm
    | posInf =>
      rw [hr] at m2
      simp [JSNum.lt] at m2
    | negInf =>
      rw [hr] at m1
      simp [JSNum.lt] at m1
    | nan => exact absurd hr (hs.never_nan _)
  · obtain ⟨x, hx, hx0, hx1⟩ := hs.between d (d * e) 0 (by nlinarith)
      (mul_nonpos_of_nonpos_of_nonneg hd0 he0) hdd hs.zero
    rw [hx]
    simp only [JSNum.add]
    have m1 := hs.mono (a.startY + d) (a.startY + x) (by linarith)
    have m2 := hs.mono (a.startY + x) a.startY (by linarith)
    rw [hl] at m1
    rw [hstart] at m2
    cases hr : ar.rnd (a.startY + x) with
    | fin y =>
      rw [hr] at m1 m2
      simp only [JSNum.lt, decide_eq_false_iff_not, not_lt] at m1 m2
      refine ⟨y, rfl, le_trans (min_le_right _ _) m1, le_trans m2 (le_max_left _ _), ?_⟩
      intro hp
      subst hp
      rw [e1] at he
      simp only [JSNum.fin.injEq] at he
      subst he
      rw [mul_one, hdd] at hx
      simp only [JSNum.fin.injEq] at hx
      subst hx
      rw [hl] at hr
      simp only [JSNum.fin.injEq] at hr
      exact hr.symm
    | posInf =>
      rw [hr] at m2
      simp [JSNum.lt] at m2
    | negInf =>
      rw [hr] at m1
      simp [JSNum.lt] at m1
    | nan => exact absurd hr (hs.never_nan _)

/-! ## Evaluating the rounding -/

theorem roundDouble_pos_eval (x : ℚ) (e n : ℤ) (h1 : (2 : ℚ) ^ e ≤ x) (h2 : x < (2 : ℚ) ^ (e + 1))
    (he : -1022 ≤ e) (hlo : (n : ℚ) - 1 / 2 < x / 2 ^ (e - 52))
    (hhi : x / 2 ^ (e - 52) < n + 1 / 2) (hfin : (n : ℚ) * 2 ^ (e - 52) < 2 ^ 1024) :
    roundDouble x = JSNum.fin ((n : ℚ) * 2 ^ (e - 52)) := by
  have hx : (0 : ℚ) ≤ x := le_trans (by positivity) h1
  have hm := roundMagnitude_eval x e n h1 h2 he hlo hhi
  have hn := roundMagnitude_nonneg x hx
  have hrf : roundFinite x = (n : ℚ) * 2 ^ (e - 52) := by
    unfold roundFinite
    rw [if_pos hx, hm]
  unfold roundDouble
  rw [hrf]
  rw [hm] at hn
  have hp : (0 : ℚ) < 2 ^ 1024 := by positivity
  rw [if_neg (not_le.mpr hfin), if_neg (by linarith)]

theorem roundDouble_neg_eval (x : ℚ) (e n : ℤ) (h1 : (2 : ℚ) ^ e ≤ -x)
    (h2 : -x < (2 : ℚ) ^ (e + 1)) (he : -1022 ≤ e) (hlo : (n : ℚ) - 1 / 2 < -x / 2 ^ (e - 52))
    (hhi : -x / 2 ^ (e - 52) < n + 1 / 2) (hfin : (n : ℚ) * 2 ^ (e - 52) < 2 ^ 1024) :
    roundDouble x = JSNum.fin (-((n : ℚ) * 2 ^ (e - 52))) := by
  have hpos : (0 : ℚ) < -x := lt_of_lt_of_le (by positivity) h1
  have hx : ¬ (0 : ℚ) ≤ x := by
    intro hc
    linarith
  have hm := roundMagnitude_eval (-x) e n h1 h2 he hlo hhi
  have hn := roundMagnitude_nonneg (-x) (le_of_lt hpos)
  have hrf : roundFinite x = -((n : ℚ) * 2 ^ (e - 52)) := by
    unfold roundFinite
    rw [if_neg hx, hm]
  unfold roundDouble
  rw [hrf]
  rw [hm] at hn
  have hp : (0 : ℚ) < 2 ^ 1024 := by positivity
  rw [if_neg (by linarith), if_neg (by linarith)]

/-- A number given as `m * 2 ^ k` with `|m| < 2 ^ 53` is a double. -/
theorem roundDouble_dyadic (x : ℚ) (m k : ℤ) (hx : x = (m : ℚ) * 2 ^ k)
    (hm : m.natAbs < 2 ^ 53) (hk : -1074 ≤ k) (hr : |x| < 2 ^ 1024) :
    roundDouble x = JSNum.fin x := by
  subst hx
  exact roundDouble_fixed m k hm hk hr

theorem roundDouble_half : roundDouble (1 / 2) = JSNum.fin (1 / 2) :=
  roundDouble_dyadic (1 / 2) 1 (-1) (by norm_num) (by norm_num) (by norm_num)
    (by rw [abs_of_pos (by norm_num)]; norm_num)

theorem roundDouble_50 : roundDouble 50 = JSNum.fin 50 :=
  roundDouble_dyadic 50 50 0 (by norm_num) (by norm_num) (by norm_num)
    (by rw [abs_of_pos (by norm_num)]; norm_num)

theorem roundDouble_100 : roundDouble 100 = JSNum.fin 100 :=
  roundDouble_dyadic 100 100 0 (by norm_num) (by norm_num) (by norm_num)
    (by rw [abs_of_pos (by norm_num)]; norm_num)

theorem roundDouble_200 : roundDouble 200 = JSNum.fin 200 :=
  roundDouble_dyadic 200 200 0 (by norm_num) (by norm_num) (by norm_num)
    (by rw [abs_of_pos (by norm_num)]; norm_num)

theorem roundDouble_400 : roundDouble 400 = JSNum.fin 400 :=
  roundDouble_dyadic 400 400 0 (by norm_num) (by norm_num) (by norm_num)
    (by rw [abs_of_pos (by norm_num)]; norm_num)

theorem roundDouble_32nd : roundDouble (1 / 32) = JSNum.fin (1 / 32) :=
  roundDouble_dyadic (1 / 32) 1 (-5) (by norm_num) (by norm_num) (by norm_num)
    (by rw [abs_of_pos (by norm_num)]; norm_num)

theorem roundDouble_31_32 : roundDouble (31 / 32) = JSNum.fin (31 / 32) :=
  roundDouble_dyadic (31 / 32) 31 (-5) (by norm_num) (by norm_num) (by norm_num)
    (by rw [abs_of_pos (by norm_num)]; norm_num)

theorem roundDouble_775_2 : roundDouble (775 / 2) = JSNum.fin (775 / 2) :=
  roundDouble_dyadic (775 / 2) 775 (-1) (by norm_num) (by norm_num) (by norm_num)
    (by rw [abs_of_pos (by norm_num)]; norm_num)

/-- The decimal 56.35 is read as the double `offset5635`. -/
theorem roundDouble_5635 : roundDouble (1127 / 20) = JSNum.fin offset5635 := by
  have h := roundDouble_pos_eval (1127 / 20) 5 7930557468822733 (by norm_num) (by norm_num)
    (by norm_num) (by norm_num) (by norm_num) (by norm_num)
  rw [h]
  unfold offset5635
  norm_num

theorem offset5635_double : roundDouble offset5635 = JSNum.fin offset5635 :=
  binary64_sound.idem _ _ roundDouble_5635

/-- The distance computed from the offset 56.35 to the target -200. -/
theorem roundDouble_distance :
    roundDouble (-200 - offset5635) = JSNum.fin (-2254878446243021 / 8796093022208) := by
  have h := roundDouble_neg_eval (-200 - offset5635) 8 4509756892486042
    (by unfold offset5635; norm_num) (by unfold offset5635; norm_num) (by norm_num)
    (by unfold offset5635; norm_num) (by unfold offset5635; norm_num) (by norm_num)
  rw [h]
  norm_num

/-- The sum of the offset 56.35 and that distance, as computed. -/
theorem roundDouble_landing :
    roundDouble (offset5635 + -2254878446243021 / 8796093022208)
      = JSNum.fin (-7036874417766401 / 35184372088832) := by
  have h := roundDouble_neg_eval (offset5635 + -2254878446243021 / 8796093022208) 7
    7036874417766401
    (by unfold offset5635; norm_num) (by unfold offset5635; norm_num) (by norm_num)
    (by unfold offset5635; norm_num) (by unfold offset5635; norm_num) (by norm_num)
  rw [h]
  norm_num

/-! ## The animation in double arithmetic, step by step -/

theorem easeWith_fin (ar : Arith) (x u v e : ℚ) (h1 : ar.rnd (1 - x) = JSNum.fin u)
    (h2 : ar.pow5 u = JSNum.fin v) (h3 : ar.rnd (1 - v) = JSNum.fin e) :
    easeWith ar (JSNum.fin x) = JSNum.fin e := by
  have hsub : ∀ y : ℚ, JSNum.sub (JSNum.fin 1) (JSNum.fin y) = JSNum.fin (1 - y) := by
    intro y
    simp [JSNum.sub, JSNum.add, JSNum.neg, ← sub_eq_add_neg]
  simp only [easeWith, hsub, JSNum.rounded, h1, powWith, h2, h3]

theorem scrollDurationWith_fin (ar : Arith) (d vh r1 r2 : ℚ) (hvh : vh ≠ 0)
    (h1 : ar.rnd (|d| / vh) = JSNum.fin r1) (h2 : ar.rnd (r1 * 100) = JSNum.fin r2) :
    scrollDurationWith ar (JSNum.fin d) vh = JSNum.fin (max 200 (min r2 4000)) := by
  simp only [scrollDurationWith, JSNum.abs, JSNum.div, hvh, if_false, JSNum.rounded, h1,
    JSNum.mul, MS_PER_VIEWPORT, h2, jsMin_fin, jsMax_fin]

/-- In a sound arithmetic that knows the number 100, a scroll over at most one
viewport height takes 200 ms. -/
theorem scrollDurationWith_short (ar : Arith) (hs : ar.Sound)
    (h100 : ar.rnd 100 = JSNum.fin 100) (d vh : ℚ) (hvh : 0 < vh) (hd : |d| ≤ vh) :
    scrollDurationWith ar (JSNum.fin d) vh = JSNum.fin 200 := by
  obtain ⟨r1, hr1, a1, b1⟩ := hs.between 0 (|d| / vh) 1 (div_nonneg (abs_nonneg d) (le_of_lt hvh))
    ((div_le_one hvh).mpr hd) hs.zero hs.one
  obtain ⟨r2, hr2, a2, b2⟩ := hs.between 0 (r1 * 100) 100 (by linarith) (by linarith)
    hs.zero h100
  rw [scrollDurationWith_fin ar d vh r1 r2 (ne_of_gt hvh) hr1 hr2]
  have h1 : min r2 4000 = r2 := min_eq_left (by linarith)
  rw [h1, max_eq_left (by linarith)]

theorem frameProgressWith_fin (ar : Arith) (a : Anim) (t el dur r : ℚ)
    (hdur : a.duration = JSNum.fin dur) (hd0 : dur ≠ 0)
    (h1 : ar.rnd (t - frameStart a t) = JSNum.fin el) (h2 : ar.rnd (el / dur) = JSNum.fin r) :
    frameProgressWith ar a t = JSNum.fin (min r 1) := by
  simp only [frameProgressWith, hdur, h1, JSNum.div, hd0, if_false, JSNum.rounded, h2, jsMin_fin]

theorem framePositionWith_fin (ar : Arith) (a : Anim) (d p e x y : ℚ)
    (hd : a.distance = JSNum.fin d) (he : easeWith ar (JSNum.fin p) = JSNum.fin e)
    (h1 : ar.rnd (d * e) = JSNum.fin x) (h2 : ar.rnd (a.startY + x) = JSNum.fin y) :
    framePositionWith ar a (JSNum.fin p) = JSNum.fin y := by
  simp only [framePositionWith, hd, he, JSNum.mul, JSNum.rounded, h1, JSNum.add, h2]

/-- What `smoothScrollTo` does in the arithmetic `ar` when the target converts to
the finite number `q` and the distance, as computed, is the number `d` other than
zero. -/
theorem smoothScrollToWith_fin (ar : Arith) (h : Host) (w : World) (target : JVal) (idx : Nat)
    (q d : ℚ) (hq : ToNumber h target = some (JSNum.fin q))
    (hd : ar.rnd (q - w.scrollY) = JSNum.fin d) (hd0 : d ≠ 0) :
    smoothScrollToWith ar h w target idx
      = ({ w with
            isScrolling := true
            frames := w.frames ++ [⟨w.scrollY, JSNum.fin d,
              scrollDurationWith ar (JSNum.fin d) w.innerHeight, none, idx, target⟩] }, []) := by
  have hsub : JSNum.sub (JSNum.fin q) (JSNum.fin w.scrollY) = JSNum.fin (q - w.scrollY) := by
    simp [JSNum.sub, JSNum.add, JSNum.neg, ← sub_eq_add_neg]
  simp only [smoothScrollToWith, hq, hsub, JSNum.rounded, hd, JSNum.isZero, hd0, decide_False,
    Bool.false_eq_true, if_false]

/-- What the callback `step` does in the arithmetic `ar`, given the progress and the
position it computes. -/
theorem stepWith_fin (ar : Arith) (a : Anim) (t : ℚ) (w : World) (p y : ℚ)
    (hp : frameProgressWith ar a t = JSNum.fin p)
    (hy : framePositionWith ar a (JSNum.fin p) = JSNum.fin y) :
    (stepWith ar a t w).1.scrollY = y
      ∧ (p < 1 →
          (stepWith ar a t w).1.frames
              = w.frames ++ [{ a with startTime := some (frameStart a t) }]
            ∧ (stepWith ar a t w).1.isScrolling = w.isScrolling)
      ∧ (¬ p < 1 →
          (stepWith ar a t w).1.isScrolling = false ∧ (stepWith ar a t w).1.frames = w.frames) := by
  by_cases hlt : p < 1
  · have h1 : JSNum.lt (JSNum.fin p) (JSNum.fin 1) = true := by simp [JSNum.lt, hlt]
    simp only [stepWith, hp, hy, h1, if_true, window_scrollTo]
    simp [hlt]
  · have h1 : JSNum.lt (JSNum.fin p) (JSNum.fin 1) = false := by simp [JSNum.lt, hlt]
    simp only [stepWith, hp, hy, h1, Bool.false_eq_true, if_false, window_scrollTo]
    simp [hlt]

/-! ## Two animations evaluated -/

theorem stringPage_reachable : Reachable sampleHost stringPage := by
  have hi := init_of_array sampleHost [("scroll-assist:/", "[\"a\"]")] 0 800 "[\"a\"]"
    (JVal.str "a") [] rfl rfl
  have hr : Reachable sampleHost (init sampleHost [("scroll-assist:/", "[\"a\"]")] 0 800).1 :=
    Reachable.load _ _ _
  rw [hi] at hr
  exact hr

theorem stringPage_press :
    keydown sampleHost stringPage spaceKey
      = some (stringFirstStep, ⟨true, [], some (JVal.str "a")⟩) := by
  rw [keydown_space_advance sampleHost stringPage spaceKey ⟨rfl, Or.inl rfl⟩ rfl rfl
    [JVal.str "a"] rfl (by decide)]
  rfl

theorem stringFirstStep_reachable : Reachable sampleHost stringFirstStep :=
  Reachable.next stringPage stringFirstStep (Event.key spaceKey) stringPage_reachable
    (by simp [next, stringPage_press])

/-- The animation from the offset 56.35 to the target -200 in binary64: the distance
is the double nearest to -256.35, the duration 200 ms. -/
theorem fractionalPage_start :
    smoothScrollToWith binary64 sampleHost fractionalPage (JVal.num (-200)) 1
      = ({ fractionalPage with
            isScrolling := true
            frames := [⟨offset5635, JSNum.fin (-2254878446243021 / 8796093022208),
              JSNum.fin 200, none, 1, JVal.num (-200)⟩] }, []) := by
  have hd : binary64.rnd (-200 - fractionalPage.scrollY)
      = JSNum.fin (-2254878446243021 / 8796093022208) := roundDouble_distance
  rw [smoothScrollToWith_fin binary64 sampleHost fractionalPage (JVal.num (-200)) 1 (-200)
    (-2254878446243021 / 8796093022208) rfl hd (by norm_num)]
  rw [scrollDurationWith_short binary64 binary64_sound roundDouble_100 _ fractionalPage.innerHeight
    (by norm_num [fractionalPage]) (by
      rw [abs_of_neg (by norm_num)]
      norm_num [fractionalPage])]
  rfl

/-- With a duration of 200 ms and a start time of 1000, the frame at 1200 is the
final one in binary64. -/
theorem final_frame_progress (a : Anim) (hdur : a.duration = JSNum.fin 200)
    (hst : a.startTime = some 1000) :
    frameProgressWith binary64 a 1200 = JSNum.fin 1 := by
  have hfs : frameStart a 1200 = 1000 := by
    simp [frameStart, hst]
  have h1 : binary64.rnd (1200 - frameStart a 1200) = JSNum.fin 200 := by
    rw [hfs]
    norm_num
    exact roundDouble_200
  have h2 : binary64.rnd (200 / 200) = JSNum.fin 1 := by
    norm_num
    exact binary64_sound.one
  rw [frameProgressWith_fin binary64 a 1200 200 200 1 hdur (by norm_num) h1 h2]
  norm_num

/-- The position written on the final frame of that animation. -/
theorem fractionalPage_landing (st : Option ℚ) :
    framePositionWith binary64
        ⟨offset5635, JSNum.fin (-2254878446243021 / 8796093022208), JSNum.fin 200, st, 1,
          JVal.num (-200)⟩ (JSNum.fin 1)
      = JSNum.fin (-7036874417766401 / 35184372088832) := by
  have hd : binary64.rnd (-2254878446243021 / 8796093022208)
      = JSNum.fin (-2254878446243021 / 8796093022208) :=
    binary64_sound.idem _ _ roundDouble_distance
  refine framePositionWith_fin binary64 _ (-2254878446243021 / 8796093022208) 1 1
    (-2254878446243021 / 8796093022208) _ rfl (easeWith_range binary64 binary64_sound).2.1 ?_ ?_
  · rw [mul_one]
    exact hd
  · exact roundDouble_landing

theorem stringFirstStep_frame :
    frameProgress ⟨0, JSNum.nan, JSNum.nan, none, 1, JVal.str "a"⟩ 1000 = JSNum.nan
      ∧ framePosition ⟨0, JSNum.nan, JSNum.nan, none, 1, JVal.str "a"⟩ JSNum.nan = JSNum.nan
      ∧ (animationFrame stringFirstStep 1000).1
          = { stringFirstStep with isScrolling := false, frames := [] } := by
  have hp : frameProgress ⟨0, JSNum.nan, JSNum.nan, none, 1, JVal.str "a"⟩ 1000 = JSNum.nan := by
    simp [frameProgress, JSNum.div, JSNum.min]
  have hy : framePosition ⟨0, JSNum.nan, JSNum.nan, none, 1, JVal.str "a"⟩ JSNum.nan
      = JSNum.nan := by
    simp [framePosition, JSNum.mul, JSNum.add]
  refine ⟨hp, hy, ?_⟩
  simp only [animationFrame, stringFirstStep, List.foldl_cons, List.foldl_nil, step, hp, hy,
    JSNum.lt, Bool.false_eq_true, if_false, window_scrollTo]

/-- The first Space press on the page loaded with 400, in binary64. -/
theorem loadedPage_start :
    smoothScrollToWith binary64 sampleHost loadedPage (JVal.num 400) 1
      = ({ loadedPage with
            isScrolling := true
            frames := [⟨0, JSNum.fin 400, JSNum.fin 200, none, 1, JVal.num 400⟩] }, []) := by
  have hd : binary64.rnd (400 - loadedPage.scrollY) = JSNum.fin 400 := by
    rw [show (400 : ℚ) - loadedPage.scrollY = 400 by norm_num [loadedPage]]
    exact roundDouble_400
  rw [smoothScrollToWith_fin binary64 sampleHost loadedPage (JVal.num 400) 1 400 400 rfl hd
    (by norm_num)]
  rw [scrollDurationWith_short binary64 binary64_sound roundDouble_100 _ loadedPage.innerHeight
    (by norm_num [loadedPage]) (by
      rw [abs_of_pos (by norm_num)]
      norm_num [loadedPage])]
  rfl

/-- Half way through that animation (start time 1000, frame at 1100): progress 1/2,
position 387.5. -/
theorem loadedPage_halfway :
    frameProgressWith binary64 ⟨0, JSNum.fin 400, JSNum.fin 200, some 1000, 1, JVal.num 400⟩ 1100
        = JSNum.fin (1 / 2)
      ∧ framePositionWith binary64 ⟨0, JSNum.fin 400, JSNum.fin 200, some 1000, 1, JVal.num 400⟩
          (JSNum.fin (1 / 2)) = JSNum.fin (775 / 2) := by
  constructor
  · have hfs : frameStart ⟨0, JSNum.fin 400, JSNum.fin 200, some 1000, 1, JVal.num 400⟩ 1100
        = 1000 := by
      simp [frameStart]
    have h1 : binary64.rnd
        (1100 - frameStart ⟨0, JSNum.fin 400, JSNum.fin 200, some 1000, 1, JVal.num 400⟩ 1100)
        = JSNum.fin 100 := by
      rw [hfs]
      norm_num
      exact roundDouble_100
    have h2 : binary64.rnd (100 / 200) = JSNum.fin (1 / 2) := by
      rw [show (100 : ℚ) / 200 = 1 / 2 by norm_num]
      exact roundDouble_half
    rw [frameProgressWith_fin binary64 _ 1100 100 200 (1 / 2) rfl (by norm_num) h1 h2]
    norm_num
  · have e1 : binary64.rnd (1 - 1 / 2) = JSNum.fin (1 / 2) := by
      rw [show (1 : ℚ) - 1 / 2 = 1 / 2 by norm_num]
      exact roundDouble_half
    have e2 : binary64.pow5 (1 / 2) = JSNum.fin (1 / 32) := by
      show roundDouble ((1 / 2) ^ 5) = JSNum.fin (1 / 32)
      rw [show ((1 : ℚ) / 2) ^ 5 = 1 / 32 by norm_num]
      exact roundDouble_32nd
    have e3 : binary64.rnd (1 - 1 / 32) = JSNum.fin (31 / 32) := by
      rw [show (1 : ℚ) - 1 / 32 = 31 / 32 by norm_num]
      exact roundDouble_31_32
    have he := easeWith_fin binary64 (1 / 2) (1 / 2) (1 / 32) (31 / 32) e1 e2 e3
    refine framePositionWith_fin binary64 _ 400 (1 / 2) (31 / 32) (775 / 2) (775 / 2) rfl he ?_ ?_
    · rw [show (400 : ℚ) * (31 / 32) = 775 / 2 by norm_num]
      exact roundDouble_775_2
    · show binary64.rnd (0 + 775 / 2) = JSNum.fin (775 / 2)
      rw [zero_add]
      exact roundDouble_775_2

/-! ## The claims -/

/-- C1 (round trip).  From any page, a session made of an R press, then for each
offset of a non-empty list `ys` a scroll to it followed by an S press, then an E
press, ends in a page whose store holds, under `STORAGE_KEY`, the text that
`JSON.stringify` gives for the recorded array `[round y1, ..., round yn]`;
`JSON.parse` turns that text back into exactly this array, and `init` run on that
store starts in playback mode at index 0 with exactly these checkpoints. -/
theorem round_trip (h : Host) (w : World) (eR eS eE : KeyEvent)
    (hR : Pressed eR "r" "R") (hS : Pressed eS "s" "S") (hE : Pressed eE "e" "E")
    (ys : List ℚ) (hys : ys ≠ []) (y0 h0 : ℚ) :
    ∃ w1 text, run h w (recordingSession eR eS eE ys) = some w1
      ∧ getItem w1.store (STORAGE_KEY h) = some text
      ∧ JSON_stringify (JVal.arr (ys.map (fun y => JVal.num (Math_round y)))) = some text
      ∧ JSON_parse text = some (JVal.arr (ys.map (fun y => JVal.num (Math_round y))))
      ∧ (init h w1.store y0 h0).1.mode = Mode.playback
      ∧ (init h w1.store y0 h0).1.playbackIndex = 0
      ∧ (init h w1.store y0 h0).1.checkpoints
          = JVal.arr (ys.map (fun y => JVal.num (Math_round y))) := by
  have hshape : JVal.arr (ys.map (fun y => JVal.num (Math_round y)))
      = intArray (ys.map (fun y => ⌊y + 1 / 2⌋)) := by
    simp [intArray, Math_round]
  have hne : ys.map (fun y => ⌊y + 1 / 2⌋) ≠ [] := by simpa using hys
  obtain ⟨w1, hrun, hm1, hc1, hs1⟩ := run_saves h eS hS ys
    (window_scrollTo { w with mode := Mode.recording, checkpoints := JVal.arr [], playbackIndex := 0 }
      (JSNum.fin 0)) [] rfl rfl
  rw [List.nil_append] at hc1
  have hE1 := keydown_E h w1 eE hE _ hne hm1 hc1
  have hparse := JSON_parse_join _ hne
  obtain ⟨x, xs, hcons⟩ : ∃ x xs, (ys.map (fun y => ⌊y + 1 / 2⌋)).map
      (fun (i : ℤ) => JVal.num (i : ℚ)) = x :: xs := by
    cases ys with
    | nil => exact absurd rfl hys
    | cons y r => exact ⟨_, _, rfl⟩
  obtain ⟨wE, hkE, hstore⟩ : ∃ wE, keydown h w1 eE
        = some (wE, ⟨false, [LogMsg.recordingEnded (ys.map (fun y => ⌊y + 1 / 2⌋)).length], none⟩)
      ∧ wE.store = setItem w1.store (STORAGE_KEY h)
          (String.mk (Char.ofNat 91 :: (joinElems (ys.map (fun y => ⌊y + 1 / 2⌋))
            ++ [Char.ofNat 93]))) := ⟨_, hE1, rfl⟩
  refine ⟨wE, String.mk (Char.ofNat 91 :: (joinElems (ys.map (fun y => ⌊y + 1 / 2⌋))
    ++ [Char.ofNat 93])), ?_, ?_, ?_, ?_, ?_⟩
  · simp only [recordingSession, run, next, keydown_R h w eR hR, Option.map_some']
    rw [run_append, hrun]
    simp only [Option.some_bind, run, next, hkE, Option.map_some']
  · rw [hstore]; exact getItem_setItem _ _ _
  · rw [hshape]; exact JSON_stringify_intArray _
  · rw [hshape]; exact hparse
  · have hi := init_of_array h wE.store y0 h0 _ x xs
      (by rw [hstore]; exact getItem_setItem _ _ _) (by rw [← hcons]; exact hparse)
    rw [hi, hshape, intArray, hcons]
    exact ⟨rfl, rfl, rfl⟩

/-- Witness of C1: a session recording the offsets 400 and 1200 on the sample page. -/
theorem round_trip_witness :
    Pressed (plainKey "r") "r" "R" ∧ Pressed (plainKey "S") "s" "S"
      ∧ Pressed (plainKey "e") "e" "E" ∧ ([400, 1200] : List ℚ) ≠ []
      ∧ ∃ w1 text,
          run sampleHost scenarioPage
            (recordingSession (plainKey "r") (plainKey "S") (plainKey "e") [400, 1200]) = some w1
          ∧ getItem w1.store (STORAGE_KEY sampleHost) = some text
          ∧ JSON_stringify (JVal.arr ([400, 1200].map (fun y => JVal.num (Math_round y))))
              = some text
          ∧ JSON_parse text = some (JVal.arr ([400, 1200].map (fun y => JVal.num (Math_round y))))
          ∧ (init sampleHost w1.store 0 800).1.mode = Mode.playback
          ∧ (init sampleHost w1.store 0 800).1.playbackIndex = 0
          ∧ (init sampleHost w1.store 0 800).1.checkpoints
              = JVal.arr ([400, 1200].map (fun y => JVal.num (Math_round y))) :=
  ⟨⟨rfl, Or.inl rfl⟩, ⟨rfl, Or.inr rfl⟩, ⟨rfl, Or.inl rfl⟩, List.cons_ne_nil _ _,
    round_trip sampleHost scenarioPage (plainKey "r") (plainKey "S") (plainKey "e")
      ⟨rfl, Or.inl rfl⟩ ⟨rfl, Or.inr rfl⟩ ⟨rfl, Or.inl rfl⟩ [400, 1200] (List.cons_ne_nil _ _)
      0 800⟩

/-- C2.  In recording mode with an empty checkpoint list, a key event for `e` or
`E` leaves the whole page as it is (mode, checkpoints, playbackIndex, store and all
the rest): nothing is written.  If the key is let through, the only effect is the
line `No checkpoints saved`. -/
theorem end_rejected_when_empty (h : Host) (w : World) (e : KeyEvent)
    (hm : w.mode = Mode.recording) (hc : w.checkpoints = JVal.arr [])
    (hk : e.key = "e" ∨ e.key = "E") :
    keydown h w e = some (w,
      if shouldIgnoreKey e then Effects.nothing else ⟨false, [LogMsg.noCheckpoints], none⟩) := by
  cases hi : shouldIgnoreKey e with
  | true => simp [keydown, hi]
  | false => simpa using keydown_E_empty h w e ⟨hi, hk⟩ hm hc

/-- Witness of C2: an upper-case E pressed on a page that records and has no checkpoint. -/
theorem end_rejected_when_empty_witness :
    emptyRecording.mode = Mode.recording ∧ emptyRecording.checkpoints = JVal.arr []
      ∧ ((plainKey "E").key = "e" ∨ (plainKey "E").key = "E")
      ∧ keydown sampleHost emptyRecording (plainKey "E") = some (emptyRecording,
          if shouldIgnoreKey (plainKey "E") then Effects.nothing
          else ⟨false, [LogMsg.noCheckpoints], none⟩) :=
  ⟨rfl, rfl, Or.inr rfl,
    end_rejected_when_empty sampleHost emptyRecording (plainKey "E") rfl rfl (Or.inr rfl)⟩

/-- C3.  An R press that is let through (in playback mode as in any other) gives
mode recording, checkpoints `[]` and playbackIndex 0 and leaves the store as it is;
and the store is still the same after any further events (key presses, frames,
scrolling, resizing) as long as none of them is an accepted E press. -/
theorem new_recording_keeps_store (h : Host) (w : World) (e : KeyEvent)
    (he : Pressed e "r" "R") :
    ∃ w1 eff, keydown h w e = some (w1, eff)
      ∧ w1.mode = Mode.recording ∧ w1.checkpoints = JVal.arr [] ∧ w1.playbackIndex = 0
      ∧ w1.store = w.store
      ∧ ∀ w2, ReachedBeforeEnd h w1 w2 → w2.store = w.store := by
  refine ⟨_, _, keydown_R h w e he, rfl, rfl, rfl, rfl, ?_⟩
  intro w2 hr
  exact (ReachedBeforeEnd.store_eq h _ w2 hr).trans rfl

/-- Witness of C3: an upper-case R pressed on the played scenario page. -/
theorem new_recording_keeps_store_witness :
    Pressed (plainKey "R") "r" "R"
      ∧ ∃ w1 eff, keydown sampleHost playedPage (plainKey "R") = some (w1, eff)
          ∧ w1.mode = Mode.recording ∧ w1.checkpoints = JVal.arr [] ∧ w1.playbackIndex = 0
          ∧ w1.store = playedPage.store
          ∧ ∀ w2, ReachedBeforeEnd sampleHost w1 w2 → w2.store = playedPage.store :=
  ⟨⟨rfl, Or.inr rfl⟩,
    new_recording_keeps_store sampleHost playedPage (plainKey "R") ⟨rfl, Or.inr rfl⟩⟩

/-- C4.  In playback mode, if a Space press starts an animation (registers a
callback `a`), then the busy flag is set and playbackIndex has grown by one, and a
second Space press changes nothing: the page after the two presses is the page after
the first, so one animation was started and the index was incremented once. -/
theorem busy_space_is_rejected (h : Host) (w w1 : World) (e1 e2 : KeyEvent) (eff : Effects)
    (a : Anim) (hm : w.mode = Mode.playback)
    (h1 : Pressed e1 " " " ") (h2 : Pressed e2 " " " ")
    (hk : keydown h w e1 = some (w1, eff)) (hstart : w1.frames = w.frames ++ [a]) :
    w1.isScrolling = true
      ∧ w1.playbackIndex = w.playbackIndex + 1
      ∧ keydown h w1 e2 = some (w1, ⟨true, [], none⟩)
      ∧ run h w [Event.key e1, Event.key e2] = some w1 := by
  have hne : w1.frames ≠ w.frames := by
    rw [hstart]
    intro hcontra
    have := congrArg List.length hcontra
    simp at this
  have hbusy : w.isScrolling = false := by
    cases hb : w.isScrolling with
    | false => rfl
    | true =>
      rw [keydown_space_busy h w e1 h1 hm hb] at hk
      cases hk
      exact absurd rfl hne
  have hk1 : e1.key = " " := h1.2.elim id id
  have main : w1.isScrolling = true ∧ w1.playbackIndex = w.playbackIndex + 1
      ∧ w1.mode = Mode.playback := by
    cases hc : w.checkpoints with
    | arr xs =>
      by_cases hi : xs.length ≤ w.playbackIndex
      · rw [keydown_space_loop h w e1 h1 hm hbusy xs hc hi] at hk
        cases hk
        exact absurd rfl hne
      · rw [keydown_space_advance h w e1 h1 hm hbusy xs hc (Nat.lt_of_not_le hi)] at hk
        simp only [Option.some.injEq, Prod.mk.injEq] at hk
        obtain ⟨hw, _⟩ := hk
        have hf := smoothScrollTo_fields h { w with playbackIndex := w.playbackIndex + 1 }
          (xs.get ⟨w.playbackIndex, Nat.lt_of_not_le hi⟩) (w.playbackIndex + 1)
        rcases smoothScrollTo_frames h { w with playbackIndex := w.playbackIndex + 1 }
          (xs.get ⟨w.playbackIndex, Nat.lt_of_not_le hi⟩) (w.playbackIndex + 1) with hs | hs
        · rw [hs] at hw
          rw [← hw] at hne
          exact absurd rfl hne
        · rw [hw] at hs hf
          exact ⟨hs.1, hf.2.2.1, hf.1.trans hm⟩
    | null => simp [keydown, h1.1, hk1, hm, hbusy, hc] at hk
    | bool b => simp [keydown, h1.1, hk1, hm, hbusy, hc] at hk
    | num q => simp [keydown, h1.1, hk1, hm, hbusy, hc] at hk
    | str s => simp [keydown, h1.1, hk1, hm, hbusy, hc] at hk
    | obj m => simp [keydown, h1.1, hk1, hm, hbusy, hc] at hk
  have hsecond := keydown_space_busy h w1 e2 h2 main.2.2 main.1
  refine ⟨main.1, main.2.1, hsecond, ?_⟩
  simp [run, next, hk, hsecond]

/-- Witness of C4: two Space presses in a row on the scenario page. -/
theorem busy_space_is_rejected_witness :
    scenarioPage.mode = Mode.playback ∧ Pressed spaceKey " " " "
      ∧ keydown sampleHost scenarioPage spaceKey
          = some (firstStepPage, ⟨true, [], some (JVal.num 400)⟩)
      ∧ firstStepPage.frames
          = scenarioPage.frames ++ [⟨0, JSNum.fin 400, JSNum.fin 200, none, 1, JVal.num 400⟩]
      ∧ firstStepPage.isScrolling = true
      ∧ firstStepPage.playbackIndex = scenarioPage.playbackIndex + 1
      ∧ keydown sampleHost firstStepPage spaceKey = some (firstStepPage, ⟨true, [], none⟩)
      ∧ run sampleHost scenarioPage [Event.key spaceKey, Event.key spaceKey]
          = some firstStepPage :=
  ⟨rfl, ⟨rfl, Or.inl rfl⟩, scenario_first_press sampleHost, rfl,
    busy_space_is_rejected sampleHost scenarioPage firstStepPage spaceKey spaceKey
      ⟨true, [], some (JVal.num 400)⟩ ⟨0, JSNum.fin 400, JSNum.fin 200, none, 1, JVal.num 400⟩
      rfl ⟨rfl, Or.inl rfl⟩ ⟨rfl, Or.inl rfl⟩ (scenario_first_press sampleHost) rfl⟩

/-- C5.  In playback mode with the busy flag clear and playbackIndex equal to the
number of checkpoints, a Space press sets playbackIndex to 0 and the scroll offset
to 0, registers no animation callback, leaves the busy flag clear and logs the
loop-back line; if there is a first checkpoint `x`, the next Space press calls
`smoothScrollTo` with `x` and leaves playbackIndex at 1. -/
theorem loop_back_then_first (h : Host) (w : World) (e1 e2 : KeyEvent) (xs : List JVal)
    (hm : w.mode = Mode.playback) (hb : w.isScrolling = false)
    (hc : w.checkpoints = JVal.arr xs) (hi : w.playbackIndex = xs.length)
    (h1 : Pressed e1 " " " ") (h2 : Pressed e2 " " " ") :
    ∃ w1, keydown h w e1 = some (w1, ⟨true, [LogMsg.loopedBack], none⟩)
      ∧ w1.playbackIndex = 0 ∧ w1.scrollY = 0
      ∧ w1.frames = w.frames ∧ w1.isScrolling = false
      ∧ w1.mode = Mode.playback ∧ w1.checkpoints = w.checkpoints ∧ w1.store = w.store
      ∧ ∀ x rest, xs = x :: rest →
          ∃ w2 eff, keydown h w1 e2 = some (w2, eff)
            ∧ eff.scrollTarget = some x ∧ w2.playbackIndex = 1 := by
  refine ⟨_, keydown_space_loop h w e1 h1 hm hb xs hc (by omega), rfl, rfl, rfl, hb, hm, rfl, rfl,
    ?_⟩
  intro x rest hx
  subst hx
  have hadv := keydown_space_advance h
    (window_scrollTo { w with playbackIndex := 0 } (JSNum.fin 0)) e2 h2 hm hb (x :: rest) hc
    (by simp [window_scrollTo])
  refine ⟨_, _, hadv, rfl, ?_⟩
  exact (smoothScrollTo_fields h _ _ _).2.2.1

/-- Witness of C5: Space pressed on the scenario page once its three checkpoints are played. -/
theorem loop_back_then_first_witness :
    playedPage.mode = Mode.playback ∧ playedPage.isScrolling = false
      ∧ playedPage.checkpoints = JVal.arr [JVal.num 400, JVal.num 1200, JVal.num 3000]
      ∧ playedPage.playbackIndex = [JVal.num 400, JVal.num 1200, JVal.num 3000].length
      ∧ Pressed spaceKey " " " "
      ∧ ∃ w1, keydown sampleHost playedPage spaceKey
            = some (w1, ⟨true, [LogMsg.loopedBack], none⟩)
          ∧ w1.playbackIndex = 0 ∧ w1.scrollY = 0
          ∧ w1.frames = playedPage.frames ∧ w1.isScrolling = false
          ∧ w1.mode = Mode.playback ∧ w1.checkpoints = playedPage.checkpoints
          ∧ w1.store = playedPage.store
          ∧ ∀ x rest, [JVal.num 400, JVal.num 1200, JVal.num 3000] = x :: rest →
              ∃ w2 eff, keydown sampleHost w1 spaceKey = some (w2, eff)
                ∧ eff.scrollTarget = some x ∧ w2.playbackIndex = 1 :=
  ⟨rfl, rfl, rfl, rfl, ⟨rfl, Or.inl rfl⟩,
    loop_back_then_first sampleHost playedPage spaceKey spaceKey
      [JVal.num 400, JVal.num 1200, JVal.num 3000] rfl rfl rfl rfl
      ⟨rfl, Or.inl rfl⟩ ⟨rfl, Or.inl rfl⟩⟩

/-- C6.  For a numeric target different from the current offset and a positive
viewport height, `smoothScrollTo` registers one animation whose duration is
`max(200, min(|target - start| / innerHeight * 100, 4000))`, a value between 200 and
4000.  In the scenario (checkpoints 400, 1200, 3000, viewport height 800, start at
offset 0, each animation run to its end before the next press) the three playback
steps go from 0 over 400, from 400 over 800 and from 1200 over 1800, with durations
200, 200 and 225. -/
theorem animation_duration (h : Host) (w : World) (target : ℚ) (idx : Nat)
    (hne : target ≠ w.scrollY) (hvh : 0 < w.innerHeight) :
    (smoothScrollTo h w (JVal.num target) idx).1.frames
        = w.frames ++ [⟨w.scrollY, JSNum.fin (target - w.scrollY),
            JSNum.fin (max 200 (min (|target - w.scrollY| / w.innerHeight * 100) 4000)),
            none, idx, JVal.num target⟩]
      ∧ (200 : ℚ) ≤ max 200 (min (|target - w.scrollY| / w.innerHeight * 100) 4000)
      ∧ max 200 (min (|target - w.scrollY| / w.innerHeight * 100) 4000) ≤ (4000 : ℚ)
      ∧ ∃ w1 w2 w3 : World,
          run h scenarioPage [Event.key spaceKey] = some w1
          ∧ pendingAnimations w1 = [(0, JSNum.fin 400, JSNum.fin 200)]
          ∧ run h w1 [Event.frame 1000, Event.frame 1200, Event.key spaceKey] = some w2
          ∧ pendingAnimations w2 = [(400, JSNum.fin 800, JSNum.fin 200)]
          ∧ run h w2 [Event.frame 2000, Event.frame 2200, Event.key spaceKey] = some w3
          ∧ pendingAnimations w3 = [(1200, JSNum.fin 1800, JSNum.fin 225)] := by
  refine ⟨?_, le_max_left _ _, max_le (by norm_num) (min_le_right _ _), ?_⟩
  · rw [smoothScrollTo_num h w target idx hne (ne_of_gt hvh)]
  · have hp : Pressed spaceKey " " " " := ⟨rfl, Or.inl rfl⟩
    have cps : List JVal := [JVal.num 400, JVal.num 1200, JVal.num 3000]
    have k1 := space_advance_num h scenarioPage spaceKey hp rfl rfl
      [JVal.num 400, JVal.num 1200, JVal.num 3000] rfl (by decide) 400 rfl
      (by simp [scenarioPage]) (by simp [scenarioPage])
    have f1 := two_frames_finish h
      ⟨Mode.playback, JVal.arr [JVal.num 400, JVal.num 1200, JVal.num 3000], 1, true, [], 0, 800,
        [⟨0, JSNum.fin 400, JSNum.fin 200, none, 1, JVal.num 400⟩]⟩
      ⟨0, JSNum.fin 400, JSNum.fin 200, none, 1, JVal.num 400⟩ 400 1000 200 rfl rfl rfl rfl
      (by norm_num) (by norm_num)
    have k2 := space_advance_num h
      ⟨Mode.playback, JVal.arr [JVal.num 400, JVal.num 1200, JVal.num 3000], 1, false, [], 400, 800,
        []⟩ spaceKey hp rfl rfl
      [JVal.num 400, JVal.num 1200, JVal.num 3000] rfl (by decide) 1200 rfl
      (by norm_num) (by norm_num)
    have f2 := two_frames_finish h
      ⟨Mode.playback, JVal.arr [JVal.num 400, JVal.num 1200, JVal.num 3000], 2, true, [], 400, 800,
        [⟨400, JSNum.fin 800, JSNum.fin 200, none, 2, JVal.num 1200⟩]⟩
      ⟨400, JSNum.fin 800, JSNum.fin 200, none, 2, JVal.num 1200⟩ 800 2000 200 rfl rfl rfl rfl
      (by norm_num) (by norm_num)
    have k3 := space_advance_num h
      ⟨Mode.playback, JVal.arr [JVal.num 400, JVal.num 1200, JVal.num 3000], 2, false, [], 1200,
        800, []⟩ spaceKey hp rfl rfl
      [JVal.num 400, JVal.num 1200, JVal.num 3000] rfl (by decide) 3000 rfl
      (by norm_num) (by norm_num)
    have e1 : (1000 : ℚ) + 200 = 1200 := by norm_num
    have e2 : (2000 : ℚ) + 200 = 2200 := by norm_num
    rw [e1] at f1
    rw [e2] at f2
    norm_num at f1 f2
    refine ⟨⟨Mode.playback, JVal.arr [JVal.num 400, JVal.num 1200, JVal.num 3000], 1, true, [], 0,
        800, [⟨0, JSNum.fin 400, JSNum.fin 200, none, 1, JVal.num 400⟩]⟩,
      ⟨Mode.playback, JVal.arr [JVal.num 400, JVal.num 1200, JVal.num 3000], 2, true, [], 400,
        800, [⟨400, JSNum.fin 800, JSNum.fin 200, none, 2, JVal.num 1200⟩]⟩,
      ⟨Mode.playback, JVal.arr [JVal.num 400, JVal.num 1200, JVal.num 3000], 3, true, [], 1200,
        800, [⟨1200, JSNum.fin 1800, JSNum.fin 225, none, 3, JVal.num 3000⟩]⟩,
      ?_, rfl, ?_, rfl, ?_, rfl⟩
    · simp only [run, next, k1, Option.map_some']
      simp only [scenarioPage]
      norm_num
    · rw [show [Event.frame 1000, Event.frame 1200, Event.key spaceKey]
          = [Event.frame 1000, Event.frame 1200] ++ [Event.key spaceKey] from rfl,
        run_append, f1]
      simp only [Option.some_bind, run, next, k2, Option.map_some']
      norm_num
    · rw [show [Event.frame 2000, Event.frame 2200, Event.key spaceKey]
          = [Event.frame 2000, Event.frame 2200] ++ [Event.key spaceKey] from rfl,
        run_append, f2]
      simp only [Option.some_bind, run, next, k3, Option.map_some']
      norm_num

/-- Witness of C6: the first step of the scenario, from offset 0 to offset 400. -/
theorem animation_duration_witness :
    (400 : ℚ) ≠ scenarioPage.scrollY ∧ 0 < scenarioPage.innerHeight
      ∧ (smoothScrollTo sampleHost scenarioPage (JVal.num 400) 1).1.frames
          = scenarioPage.frames ++ [⟨scenarioPage.scrollY, JSNum.fin (400 - scenarioPage.scrollY),
              JSNum.fin (max 200
                (min (|400 - scenarioPage.scrollY| / scenarioPage.innerHeight * 100) 4000)),
              none, 1, JVal.num 400⟩] :=
  ⟨by norm_num [scenarioPage], by norm_num [scenarioPage],
    (animation_duration sampleHost scenarioPage 400 1 (by norm_num [scenarioPage])
      (by norm_num [scenarioPage])).1⟩

/-- C7.  A keydown event whose target is an `input` or `textarea` element (tag name
compared in lower case) or is content-editable leaves the whole page as it is,
whatever the key: mode, checkpoints, playbackIndex, busy flag, store and scroll
offset; it has no effect at all (no `preventDefault`, no log line). -/
theorem form_field_keys_ignored (h : Host) (w : World) (e : KeyEvent)
    (ht : toLowerCase (e.tagName.getD "") = "input" ∨ toLowerCase (e.tagName.getD "") = "textarea"
      ∨ e.isContentEditable = true) :
    keydown h w e = some (w, Effects.nothing) := by
  have hi : shouldIgnoreKey e = true := by
    simp only [shouldIgnoreKey, Bool.or_eq_true, decide_eq_true_eq]
    tauto
  simp [keydown, hi]

/-- Witness of C7: the key r typed into an `INPUT` element. -/
theorem form_field_keys_ignored_witness :
    (toLowerCase ((KeyEvent.mk "r" (some "INPUT") false).tagName.getD "") = "input"
        ∨ toLowerCase ((KeyEvent.mk "r" (some "INPUT") false).tagName.getD "") = "textarea"
        ∨ (KeyEvent.mk "r" (some "INPUT") false).isContentEditable = true)
      ∧ keydown sampleHost playedPage (KeyEvent.mk "r" (some "INPUT") false)
          = some (playedPage, Effects.nothing) :=
  ⟨Or.inl rfl,
    form_field_keys_ignored sampleHost playedPage (KeyEvent.mk "r" (some "INPUT") false)
      (Or.inl rfl)⟩

/-- C8, evaluated at a failing input.  With the text `5` stored under the page's
key, `init` leaves the page idle with `checkpoints` equal to the number 5: a
reachable page in which `checkpoints` is no sequence, so that
`0 ≤ playbackIndex ≤ checkpoints.length` does not hold.  (`init` assigns the decoded
value to `checkpoints` before it checks that it is an array.) -/
theorem index_invariant_broken_by_load :
    Reachable sampleHost (init sampleHost [("scroll-assist:/", "5")] 0 800).1
      ∧ (init sampleHost [("scroll-assist:/", "5")] 0 800).1.mode = Mode.idle
      ∧ (init sampleHost [("scroll-assist:/", "5")] 0 800).1.checkpoints = JVal.num 5
      ∧ ¬ IndexInRange (init sampleHost [("scroll-assist:/", "5")] 0 800).1 := by
  have hg : getItem [("scroll-assist:/", "5")] (STORAGE_KEY sampleHost) = some "5" := rfl
  have hi : init sampleHost [("scroll-assist:/", "5")] 0 800
      = (⟨Mode.idle, JVal.num 5, 0, false, [("scroll-assist:/", "5")], 0, 800, []⟩,
          [LogMsg.ready]) := by
    simp [init, hg, JSON_parse_five]
  refine ⟨Reachable.load _ _ _, ?_, ?_, ?_⟩
  · rw [hi]
  · rw [hi]
  · rw [hi]
    rintro ⟨xs, hxs, _⟩
    cases hxs

/-- C9 fails as stated.  The stored text `["a"]` decodes to an array that is not an
array of numbers, yet `init` enters playback mode with that array as checkpoints. -/
theorem init_plays_array_of_strings :
    getItem [("scroll-assist:/", "[\"a\"]")] (STORAGE_KEY sampleHost) = some "[\"a\"]"
      ∧ JSON_parse "[\"a\"]" = some (JVal.arr [JVal.str "a"])
      ∧ (JVal.arr [JVal.str "a"]).isNumberArray = false
      ∧ (init sampleHost [("scroll-assist:/", "[\"a\"]")] 0 800).1.mode = Mode.playback
      ∧ (init sampleHost [("scroll-assist:/", "[\"a\"]")] 0 800).1.checkpoints
          = JVal.arr [JVal.str "a"] := by
  have hi := init_of_array sampleHost [("scroll-assist:/", "[\"a\"]")] 0 800 "[\"a\"]"
    (JVal.str "a") [] rfl rfl
  refine ⟨rfl, rfl, rfl, ?_, ?_⟩ <;> rw [hi]

/-- C9 as amended.  If the stored text fails to decode, or decodes to a value that
is not an array, or decodes to the empty array, then `init` leaves mode idle and
playbackIndex 0; and where the text fails to decode or decodes to the empty array
the checkpoint sequence is empty.  (`init` is total: a failed decode is caught.) -/
theorem init_falls_back_to_idle (h : Host) (store : Storage) (y0 h0 : ℚ) (text : String)
    (hg : getItem store (STORAGE_KEY h) = some text)
    (hbad : JSON_parse text = none
      ∨ ∃ v, JSON_parse text = some v ∧ (v.isArray = false ∨ v = JVal.arr [])) :
    (init h store y0 h0).1.mode = Mode.idle
      ∧ (init h store y0 h0).1.playbackIndex = 0
      ∧ ((JSON_parse text = none ∨ JSON_parse text = some (JVal.arr [])) →
          (init h store y0 h0).1.checkpoints = JVal.arr []) := by
  have hno : ¬ ∃ t x xs, getItem store (STORAGE_KEY h) = some t
      ∧ JSON_parse t = some (JVal.arr (x :: xs)) := by
    rintro ⟨t, x, xs, ht, hp⟩
    have htt : t = text := by
      rw [hg] at ht
      exact (Option.some.inj ht).symm
    subst htt
    rcases hbad with hb | ⟨v, hv, hb⟩
    · rw [hb] at hp; cases hp
    · rw [hv] at hp
      cases hp
      rcases hb with hb | hb
      · cases hb
      · cases hb
  rcases init_shape h store y0 h0 with ⟨t, x, xs, ht, hp, _⟩ | ⟨_, v, hi, hv⟩
  · exact absurd ⟨t, x, xs, ht, hp⟩ hno
  · rw [hi]
    refine ⟨rfl, rfl, ?_⟩
    intro hp
    rcases hv with hv | ⟨t, ht, hpt⟩
    · exact hv
    · have htt : t = text := by
        rw [hg] at ht
        exact (Option.some.inj ht).symm
      subst htt
      rcases hp with hp | hp
      · rw [hp] at hpt; cases hpt
      · rw [hp] at hpt
        exact (Option.some.inj hpt).symm

/-- Witness of the amended C9: a stored text that is no JSON. -/
theorem init_falls_back_to_idle_witness :
    getItem [("scroll-assist:/", "not json")] (STORAGE_KEY sampleHost) = some "not json"
      ∧ JSON_parse "not json" = none
      ∧ (init sampleHost [("scroll-assist:/", "not json")] 0 800).1.mode = Mode.idle
      ∧ (init sampleHost [("scroll-assist:/", "not json")] 0 800).1.playbackIndex = 0
      ∧ ((JSON_parse "not json" = none ∨ JSON_parse "not json" = some (JVal.arr [])) →
          (init sampleHost [("scroll-assist:/", "not json")] 0 800).1.checkpoints = JVal.arr []) :=
  ⟨rfl, rfl,
    init_falls_back_to_idle sampleHost [("scroll-assist:/", "not json")] 0 800 "not json" rfl
      (Or.inl rfl)⟩

/-- C10.  After `init`, mode is playback with playbackIndex 0 exactly when a value
is stored under the page's key and decodes to a non-empty array; in every other case
(no value, empty text, decode failure, non-array, empty array) mode is idle. -/
theorem init_mode (h : Host) (store : Storage) (y0 h0 : ℚ) :
    (((init h store y0 h0).1.mode = Mode.playback ∧ (init h store y0 h0).1.playbackIndex = 0)
        ↔ ∃ text x xs, getItem store (STORAGE_KEY h) = some text
            ∧ JSON_parse text = some (JVal.arr (x :: xs)))
      ∧ ((¬ ∃ text x xs, getItem store (STORAGE_KEY h) = some text
            ∧ JSON_parse text = some (JVal.arr (x :: xs)))
          → (init h store y0 h0).1.mode = Mode.idle) := by
  rcases init_shape h store y0 h0 with ⟨t, x, xs, ht, hp, hi⟩ | ⟨hno, v, hi, _⟩
  · refine ⟨⟨fun _ => ⟨t, x, xs, ht, hp⟩, fun _ => by rw [hi]; exact ⟨rfl, rfl⟩⟩, ?_⟩
    intro hno
    exact absurd ⟨t, x, xs, ht, hp⟩ hno
  · refine ⟨⟨fun hm => ?_, fun hex => absurd hex hno⟩, fun _ => by rw [hi]⟩
    rw [hi] at hm
    exact Mode.noConfusion hm.1

/-- C11.  In every page reachable from a load by key presses, animation frames,
scrolling and resizing, at most one animation callback is registered, and the busy
flag is set exactly when one is; and a key press registers a new callback only if
the busy flag was clear, the page then having exactly that one. -/
theorem one_animation_in_flight (h : Host) (w : World) (hr : Reachable h w) :
    w.frames.length ≤ 1
      ∧ (w.isScrolling = true ↔ w.frames ≠ [])
      ∧ ∀ e w1 eff, keydown h w e = some (w1, eff) → w1.frames ≠ w.frames →
          w.isScrolling = false ∧ w.frames = [] ∧ ∃ a, w1.frames = [a] := by
  have hw := Reachable.atMostOne h w hr
  refine ⟨?_, ?_, ?_⟩
  · rcases hw with ⟨hf, _⟩ | ⟨a, hf, _⟩ <;> simp [hf]
  · rcases hw with ⟨hf, hb⟩ | ⟨a, hf, hb⟩ <;> simp [hf, hb]
  · intro e w1 eff hk hne
    rcases keydown_frames h w w1 e eff hk with ⟨hf, _⟩ | ⟨hb, _, a, hf⟩
    · exact absurd hf hne
    · rcases hw with ⟨hf0, _⟩ | ⟨a0, _, hb0⟩
      · rw [hf0] at hf
        exact ⟨hb, hf0, a, hf⟩
      · rw [hb] at hb0
        cases hb0

/-- Witness of C11, on the page loaded with the single checkpoint 400.  After its
first Space press one animation is in flight and the busy flag is set, and no key
press can register another callback; the press that started the animation found
the busy flag clear and no callback registered. -/
theorem one_animation_in_flight_witness :
    Reachable sampleHost loadedFirstStep
      ∧ loadedFirstStep.isScrolling = true
      ∧ loadedFirstStep.frames = [⟨0, JSNum.fin 400, JSNum.fin 200, none, 1, JVal.num 400⟩]
      ∧ loadedFirstStep.frames.length ≤ 1
      ∧ (loadedFirstStep.isScrolling = true ↔ loadedFirstStep.frames ≠ [])
      ∧ (∀ e w1 eff, keydown sampleHost loadedFirstStep e = some (w1, eff) →
          w1.frames = loadedFirstStep.frames)
      ∧ Reachable sampleHost loadedPage
      ∧ keydown sampleHost loadedPage spaceKey
          = some (loadedFirstStep, ⟨true, [], some (JVal.num 400)⟩)
      ∧ loadedFirstStep.frames ≠ loadedPage.frames
      ∧ loadedPage.isScrolling = false ∧ loadedPage.frames = []
      ∧ ∃ a, loadedFirstStep.frames = [a] :=
  ⟨loadedFirstStep_reachable, rfl, rfl,
    (one_animation_in_flight sampleHost loadedFirstStep loadedFirstStep_reachable).1,
    (one_animation_in_flight sampleHost loadedFirstStep loadedFirstStep_reachable).2.1,
    fun e w1 eff hk => Classical.byContradiction fun hne =>
      Bool.noConfusion
        ((one_animation_in_flight sampleHost loadedFirstStep loadedFirstStep_reachable).2.2
          e w1 eff hk hne).1,
    loadedPage_reachable, loadedPage_press sampleHost, List.cons_ne_nil _ _,
    (one_animation_in_flight sampleHost loadedPage loadedPage_reachable).2.2
      spaceKey loadedFirstStep ⟨true, [], some (JVal.num 400)⟩ (loadedPage_press sampleHost)
      (List.cons_ne_nil _ _)⟩

/-- C12, evaluated at a failing input.  For a scroll over exactly one viewport
height (from offset 0 to offset 800 in a viewport 800 pixels high) the duration
`smoothScrollTo` computes is 200 ms, not 1000 ms: `MS_PER_VIEWPORT` is 100, which
gives 100 ms, and the clamp raises it to 200 ms. -/
theorem one_viewport_takes_200_ms :
    JSNum.mul (JSNum.div (JSNum.abs (JSNum.fin 800)) (JSNum.fin oneViewportPage.innerHeight))
        (JSNum.fin MS_PER_VIEWPORT) = JSNum.fin 100
      ∧ scrollDuration (JSNum.fin 800) oneViewportPage.innerHeight = JSNum.fin 200
      ∧ (smoothScrollTo sampleHost oneViewportPage (JVal.num 800) 1).1.frames
          = [⟨0, JSNum.fin 800, JSNum.fin 200, none, 1, JVal.num 800⟩]
      ∧ scrollDuration (JSNum.fin 800) oneViewportPage.innerHeight ≠ JSNum.fin 1000 := by
  have hd : scrollDuration (JSNum.fin 800) oneViewportPage.innerHeight = JSNum.fin 200 := by
    rw [scrollDuration_fin _ _ (by norm_num [oneViewportPage])]
    norm_num [oneViewportPage]
  refine ⟨?_, hd, ?_, ?_⟩
  · norm_num [JSNum.abs, JSNum.div, JSNum.mul, oneViewportPage, MS_PER_VIEWPORT]
  · rw [smoothScrollTo_num sampleHost oneViewportPage 800 1 (by norm_num [oneViewportPage])
      (by norm_num [oneViewportPage])]
    norm_num [oneViewportPage]
  · rw [hd]
    intro hc
    simp only [JSNum.fin.injEq] at hc
    norm_num at hc

/-- C13.  In recording mode, an S press that is let through appends to the
checkpoints, whatever they were (earlier entries, their order and duplicates kept),
the current scroll offset `y` rounded to the nearest integer, halves rounded up:
the integer `⌊y + 1/2⌋`, which is the integer `n` with `n - 1/2 ≤ y < n + 1/2`.
Nothing else changes: mode, playbackIndex, store, busy flag and scroll offset stay
as they are.  `checkpoints` is a sequence in every reachable recording page. -/
theorem save_appends (h : Host) (w : World) (e : KeyEvent)
    (he : Pressed e "s" "S") (hm : w.mode = Mode.recording) :
    (Reachable h w → ∃ xs, w.checkpoints = JVal.arr xs)
      ∧ ((⌊w.scrollY + 1 / 2⌋ : ℤ) : ℚ) - 1 / 2 ≤ w.scrollY
      ∧ w.scrollY < ((⌊w.scrollY + 1 / 2⌋ : ℤ) : ℚ) + 1 / 2
      ∧ ∀ xs, w.checkpoints = JVal.arr xs →
          keydown h w e = some
            ({ w with
                checkpoints := JVal.arr (xs ++ [JVal.num ((⌊w.scrollY + 1 / 2⌋ : ℤ) : ℚ)]) },
              ⟨true, [LogMsg.checkpointSaved (xs.length + 1) ((⌊w.scrollY + 1 / 2⌋ : ℤ) : ℚ)],
                none⟩) := by
  refine ⟨fun hr => ?_, ?_, ?_, fun xs hc => keydown_S h w e he xs hm hc⟩
  · obtain ⟨is, his⟩ := (Reachable.wellFormed h w hr).1 hm
    exact ⟨_, his⟩
  · have := Int.floor_le (w.scrollY + 1 / 2)
    linarith
  · have := Int.lt_floor_add_one (w.scrollY + 1 / 2)
    linarith

/-- Witness of C13: an upper-case S pressed at the offset 5/2 on a page that records
and already holds the checkpoints 10 and 10; the checkpoint 3 is appended. -/
theorem save_appends_witness :
    Pressed (plainKey "S") "s" "S" ∧ halfwayRecording.mode = Mode.recording
      ∧ halfwayRecording.checkpoints = JVal.arr [JVal.num 10, JVal.num 10]
      ∧ halfwayRecording.scrollY = 5 / 2
      ∧ keydown sampleHost halfwayRecording (plainKey "S") = some
          ({ halfwayRecording with
              checkpoints := JVal.arr [JVal.num 10, JVal.num 10, JVal.num 3] },
            ⟨true, [LogMsg.checkpointSaved 3 3], none⟩) := by
  have hk := (save_appends sampleHost halfwayRecording (plainKey "S") ⟨rfl, Or.inr rfl⟩
    rfl).2.2.2 [JVal.num 10, JVal.num 10] rfl
  have hf : ⌊(5 / 2 : ℚ) + 1 / 2⌋ = 3 := by
    rw [Int.floor_eq_iff]
    norm_num
  refine ⟨⟨rfl, Or.inr rfl⟩, rfl, rfl, rfl, ?_⟩
  rw [hk]
  simp only [halfwayRecording, hf]
  norm_num

/-- C14.  Inapplicable keys are no-ops: S or E pressed when mode is not recording,
Space pressed when mode is not playback, and any key other than `r`, `R`, `s`, `S`,
`e`, `E` and the space character leave the whole page as it is (mode, checkpoints,
playbackIndex, busy flag, store, scroll offset) and have no effect. -/
theorem inapplicable_keys_are_noops (h : Host) (w : World) (e : KeyEvent)
    (hk : ((e.key = "s" ∨ e.key = "S" ∨ e.key = "e" ∨ e.key = "E") ∧ w.mode ≠ Mode.recording)
      ∨ (e.key = " " ∧ w.mode ≠ Mode.playback)
      ∨ (e.key ≠ "r" ∧ e.key ≠ "R" ∧ e.key ≠ "s" ∧ e.key ≠ "S" ∧ e.key ≠ "e" ∧ e.key ≠ "E"
          ∧ e.key ≠ " ")) :
    keydown h w e = some (w, Effects.nothing) := by
  cases hi : shouldIgnoreKey e with
  | true => simp [keydown, hi]
  | false =>
    rcases hk with ⟨hkey, hm⟩ | ⟨hkey, hm⟩ | ⟨h1, h2, h3, h4, h5, h6, h7⟩
    · have hr := keydown_not_r e.key (by tauto)
      have hsp : e.key ≠ " " := by
        rcases hkey with hk | hk | hk | hk <;> rw [hk] <;> decide
      simp [keydown, hi, hr, hm, hsp]
    · have hr := keydown_not_r e.key (by tauto)
      simp [keydown, hi, hr, hm, hkey]
    · simp [keydown, hi, h1, h2, h3, h4, h5, h6, h7]

/-- Witness of C14: Space pressed on a page that records. -/
theorem inapplicable_keys_are_noops_witness :
    ((plainKey " ").key = " " ∧ emptyRecording.mode ≠ Mode.playback)
      ∧ keydown sampleHost emptyRecording (plainKey " ") = some (emptyRecording, Effects.nothing) :=
  ⟨⟨rfl, by decide⟩,
    inapplicable_keys_are_noops sampleHost emptyRecording (plainKey " ")
      (Or.inr (Or.inl ⟨rfl, by decide⟩))⟩

/-- C15 fails as stated.  An S press outside recording mode (here on an idle page)
leaves the page as it is and emits no log line at all. -/
theorem save_outside_recording_logs_nothing :
    shouldIgnoreKey (plainKey "s") = false ∧ idlePage.mode ≠ Mode.recording
      ∧ keydown sampleHost idlePage (plainKey "s") = some (idlePage, ⟨false, [], none⟩) :=
  ⟨rfl, by decide, rfl⟩

/-- C15 as amended.  For a key press that is let through: E pressed in recording
mode with zero checkpoints is rejected with the guidance line `No checkpoints
saved`, the page unchanged; S pressed when mode is not recording is rejected
silently, the page unchanged and no line logged. -/
theorem invalid_transitions (h : Host) (w : World) (e : KeyEvent)
    (hi : shouldIgnoreKey e = false) :
    ((e.key = "e" ∨ e.key = "E") → w.mode = Mode.recording → w.checkpoints = JVal.arr [] →
        keydown h w e = some (w, ⟨false, [LogMsg.noCheckpoints], none⟩))
      ∧ ((e.key = "s" ∨ e.key = "S") → w.mode ≠ Mode.recording →
          keydown h w e = some (w, ⟨false, [], none⟩)) := by
  refine ⟨fun hk hm hc => keydown_E_empty h w e ⟨hi, hk⟩ hm hc, fun hk hm => ?_⟩
  have hr := keydown_not_r e.key (by tauto)
  have hsp : e.key ≠ " " := by
    rcases hk with hk | hk <;> rw [hk] <;> decide
  simp [keydown, hi, hr, hm, hsp, Effects.nothing]

/-- Witness of the amended C15: the keys E and S outside any form field. -/
theorem invalid_transitions_witness :
    shouldIgnoreKey (plainKey "E") = false
      ∧ (((plainKey "E").key = "e" ∨ (plainKey "E").key = "E") →
          emptyRecording.mode = Mode.recording → emptyRecording.checkpoints = JVal.arr [] →
          keydown sampleHost emptyRecording (plainKey "E")
            = some (emptyRecording, ⟨false, [LogMsg.noCheckpoints], none⟩))
      ∧ (((plainKey "E").key = "s" ∨ (plainKey "E").key = "S") →
          emptyRecording.mode ≠ Mode.recording →
          keydown sampleHost emptyRecording (plainKey "E")
            = some (emptyRecording, ⟨false, [], none⟩)) :=
  ⟨rfl, invalid_transitions sampleHost emptyRecording (plainKey "E") rfl⟩

/-- C16 fails as stated.  An S press that is let through on a page in playback
mode, and a Space press that is let through on a page in recording mode, do not
call `preventDefault`. -/
theorem default_kept_in_other_modes :
    shouldIgnoreKey (plainKey "S") = false ∧ playedPage.mode = Mode.playback
      ∧ keydown sampleHost playedPage (plainKey "S") = some (playedPage, ⟨false, [], none⟩)
      ∧ shouldIgnoreKey (plainKey " ") = false ∧ emptyRecording.mode = Mode.recording
      ∧ keydown sampleHost emptyRecording (plainKey " ")
          = some (emptyRecording, ⟨false, [], none⟩) :=
  ⟨rfl, rfl, rfl, rfl, rfl, rfl⟩

/-- C16 as amended.  For a keydown event whose target is not a form field, on a
page whose checkpoints have the shape every reachable page has, the listener calls
`preventDefault` exactly when the key is S (either case) and mode is recording, or
the key is Space and mode is playback; for every other key, and for S or Space in
any other mode, the default action is not suppressed. -/
theorem default_suppressed_iff (h : Host) (w : World) (e : KeyEvent)
    (hi : shouldIgnoreKey e = false) (hw : WellFormed w) :
    ∃ w1 eff, keydown h w e = some (w1, eff)
      ∧ (eff.defaultPrevented = true ↔
          ((e.key = "s" ∨ e.key = "S") ∧ w.mode = Mode.recording)
            ∨ (e.key = " " ∧ w.mode = Mode.playback)) := by
  by_cases hr : e.key = "r" ∨ e.key = "R"
  · refine ⟨_, _, keydown_R h w e ⟨hi, hr⟩, ?_⟩
    have h1 : ¬ (e.key = "s" ∨ e.key = "S") := by
      rcases hr with hr | hr <;> rw [hr] <;> decide
    have h2 : e.key ≠ " " := by
      rcases hr with hr | hr <;> rw [hr] <;> decide
    simp [h1, h2]
  · by_cases hS : (e.key = "s" ∨ e.key = "S") ∧ w.mode = Mode.recording
    · obtain ⟨is, his⟩ := hw.1 hS.2
      refine ⟨_, _, keydown_S h w e ⟨hi, hS.1⟩ _ hS.2 his, ?_⟩
      simp [hS]
    · by_cases hE : (e.key = "e" ∨ e.key = "E") ∧ w.mode = Mode.recording
      · have h1 : ¬ (e.key = "s" ∨ e.key = "S") := by
          rcases hE.1 with hk | hk <;> rw [hk] <;> decide
        have h2 : e.key ≠ " " := by
          rcases hE.1 with hk | hk <;> rw [hk] <;> decide
        obtain ⟨is, his⟩ := hw.1 hE.2
        cases is with
        | nil =>
          refine ⟨_, _, keydown_E_empty h w e ⟨hi, hE.1⟩ hE.2 his, ?_⟩
          simp [h1, h2]
        | cons i is =>
          refine ⟨_, _, keydown_E h w e ⟨hi, hE.1⟩ (i :: is) (by simp) hE.2 his, ?_⟩
          simp [h1, h2]
      · by_cases hSp : e.key = " " ∧ w.mode = Mode.playback
        · have hp : Pressed e " " " " := ⟨hi, Or.inl hSp.1⟩
          cases hb : w.isScrolling with
          | true =>
            refine ⟨_, _, keydown_space_busy h w e hp hSp.2 hb, ?_⟩
            simp [hSp]
          | false =>
            obtain ⟨x, xs, hc⟩ := hw.2 hSp.2
            by_cases hlen : (x :: xs).length ≤ w.playbackIndex
            · refine ⟨_, _, keydown_space_loop h w e hp hSp.2 hb _ hc hlen, ?_⟩
              simp [hSp]
            · refine ⟨_, _, keydown_space_advance h w e hp hSp.2 hb _ hc
                (Nat.lt_of_not_le hlen), ?_⟩
              simp [hSp]
        · refine ⟨w, Effects.nothing, ?_, ?_⟩
          · simp only [keydown, hi, hr, hS, hE, hSp]
            simp
          · simp only [Effects.nothing]
            constructor
            · intro hc
              cases hc
            · intro hc
              rcases hc with hc | hc
              · exact absurd hc hS
              · exact absurd hc hSp

/-- Witness of the amended C16: an upper-case S pressed on a page that records. -/
theorem default_suppressed_iff_witness :
    shouldIgnoreKey (plainKey "S") = false ∧ WellFormed emptyRecording
      ∧ ∃ w1 eff, keydown sampleHost emptyRecording (plainKey "S") = some (w1, eff)
          ∧ (eff.defaultPrevented = true ↔
              (((plainKey "S").key = "s" ∨ (plainKey "S").key = "S")
                  ∧ emptyRecording.mode = Mode.recording)
                ∨ ((plainKey "S").key = " " ∧ emptyRecording.mode = Mode.playback)) :=
  ⟨rfl, ⟨fun _ => ⟨[], rfl⟩, fun hm => Mode.noConfusion hm⟩,
    default_suppressed_iff sampleHost emptyRecording (plainKey "S") rfl
      ⟨fun _ => ⟨[], rfl⟩, fun hm => Mode.noConfusion hm⟩⟩

/-- C17.  When the target converts to the current scroll offset, `smoothScrollTo`
completes at once: the page is left exactly as it was (busy flag not set, no
animation callback registered, scroll offset unchanged) and the completion line is
logged; and the Space press that issued the call, in playback mode with the busy
flag clear, still increments playbackIndex by one and changes nothing else. -/
theorem zero_distance_completes_at_once (h : Host) (w : World) (target : JVal) (idx : Nat)
    (ht : ToNumber h target = some (JSNum.fin w.scrollY)) :
    smoothScrollTo h w target idx = (w, [LogMsg.arrived idx w.checkpoints target])
      ∧ ∀ (e : KeyEvent) (xs : List JVal) (hi : w.playbackIndex < xs.length),
          Pressed e " " " " → w.mode = Mode.playback → w.isScrolling = false →
          w.checkpoints = JVal.arr xs → xs.get ⟨w.playbackIndex, hi⟩ = target →
          keydown h w e = some
            ({ w with playbackIndex := w.playbackIndex + 1 },
              ⟨true, [LogMsg.arrived (w.playbackIndex + 1) w.checkpoints target],
                some target⟩) := by
  refine ⟨smoothScrollTo_at_target h w target idx ht, ?_⟩
  intro e xs hi he hm hb hc hx
  rw [keydown_space_advance h w e he hm hb xs hc hi, hx,
    smoothScrollTo_at_target h { w with playbackIndex := w.playbackIndex + 1 } target
      (w.playbackIndex + 1) ht]

/-- Witness of C17: the played scenario page, which rests on its last checkpoint. -/
theorem zero_distance_completes_at_once_witness :
    ToNumber sampleHost (JVal.num 3000) = some (JSNum.fin playedPage.scrollY)
      ∧ smoothScrollTo sampleHost playedPage (JVal.num 3000) 3
          = (playedPage, [LogMsg.arrived 3 playedPage.checkpoints (JVal.num 3000)]) :=
  ⟨rfl, (zero_distance_completes_at_once sampleHost playedPage (JVal.num 3000) 3 rfl).1⟩

/-- C18 fails as stated, in two ways.  (a) On the page loaded with the stored text
`["a"]` the first Space press starts an animation whose target is not a number: its
progress and the position it writes are NaN, and its first frame is its last (the
busy flag is cleared).  (b) In binary64, the animation from the offset 56.35 to the
target -200 has the distance -256.35000000000002 and writes, on its final frame
(progress 1, busy flag cleared), the position -200.00000000000003, which is not
the target and lies beyond it. -/
theorem animation_misses_target :
    Reachable sampleHost stringFirstStep
      ∧ stringFirstStep.frames = [⟨0, JSNum.nan, JSNum.nan, none, 1, JVal.str "a"⟩]
      ∧ frameProgress ⟨0, JSNum.nan, JSNum.nan, none, 1, JVal.str "a"⟩ 1000 = JSNum.nan
      ∧ framePosition ⟨0, JSNum.nan, JSNum.nan, none, 1, JVal.str "a"⟩ JSNum.nan = JSNum.nan
      ∧ (animationFrame stringFirstStep 1000).1
          = { stringFirstStep with isScrolling := false, frames := [] }
      ∧ binary64.rnd (1127 / 20) = JSNum.fin fractionalPage.scrollY
      ∧ smoothScrollToWith binary64 sampleHost fractionalPage (JVal.num (-200)) 1
          = ({ fractionalPage with
                isScrolling := true
                frames := [⟨offset5635, JSNum.fin (-2254878446243021 / 8796093022208),
                  JSNum.fin 200, none, 1, JVal.num (-200)⟩] }, [])
      ∧ frameProgressWith binary64
            ⟨offset5635, JSNum.fin (-2254878446243021 / 8796093022208), JSNum.fin 200,
              some 1000, 1, JVal.num (-200)⟩ 1200 = JSNum.fin 1
      ∧ framePositionWith binary64
            ⟨offset5635, JSNum.fin (-2254878446243021 / 8796093022208), JSNum.fin 200,
              some 1000, 1, JVal.num (-200)⟩ (JSNum.fin 1)
          = JSNum.fin (-7036874417766401 / 35184372088832)
      ∧ (stepWith binary64
            ⟨offset5635, JSNum.fin (-2254878446243021 / 8796093022208), JSNum.fin 200,
              some 1000, 1, JVal.num (-200)⟩ 1200 fractionalPage).1.scrollY
          = -7036874417766401 / 35184372088832
      ∧ (stepWith binary64
            ⟨offset5635, JSNum.fin (-2254878446243021 / 8796093022208), JSNum.fin 200,
              some 1000, 1, JVal.num (-200)⟩ 1200 fractionalPage).1.isScrolling = false
      ∧ (-7036874417766401 / 35184372088832 : ℚ) < -200 := by
  have hp := final_frame_progress
    ⟨offset5635, JSNum.fin (-2254878446243021 / 8796093022208), JSNum.fin 200,
      some 1000, 1, JVal.num (-200)⟩ rfl rfl
  have hy := fractionalPage_landing (some 1000)
  have hst := stepWith_fin binary64 _ 1200 fractionalPage 1 _ hp hy
  exact ⟨stringFirstStep_reachable, rfl, stringFirstStep_frame.1, stringFirstStep_frame.2.1,
    stringFirstStep_frame.2.2, roundDouble_5635, fractionalPage_start, hp, hy, hst.1,
    (hst.2.2 (lt_irrefl 1)).1, by norm_num⟩

/-- C18 as amended.  As a real function `ease(t) = 1 - (1 - t)^5` is non-decreasing
on `[0, 1]` with values in `[0, 1]`; as computed, in any arithmetic that rounds
monotonically, `ease(0) = 0`, `ease(1) = 1` and `ease` has values in `[0, 1]` on
`[0, 1]`.  For a `smoothScrollTo` call whose target converts to a finite number `q`,
from a start offset `s` that is a number of the arithmetic, with a computed distance
`d = q - s` other than zero and a finite computed sum `l = s + d`: the animation
has a duration between 200 and 4000, and at every frame not earlier than its start
time the progress `p` is in `[0, 1]`, the position written
`s + d * ease(p)` lies between `s` and `l` and becomes the scroll offset; while
`p < 1` the callback is registered again, and on the final frame (`p < 1` false,
busy flag cleared) the position written is `l`.  `l` is the target `q` itself
when the subtraction `q - s` is exact and `q` is a number of the arithmetic. -/
theorem easing_never_overshoots (ar : Arith) (hs : ar.Sound) (h : Host) (w : World)
    (target : JVal) (idx : Nat) (q d l : ℚ)
    (hq : ToNumber h target = some (JSNum.fin q))
    (hstart : ar.rnd w.scrollY = JSNum.fin w.scrollY)
    (hd : ar.rnd (q - w.scrollY) = JSNum.fin d) (hd0 : d ≠ 0)
    (hl : ar.rnd (w.scrollY + d) = JSNum.fin l) :
    (∀ x : ℚ, ease (JSNum.fin x) = JSNum.fin (1 - (1 - x) ^ 5))
      ∧ (∀ x y : ℚ, 0 ≤ x → x ≤ y → y ≤ 1 →
          0 ≤ 1 - (1 - x) ^ 5 ∧ 1 - (1 - x) ^ 5 ≤ 1 - (1 - y) ^ 5 ∧ 1 - (1 - y) ^ 5 ≤ 1)
      ∧ easeWith ar (JSNum.fin 0) = JSNum.fin 0 ∧ easeWith ar (JSNum.fin 1) = JSNum.fin 1
      ∧ (∀ x : ℚ, 0 ≤ x → x ≤ 1 → ∃ e, easeWith ar (JSNum.fin x) = JSNum.fin e ∧ 0 ≤ e ∧ e ≤ 1)
      ∧ (∃ dur, 200 ≤ dur ∧ dur ≤ 4000
          ∧ smoothScrollToWith ar h w target idx
              = ({ w with
                    isScrolling := true
                    frames := w.frames
                      ++ [⟨w.scrollY, JSNum.fin d, JSNum.fin dur, none, idx, target⟩] }, [])
          ∧ ∀ (st : Option ℚ) (t : ℚ) (w1 : World), (∀ s, st = some s → s ≤ t) →
              ∃ p y,
                frameProgressWith ar ⟨w.scrollY, JSNum.fin d, JSNum.fin dur, st, idx, target⟩ t
                    = JSNum.fin p
                  ∧ 0 ≤ p ∧ p ≤ 1
                  ∧ framePositionWith ar
                      ⟨w.scrollY, JSNum.fin d, JSNum.fin dur, st, idx, target⟩ (JSNum.fin p)
                    = JSNum.fin y
                  ∧ min w.scrollY l ≤ y ∧ y ≤ max w.scrollY l
                  ∧ (stepWith ar ⟨w.scrollY, JSNum.fin d, JSNum.fin dur, st, idx, target⟩
                      t w1).1.scrollY = y
                  ∧ (p < 1 →
                      (stepWith ar ⟨w.scrollY, JSNum.fin d, JSNum.fin dur, st, idx, target⟩
                          t w1).1.frames
                        = w1.frames ++ [⟨w.scrollY, JSNum.fin d, JSNum.fin dur,
                            some (frameStart
                              ⟨w.scrollY, JSNum.fin d, JSNum.fin dur, st, idx, target⟩ t),
                            idx, target⟩]
                      ∧ (stepWith ar ⟨w.scrollY, JSNum.fin d, JSNum.fin dur, st, idx, target⟩
                          t w1).1.isScrolling = w1.isScrolling)
                  ∧ (¬ p < 1 →
                      y = l
                      ∧ (stepWith ar ⟨w.scrollY, JSNum.fin d, JSNum.fin dur, st, idx, target⟩
                          t w1).1.isScrolling = false
                      ∧ (stepWith ar ⟨w.scrollY, JSNum.fin d, JSNum.fin dur, st, idx, target⟩
                          t w1).1.frames = w1.frames))
      ∧ (d = q - w.scrollY → ar.rnd q = JSNum.fin q → l = q) := by
  obtain ⟨e0, e1, er⟩ := easeWith_range ar hs
  refine ⟨ease_fin, ease_bounds, e0, e1, er, ?_, ?_⟩
  · obtain ⟨dur, hdur, h200, h4000⟩ := scrollDurationWith_range ar hs d w.innerHeight hd0
    refine ⟨dur, h200, h4000, ?_, ?_⟩
    · rw [smoothScrollToWith_fin ar h w target idx q d hq hd hd0, hdur]
    · intro st t w1 hmono
      obtain ⟨p, hp, hp0, hp1⟩ := frameProgressWith_range ar hs
        ⟨w.scrollY, JSNum.fin d, JSNum.fin dur, st, idx, target⟩ t dur rfl (by linarith) hmono
      obtain ⟨y, hy, hy0, hy1, hfinal⟩ := framePositionWith_range ar hs
        ⟨w.scrollY, JSNum.fin d, JSNum.fin dur, st, idx, target⟩ d l p rfl hstart
        (hs.idem _ _ hd) hl hp0 hp1
      obtain ⟨s1, s2, s3⟩ := stepWith_fin ar
        ⟨w.scrollY, JSNum.fin d, JSNum.fin dur, st, idx, target⟩ t w1 p y hp hy
      refine ⟨p, y, hp, hp0, hp1, hy, hy0, hy1, s1, s2, fun hlt => ?_⟩
      exact ⟨hfinal (le_antisymm hp1 (not_lt.mp hlt)), (s3 hlt).1, (s3 hlt).2⟩
  · intro hdq hqq
    have hsum : w.scrollY + d = q := by
      rw [hdq]
      ring
    rw [hsum, hqq] at hl
    simp only [JSNum.fin.injEq] at hl
    exact hl.symm

/-- Witness of the amended C18, in binary64: the animation started by the first
Space press on the page loaded with the single checkpoint 400 (duration 200 ms).
Half way (start time 1000, frame at 1100) its progress is 1/2 and it writes the
position 387.5. -/
theorem easing_never_overshoots_witness :
    binary64.Sound
      ∧ ToNumber sampleHost (JVal.num 400) = some (JSNum.fin 400)
      ∧ binary64.rnd loadedPage.scrollY = JSNum.fin loadedPage.scrollY
      ∧ binary64.rnd (400 - loadedPage.scrollY) = JSNum.fin 400
      ∧ binary64.rnd (loadedPage.scrollY + 400) = JSNum.fin 400
      ∧ smoothScrollToWith binary64 sampleHost loadedPage (JVal.num 400) 1
          = ({ loadedPage with
                isScrolling := true
                frames := [⟨0, JSNum.fin 400, JSNum.fin 200, none, 1, JVal.num 400⟩] }, [])
      ∧ frameProgressWith binary64
            ⟨0, JSNum.fin 400, JSNum.fin 200, some 1000, 1, JVal.num 400⟩ 1100
          = JSNum.fin (1 / 2)
      ∧ framePositionWith binary64
            ⟨0, JSNum.fin 400, JSNum.fin 200, some 1000, 1, JVal.num 400⟩ (JSNum.fin (1 / 2))
          = JSNum.fin (775 / 2)
      ∧ (∃ dur, 200 ≤ dur ∧ dur ≤ 4000
          ∧ smoothScrollToWith binary64 sampleHost loadedPage (JVal.num 400) 1
              = ({ loadedPage with
                    isScrolling := true
                    frames := loadedPage.frames
                      ++ [⟨loadedPage.scrollY, JSNum.fin 400, JSNum.fin dur, none, 1,
                        JVal.num 400⟩] }, [])
          ∧ ∀ (st : Option ℚ) (t : ℚ) (w1 : World), (∀ s, st = some s → s ≤ t) →
              ∃ p y,
                frameProgressWith binary64
                    ⟨loadedPage.scrollY, JSNum.fin 400, JSNum.fin dur, st, 1, JVal.num 400⟩ t
                    = JSNum.fin p
                  ∧ 0 ≤ p ∧ p ≤ 1
                  ∧ framePositionWith binary64
                      ⟨loadedPage.scrollY, JSNum.fin 400, JSNum.fin dur, st, 1, JVal.num 400⟩
                      (JSNum.fin p) = JSNum.fin y
                  ∧ min loadedPage.scrollY 400 ≤ y ∧ y ≤ max loadedPage.scrollY 400
                  ∧ (stepWith binary64
                      ⟨loadedPage.scrollY, JSNum.fin 400, JSNum.fin dur, st, 1, JVal.num 400⟩
                      t w1).1.scrollY = y
                  ∧ (p < 1 →
                      (stepWith binary64
                          ⟨loadedPage.scrollY, JSNum.fin 400, JSNum.fin dur, st, 1,
                            JVal.num 400⟩ t w1).1.frames
                        = w1.frames ++ [⟨loadedPage.scrollY, JSNum.fin 400, JSNum.fin dur,
                            some (frameStart
                              ⟨loadedPage.scrollY, JSNum.fin 400, JSNum.fin dur, st, 1,
                                JVal.num 400⟩ t),
                            1, JVal.num 400⟩]
                      ∧ (stepWith binary64
                          ⟨loadedPage.scrollY, JSNum.fin 400, JSNum.fin dur, st, 1,
                            JVal.num 400⟩ t w1).1.isScrolling = w1.isScrolling)
                  ∧ (¬ p < 1 →
                      y = 400
                      ∧ (stepWith binary64
                          ⟨loadedPage.scrollY, JSNum.fin 400, JSNum.fin dur, st, 1,
                            JVal.num 400⟩ t w1).1.isScrolling = false
                      ∧ (stepWith binary64
                          ⟨loadedPage.scrollY, JSNum.fin 400, JSNum.fin dur, st, 1,
                            JVal.num 400⟩ t w1).1.frames = w1.frames)) := by
  have hstart : binary64.rnd loadedPage.scrollY = JSNum.fin loadedPage.scrollY :=
    binary64_sound.zero
  have hd : binary64.rnd (400 - loadedPage.scrollY) = JSNum.fin 400 := by
    rw [show (400 : ℚ) - loadedPage.scrollY = 400 by norm_num [loadedPage]]
    exact roundDouble_400
  have hl : binary64.rnd (loadedPage.scrollY + 400) = JSNum.fin 400 := by
    rw [show loadedPage.scrollY + (400 : ℚ) = 400 by norm_num [loadedPage]]
    exact roundDouble_400
  exact ⟨binary64_sound, rfl, hstart, hd, hl, loadedPage_start, loadedPage_halfway.1,
    loadedPage_halfway.2,
    (easing_never_overshoots binary64 binary64_sound sampleHost loadedPage (JVal.num 400) 1
      400 400 400 rfl hstart hd (by norm_num) hl).2.2.2.2.2.1⟩

/-- C19.  Start in playback mode at index 0 with the checkpoints `xs` and no
animation running, and press Space repeatedly, each press once the animation of the
previous one has completed (busy flag clear), animation frames passing in between.
After `k ≤ n` presses (`n` the number of checkpoints) the targets handed to
`smoothScrollTo` were `xs[0], ..., xs[k-1]` in this order and playbackIndex is `k`,
mode and checkpoints unchanged; after `n + 1` presses the last press made no call,
playbackIndex is back to 0 and the page equals the starting page up to its scroll
offset. -/
theorem playback_is_periodic (h : Host) (w : World) (xs : List JVal)
    (hm : w.mode = Mode.playback) (hi : w.playbackIndex = 0)
    (hb : w.isScrolling = false) (hf : w.frames = []) (hc : w.checkpoints = JVal.arr xs)
    (ts : List (Option JVal)) (w1 : World) (hp : Plays h w ts w1) :
    (ts.length ≤ xs.length →
        ts = (xs.take ts.length).map some ∧ w1.playbackIndex = ts.length
          ∧ w1.mode = Mode.playback ∧ w1.checkpoints = JVal.arr xs)
      ∧ (ts.length = xs.length + 1 →
          ts = xs.map some ++ [none] ∧ w1.playbackIndex = 0
            ∧ w1.checkpoints = JVal.arr xs
            ∧ w1 = { w with scrollY := w1.scrollY }) := by
  obtain ⟨_, i2, i3, i4, i5, i6, i7⟩ := Plays.invariant h w xs hm hi hb hf hc ts w1 hp
  refine ⟨fun hl => ⟨(i6 hl).1, (i6 hl).2, i2, i3⟩, fun hl => ?_⟩
  obtain ⟨j1, j2, j3, j4⟩ := i7 hl
  refine ⟨j1, j2, i3, ?_⟩
  cases w
  cases w1
  simp only at hm hi hb hf hc i2 i3 i4 i5 j2 j3 j4
  subst hm hi hb hf hc i2 i4 i5 j2 j3 j4
  simp [i3]

/-- Witness of C19: one full cycle on a page with the single checkpoint 800. -/
theorem playback_is_periodic_witness :
    oneViewportPage.mode = Mode.playback ∧ oneViewportPage.playbackIndex = 0
      ∧ oneViewportPage.isScrolling = false ∧ oneViewportPage.frames = []
      ∧ oneViewportPage.checkpoints = JVal.arr [JVal.num 800]
      ∧ Plays sampleHost oneViewportPage [some (JVal.num 800), none]
          (window_scrollTo { oneViewportPlayed with playbackIndex := 0 } (JSNum.fin 0))
      ∧ ([some (JVal.num 800), none] : List (Option JVal)).length = [JVal.num 800].length + 1
      ∧ (window_scrollTo { oneViewportPlayed with playbackIndex := 0 } (JSNum.fin 0)).playbackIndex
          = 0
      ∧ window_scrollTo { oneViewportPlayed with playbackIndex := 0 } (JSNum.fin 0)
          = { oneViewportPage with
              scrollY := (window_scrollTo { oneViewportPlayed with playbackIndex := 0 }
                (JSNum.fin 0)).scrollY } :=
  ⟨rfl, rfl, rfl, rfl, rfl, oneViewport_cycle, rfl,
    ((playback_is_periodic sampleHost oneViewportPage [JVal.num 800] rfl rfl rfl rfl rfl
      [some (JVal.num 800), none] _ oneViewport_cycle).2 rfl).2.1,
    ((playback_is_periodic sampleHost oneViewportPage [JVal.num 800] rfl rfl rfl rfl rfl
      [some (JVal.num 800), none] _ oneViewport_cycle).2 rfl).2.2.2⟩

end ScrollAssist
